import Mathlib

/-!
Far::PatchMap — quadtree index over the patches of a patch table.

A shallow embedding of `opensubdiv/far/patchMap.cpp`
(`PatchMap::QuadNode::SetChild`, `PatchMap::addChild`, `PatchMap::initialize`)
and theorems about it.

Conventions of the embedding.

* `std::vector` is a `List`; a `QuadNode *` into the quadtree vector is the index
  of the node, as long as the vector is not reallocated.
* `quadtree.reserve(nfaces + npatches)` sets the capacity of the node vector. A
  `push_back` on a vector with spare capacity leaves its storage where it is; a
  `push_back` on a full vector reallocates it: the nodes are copied to new storage
  and the old storage is freed. `addChild` takes its `parent` pointer before the
  `push_back` and writes through it afterwards; after a reallocation that pointer
  is dangling and the write goes to the freed storage (undefined behaviour in the
  source). In the embedding that write is lost: the reallocated vector holds the
  copies of the nodes made before it. The capacity a reallocated vector takes is
  left to the standard library; the build is parametrised by it (`Growth`).
* Indexing a vector outside its bounds is undefined behaviour in the source; the
  embedding stops with `BuildError.outOfBounds` there.
* `assert(not node->children[quadrant].isSet)` is taken as an active check; when
  it fails the embedding stops with `BuildError.slotOccupied`.
* Counters, depths, addresses and indices are natural numbers: the widths of the
  fields of `PatchParam::BitField`, `Handle` and `QuadNode::Child` are declared in
  headers that are not part of the sources at hand, and wrap-around of the `int`
  arithmetic of `initialize` is not modelled.
* `resolveQuadrant` is declared in `patchMap.h`, which is not part of the sources
  at hand; the build is parametrised by it (`Resolver`), and `resolveQuadrant`
  below is its model from the specification.
-/

namespace Far

/-- Handle of a patch: the patch array that holds it, its absolute index and the
offset of its first control vertex (`PatchMap::Handle`). -/
structure Handle where
  patchArrayIdx : Nat
  patchIdx : Nat
  vertexOffset : Nat
deriving DecidableEq, Repr

instance : Inhabited Handle := ⟨⟨0, 0, 0⟩⟩

/-- One child slot of a quadtree node (`PatchMap::QuadNode::Child`): `isSet` tells
whether the slot has been set, `isLeaf` whether `idx` is a handle index (leaf) or a
node index (branch). -/
structure Child where
  isSet : Bool
  isLeaf : Bool
  idx : Nat
deriving DecidableEq, Repr

/-- Quadtree node: four child slots (`PatchMap::QuadNode`). -/
structure QuadNode where
  children : Fin 4 → Child

/-- Modelled from the spec: the default-constructed node `QuadNode()`, whose
constructor is declared in `patchMap.h`; every slot of a fresh node is `unset`. -/
def QuadNode.empty : QuadNode := ⟨fun _ => ⟨false, false, 0⟩⟩

/-- The one-argument `QuadNode::SetChild(int patchIdx)`: sets all the children to
point to the patch of index `patchIdx`. -/
def QuadNode.SetChildAll (_n : QuadNode) (patchIdx : Nat) : QuadNode :=
  ⟨fun _ => ⟨true, true, patchIdx⟩⟩

/-- The three-argument `QuadNode::SetChild(quadrant, idx, isLeaf)`: sets the child
in `quadrant` to point to the node or patch of the given index. -/
def QuadNode.SetChild (n : QuadNode) (quadrant : Fin 4) (idx : Nat) (isLeaf : Bool) :
    QuadNode :=
  ⟨fun i => if i = quadrant then ⟨true, isLeaf, idx⟩ else n.children i⟩

/-- The quadtree under construction (`PatchMap::QuadTree`, a vector of nodes). -/
abbrev QuadTree := List QuadNode

/-- The slot `quadtree[node].children[quadrant]`, when `node` is a valid index. -/
def slot (quadtree : QuadTree) (node : Nat) (quadrant : Fin 4) : Option Child :=
  (quadtree[node]?).map fun nd => nd.children quadrant

/-- The capacity a full `std::vector` of the given capacity takes when `push_back`
reallocates it (the growth policy of the standard library). -/
abbrev Growth := Nat → Nat

/-- The growth policy of libstdc++: the capacity of a full vector doubles (a vector of
capacity 0 takes capacity 1). -/
def doubling : Growth := fun capacity => capacity + max capacity 1

/-- The capacity of a vector that has been given the capacity `reserved` by `reserve`
(exactly the capacity asked for) while it held no more elements than that, and has
since only grown by `push_back`, when it holds `size` elements: `push_back` on a full
vector gives it the capacity of the growth policy (at least one more than its
size). -/
def capacityAt (grow : Growth) (reserved : Nat) : Nat → Nat
  | 0 => reserved
  | size + 1 =>
    if size < capacityAt grow reserved size then capacityAt grow reserved size
    else max (grow (capacityAt grow reserved size)) (size + 1)

/-- `PatchMap::addChild` on a node vector of capacity `capacity`: pushes a fresh node
on the tree, writes a branch to it in the slot `quadrant` through the `parent`
pointer, and returns the tree with the index of the new node. When the vector is
full the `push_back` reallocates it, `parent` is left pointing into the freed
storage, and the write does not reach the tree. -/
def addChild (capacity : Nat) (quadtree : QuadTree) (parent : Nat) (quadrant : Fin 4) :
    QuadTree × Nat :=
  let quadtree1 := quadtree ++ [QuadNode.empty]
  let idx := quadtree1.length - 1
  if quadtree.length < capacity then
    (quadtree1.modify (fun p => p.SetChild quadrant idx false) parent, idx)
  else (quadtree1, idx)

/-- A quadrant resolver: from `(median, u, v)` to the quadrant and the residual
`(u, v)` (the source passes `u` and `v` by reference). -/
abbrev Resolver := Nat → Nat → Nat → Fin 4 × Nat × Nat

/-- Modelled from the spec: `PatchMap::resolveQuadrant`, declared in `patchMap.h`.
The quadrant is `2·bit(v ≥ half) + bit(u ≥ half)`; when `u ≥ half`, `half` is
subtracted from `u` for the next level, and symmetrically for `v`. -/
def resolveQuadrant : Resolver := fun half u v =>
  (if u < half then (if v < half then 0 else 2) else (if v < half then 1 else 3),
   if u < half then u else u - half,
   if v < half then v else v - half)

/-- Decoded placement parameters of one patch (`PatchParam` with its `bitField`):
coarse face, depth, non-quad-root flag and integer address. -/
structure PatchParam where
  faceIndex : Nat
  depth : Nat
  nonQuadRoot : Bool
  u : Nat
  v : Nat
deriving DecidableEq, Repr

/-- What `initialize` reads of a `PatchTables::PatchArray`: the number of control
vertices of its descriptor, its number of patches and the index of its first patch
in the patch-param table. -/
structure PatchArray where
  numControlVertices : Nat
  numPatches : Nat
  patchIndex : Nat
deriving DecidableEq, Repr

/-- What `initialize` reads of a `PatchTables`: `GetNumPatches()`,
`GetPatchArrayVector()` and `GetPatchParamTable()`. -/
structure PatchTables where
  numPatches : Nat
  patchArrays : List PatchArray
  paramTable : List PatchParam
deriving DecidableEq, Repr

/-- One iteration of the nested loops `for arrayIdx ... for j ...` of `initialize`:
the array, the position `j` in it, the ring size of the array and the index
`parray.GetPatchIndex()+j` looked up in the patch-param table. -/
structure PatchRef where
  arrayIdx : Nat
  j : Nat
  ringsize : Nat
  paramIdx : Nat
deriving DecidableEq, Repr

/-- Iterations of the inner loop `for (j=0; j < parray.GetNumPatches(); ++j)` for
the array of index `arrayIdx`. -/
def arrayRefs (arrayIdx : Nat) (parray : PatchArray) : List PatchRef :=
  (List.range parray.numPatches).map fun j =>
    ⟨arrayIdx, j, parray.numControlVertices, parray.patchIndex + j⟩

/-- Iterations of the nested loops over the arrays `patchArrays`, the first of which
has index `arrayIdx`, in order. Both passes of `initialize` run over this sequence. -/
def patchRefsFrom : Nat → List PatchArray → List PatchRef
  | _, [] => []
  | arrayIdx, parray :: rest => arrayRefs arrayIdx parray ++ patchRefsFrom (arrayIdx + 1) rest

/-- Iterations of the nested loops of `initialize` over all the patch arrays. -/
def patchRefs (patchArrays : List PatchArray) : List PatchRef :=
  patchRefsFrom 0 patchArrays

/-- How a build stops short: a failed `assert` on an occupied leaf slot, or an
access outside the bounds of a vector. -/
inductive BuildError where
  | slotOccupied
  | outOfBounds
deriving DecidableEq, Repr

/-- First pass of `initialize` ("populate subpatch handles vector"): for each patch
writes `_handles[current]` and folds the face index into `nfaces`. Returns the
handles and `nfaces` (before the final `++nfaces`). -/
def populateHandles (paramTable : List PatchParam) :
    List PatchRef → List Handle → Nat → Nat → Except BuildError (List Handle × Nat)
  | [], handles, nfaces, _ => .ok (handles, nfaces)
  | r :: rest, handles, nfaces, current =>
    match paramTable[r.paramIdx]? with
    | none => .error .outOfBounds
    | some param =>
      if current < handles.length then
        populateHandles paramTable rest
          (handles.set current ⟨r.arrayIdx, current, r.j * r.ringsize⟩)
          (max nfaces param.faceIndex) (current + 1)
      else .error .outOfBounds

/-- One call of the resolver in the descent loop: iteration `k`, the node the loop is
at, the arguments `half`, `u`, `v` of the call and the quadrant returned. -/
structure Visit where
  k : Nat
  node : Nat
  half : Nat
  u : Nat
  v : Nat
  quadrant : Fin 4
deriving DecidableEq, Repr

/-- The loop `for (unsigned char k=0; k<depth; ++k)` of `initialize`, with `n` the
number of iterations left (`depth - k`) and `cap` the capacity of the node vector as
a function of its size. Returns the tree and the log of the resolver calls in
order. -/
def descend (rq : Resolver) (cap : Nat → Nat) (handleIdx : Nat) (pdepth : Int) :
    Nat → Nat → Nat → Nat → Nat → Nat → QuadTree →
      Except BuildError (QuadTree × List Visit)
  | 0, _, _, _, _, _, quadtree => .ok (quadtree, [])
  | n + 1, k, node, half, u, v, quadtree =>
    let delta := half >>> 1
    let r := rq half u v
    let quadrant := r.1
    match quadtree[node]? with
    | none => .error .outOfBounds
    | some nd =>
      if (k : Int) = pdepth then
        if (nd.children quadrant).isSet then .error .slotOccupied
        else .ok (quadtree.set node (nd.SetChild quadrant handleIdx true),
                  [⟨k, node, half, u, v, quadrant⟩])
      else
        if !(nd.children quadrant).isSet then
          let a := addChild (cap quadtree.length) quadtree node quadrant
          (descend rq cap handleIdx pdepth n (k + 1) a.2 delta r.2.1 r.2.2 a.1).map
            fun res => (res.1, ⟨k, node, half, u, v, quadrant⟩ :: res.2)
        else
          if (nd.children quadrant).idx < quadtree.length then
            (descend rq cap handleIdx pdepth n (k + 1) (nd.children quadrant).idx
                delta r.2.1 r.2.2 quadtree).map
              fun res => (res.1, ⟨k, node, half, u, v, quadrant⟩ :: res.2)
          else .error .outOfBounds

/-- The `pdepth` of a patch: `depth-2` when `nonQuadRoot`, else `depth-1`. -/
def PatchParam.pdepth (param : PatchParam) : Int :=
  if param.nonQuadRoot then (param.depth : Int) - 2 else (param.depth : Int) - 1

/-- Whether the patch takes the special case `depth==(NonQuadRoot() ? 1 : 0)`. -/
def PatchParam.wholeFace (param : PatchParam) : Bool :=
  param.depth == (if param.nonQuadRoot then 1 else 0)

/-- Body of the placement loop of `initialize` for one patch: the root lookup, the
whole-face special case, and the descent. Returns the tree and the log of the
resolver calls. (`1 << pdepth` with a negative `pdepth` is only reached with
`depth = 0`, where the loop does not run and `half` is not used.) -/
def placePatch (rq : Resolver) (cap : Nat → Nat) (param : PatchParam) (handleIdx : Nat)
    (quadtree : QuadTree) : Except BuildError (QuadTree × List Visit) :=
  match quadtree[param.faceIndex]? with
  | none => .error .outOfBounds
  | some root =>
    if param.wholeFace then
      .ok (quadtree.set param.faceIndex (root.SetChildAll handleIdx), [])
    else
      descend rq cap handleIdx param.pdepth param.depth 0 param.faceIndex
        (1 <<< param.pdepth.toNat) param.u param.v quadtree

/-- Second pass of `initialize` ("populate the quadtree from the FarPatchArrays
sub-patches"): places the patches in order, `handleIdx` counting them. -/
def populateQuadtree (rq : Resolver) (cap : Nat → Nat) (paramTable : List PatchParam) :
    List PatchRef → QuadTree → Nat → Except BuildError QuadTree
  | [], quadtree, _ => .ok quadtree
  | r :: rest, quadtree, handleIdx =>
    match paramTable[r.paramIdx]? with
    | none => .error .outOfBounds
    | some param =>
      match placePatch rq cap param handleIdx quadtree with
      | .error e => .error e
      | .ok res => populateQuadtree rq cap paramTable rest res.1 (handleIdx + 1)

/-- The built index: the handle table `_handles` and the node store `_quadtree`. -/
structure PatchMap where
  handles : List Handle
  quadtree : QuadTree

/-- `PatchMap::initialize`, on a map whose `_handles` and `_quadtree` are empty (as
the constructor leaves them). The node vector is reserved to `nfaces + npatches` and
resized to `nfaces`. -/
def initializeMap (rq : Resolver) (grow : Growth) (patchTables : PatchTables) :
    Except BuildError PatchMap :=
  let npatches := patchTables.numPatches
  if npatches = 0 then .ok ⟨[], []⟩
  else
    let refs := patchRefs patchTables.patchArrays
    match populateHandles patchTables.paramTable refs
        (List.replicate npatches default) 0 0 with
    | .error e => .error e
    | .ok hn =>
      let nfaces := hn.2 + 1
      match populateQuadtree rq (capacityAt grow (nfaces + npatches))
          patchTables.paramTable refs (List.replicate nfaces QuadNode.empty) 0 with
      | .error e => .error e
      | .ok quadtree => .ok ⟨hn.1, quadtree⟩

/-- Modelled from the spec: the descent of the Locator (§4.4; `FindPatch` is declared
in `patchMap.h`). From node `node`: resolve the quadrant; an unset slot is
not-found, a leaf slot gives its handle index, a branch slot moves to the referenced
node with `half` halved. `n` bounds the number of steps. Coordinates are integer
addresses at the resolution given by the initial `half`. -/
def findLeaf (rq : Resolver) (quadtree : QuadTree) :
    Nat → Nat → Nat → Nat → Nat → Option Nat
  | 0, _, _, _, _ => none
  | n + 1, node, half, u, v =>
    match quadtree[node]? with
    | none => none
    | some nd =>
      let r := rq half u v
      let c := nd.children r.1
      if !c.isSet then none
      else if c.isLeaf then some c.idx
      else findLeaf rq quadtree n c.idx (half >>> 1) r.2.1 r.2.2

/-- Modelled from the spec: the point-location query of the Locator (§4.4): descend
from the root node of face `faceid` for at most `maxDepth` steps and return the
handle of the leaf reached, or not-found (`none`). -/
def findPatch (rq : Resolver) (pm : PatchMap) (maxDepth faceid half u v : Nat) :
    Option Handle :=
  match findLeaf rq pm.quadtree maxDepth faceid half u v with
  | none => none
  | some idx => pm.handles[idx]?

/-- The four slots of a node, in quadrant order. -/
def QuadNode.toList (n : QuadNode) : List Child :=
  [n.children 0, n.children 1, n.children 2, n.children 3]

/-- The slots of every node of a tree, in node order. -/
def treeView (quadtree : QuadTree) : List (List Child) :=
  quadtree.map QuadNode.toList

/-- A set leaf slot holding handle index `h`. -/
def Child.leaf (h : Nat) : Child := ⟨true, true, h⟩

/-- A set branch slot holding node index `i`. -/
def Child.branch (i : Nat) : Child := ⟨true, false, i⟩

/-- An unset slot, as in a fresh node. -/
def Child.unset : Child := ⟨false, false, 0⟩

/-- A patch table with a single patch array of ring size 16 that holds the patches
`params`, in order. -/
def singleArrayTable (params : List PatchParam) : PatchTables :=
  ⟨params.length, [⟨16, params.length, 0⟩], params⟩

/-- Two whole-face patches (depth 0, quad root) that both claim coarse face 0. -/
def twoWholeFaceTable : PatchTables :=
  singleArrayTable [⟨0, 0, false, 0, 0⟩, ⟨0, 0, false, 0, 0⟩]

/-- One coarse face with a single patch of depth 3 at address (0,0). -/
def deepPatchTable : PatchTables :=
  singleArrayTable [⟨0, 3, false, 0, 0⟩]

/-- A depth-1 patch in quadrant 0 of face 0, followed by a whole-face patch of the
same face. -/
def leafThenWholeFaceTable : PatchTables :=
  singleArrayTable [⟨0, 1, false, 0, 0⟩, ⟨0, 0, false, 0, 0⟩]

/-- One coarse quad face (id 0) with four depth-1 patches at addresses (0,0), (1,0),
(0,1), (1,1). -/
def fourQuadrantsTable : PatchTables :=
  singleArrayTable [⟨0, 1, false, 0, 0⟩, ⟨0, 1, false, 1, 0⟩, ⟨0, 1, false, 0, 1⟩,
    ⟨0, 1, false, 1, 1⟩]

/-- The tree `T'` extends `T`: it has at least as many nodes, and every slot that is
set in `T` holds the same value in `T'`. -/
def Extends (T T' : QuadTree) : Prop :=
  T.length ≤ T'.length ∧
    ∀ n q c, slot T n q = some c → c.isSet = true → slot T' n q = some c

/-- Every branch slot of the tree refers to a node that is not one of the first `F`
(the roots) and that exists. -/
def BranchRange (F : Nat) (T : QuadTree) : Prop :=
  ∀ n q c, slot T n q = some c → c.isSet = true → c.isLeaf = false →
    F ≤ c.idx ∧ c.idx < T.length

/-- The parameters of the patches of the iterations `refs`, when every lookup
`paramTable[parray.GetPatchIndex()+j]` is within the table. -/
def refParams (paramTable : List PatchParam) : List PatchRef → Option (List PatchParam)
  | [] => some []
  | r :: rest =>
    match paramTable[r.paramIdx]?, refParams paramTable rest with
    | some param, some params => some (param :: params)
    | _, _ => none

/-- The placement loop over patches whose parameters have been looked up: places
`params` in order, `handleIdx` counting them. -/
def placeAll (rq : Resolver) (cap : Nat → Nat) :
    List PatchParam → QuadTree → Nat → Except BuildError QuadTree
  | [], quadtree, _ => .ok quadtree
  | param :: rest, quadtree, handleIdx =>
    match placePatch rq cap param handleIdx quadtree with
    | .error e => .error e
    | .ok res => placeAll rq cap rest res.1 (handleIdx + 1)

/-- The two updates the descent loop makes to the tree, each on a slot that is not
set: writing a leaf, and `addChild` (on a vector of any capacity). -/
inductive Step : QuadTree → QuadTree → Prop
  | leaf (T : QuadTree) (node : Nat) (nd : QuadNode) (q : Fin 4) (h : Nat) :
      T[node]? = some nd → (nd.children q).isSet = false →
      Step T (T.set node (nd.SetChild q h true))
  | branch (T : QuadTree) (capacity node : Nat) (nd : QuadNode) (q : Fin 4) :
      T[node]? = some nd → (nd.children q).isSet = false →
      Step T (addChild capacity T node q).1

/-- A sequence of updates of the descent loop. -/
def Steps (T T' : QuadTree) : Prop := Relation.ReflTransGen Step T T'

/-- The handle the first pass records for the patch of iteration `r` when the
counter `current` has value `k`. -/
def handleOf (r : PatchRef) (k : Nat) : Handle :=
  ⟨r.arrayIdx, k, r.j * r.ringsize⟩

/-- The value of `nfaces` after folding the face indices of `params` into it with
`std::max`. -/
def foldFaces (nfaces : Nat) (params : List PatchParam) : Nat :=
  params.foldl (fun m p => max m p.faceIndex) nfaces

/-- The index a build that completes returns (the empty index stands in when the
build stops short). -/
def builtMap (rq : Resolver) (grow : Growth) (patchTables : PatchTables) : PatchMap :=
  match initializeMap rq grow patchTables with
  | .ok pm => pm
  | .error _ => ⟨[], []⟩

/-- Two patch arrays (ring sizes 16 and 9) with two and one patches: a depth-2 patch
of face 0, a whole-face patch of face 2 and a depth-1 patch of face 1. -/
def twoArraysTable : PatchTables :=
  ⟨3, [⟨16, 2, 0⟩, ⟨9, 1, 2⟩],
    [⟨0, 2, false, 3, 1⟩, ⟨2, 0, false, 0, 0⟩, ⟨1, 1, false, 1, 0⟩]⟩

/-- The successive calls of the resolver made by `n` iterations of a descent that
starts with `(half, u, v)`: arguments and quadrant of each call; `half` is halved and
`(u, v)` replaced by the residual address from one call to the next. -/
def resolveSeq (rq : Resolver) : Nat → Nat → Nat → Nat → List (Nat × Nat × Nat × Fin 4)
  | 0, _, _, _ => []
  | n + 1, half, u, v =>
    (half, u, v, (rq half u v).1) ::
      resolveSeq rq n (half >>> 1) (rq half u v).2.1 (rq half u v).2.2

/-- The quadrant path of `n` levels of descent from `(half, u, v)`. -/
def qpath (rq : Resolver) (n half u v : Nat) : List (Fin 4) :=
  (resolveSeq rq n half u v).map fun c => c.2.2.2

/-- The path of a descent is free in the tree `T`: from `node`, with `m` levels
below the current one, every slot the descent meets before its last level is unset
or a branch to an existing node, and the slot of the last level is unset. -/
def pathFree (rq : Resolver) (T : QuadTree) : Nat → Nat → Nat → Nat → Nat → Bool
  | 0, node, half, u, v =>
    match slot T node (rq half u v).1 with
    | none => false
    | some c => !c.isSet
  | m + 1, node, half, u, v =>
    match slot T node (rq half u v).1 with
    | none => false
    | some c =>
      !c.isSet ||
        (!c.isLeaf && decide (c.idx < T.length) &&
          pathFree rq T m c.idx (half >>> 1) (rq half u v).2.1 (rq half u v).2.2)

/-- Where the build places a patch: the quadrant path of its leaf from the root of
its face. A whole-face patch has the empty path; a patch of the general case with
`pdepth ≥ 0` has the `pdepth + 1` quadrants of its descent; a patch with `nonQuadRoot`
and depth 0 is not placed (`none`). -/
def PatchParam.path (rq : Resolver) (param : PatchParam) : Option (List (Fin 4)) :=
  if param.wholeFace then some []
  else if 0 ≤ param.pdepth then
    some (qpath rq (param.pdepth.toNat + 1) (1 <<< param.pdepth.toNat) param.u param.v)
  else none

/-- A placement: handle index, coarse face and quadrant path of a placed patch. -/
structure Placed where
  h : Nat
  face : Nat
  path : List (Fin 4)
deriving DecidableEq, Repr

/-- The placements of the patches `params`, the first of which has handle index `h`,
in order. -/
def placements (rq : Resolver) : List PatchParam → Nat → List Placed
  | [], _ => []
  | param :: rest, h =>
    match param.path rq with
    | some P => ⟨h, param.faceIndex, P⟩ :: placements rq rest (h + 1)
    | none => placements rq rest (h + 1)

/-- Two placements do not overlap: on the same face, neither path is a prefix of the
other (equal paths included). -/
def Placed.Apart (a b : Placed) : Prop :=
  a.face = b.face → ¬ a.path <+: b.path ∧ ¬ b.path <+: a.path

instance (a b : Placed) : Decidable (a.Apart b) := by
  unfold Placed.Apart; infer_instance

/-- The placements are pairwise prefix-free. -/
def PrefixFree (pls : List Placed) : Prop := pls.Pairwise Placed.Apart

instance (pls : List Placed) : Decidable (PrefixFree pls) := by
  unfold PrefixFree; infer_instance

/-- The node reached from node `s` by following branch slots along the quadrants
`Q`, if every slot on the way is a branch. -/
def walk (T : QuadTree) : Nat → List (Fin 4) → Option Nat
  | s, [] => some s
  | s, q :: Q =>
    match slot T s q with
    | none => none
    | some c => if c.isSet && !c.isLeaf then walk T c.idx Q else none

/-- The tree `T` represents the placements `B`, with `addr` giving for each node its
face and the quadrant path from the root of that face: the first `F` nodes are the
roots; every other node hangs from the branch slot its address tells; a branch slot
leads to the node of the extended address and lies on the way to a placement of `A`;
a leaf slot holds the handle index of the placement of `B` at that address; and
every placement of `B` has its leaf in the tree. -/
structure InvA (F : Nat) (T : QuadTree) (addr : List (Nat × List (Fin 4)))
    (A B : Set Placed) : Prop where
  len : addr.length = T.length
  roots_le : F ≤ T.length
  root_addr : ∀ f, f < F → addr[f]? = some (f, [])
  parent : ∀ n a, F ≤ n → addr[n]? = some a →
    ∃ m Q q, a.2 = Q ++ [q] ∧ addr[m]? = some (a.1, Q) ∧
      slot T m q = some (Child.branch n)
  branch : ∀ n q c a, slot T n q = some c → c.isSet = true → c.isLeaf = false →
    addr[n]? = some a →
    addr[c.idx]? = some (a.1, a.2 ++ [q]) ∧
      ∃ p ∈ A, p.face = a.1 ∧ ∃ R, R ≠ [] ∧ p.path = a.2 ++ [q] ++ R
  leaf : ∀ n q c a, slot T n q = some c → c.isSet = true → c.isLeaf = true →
    addr[n]? = some a →
    ∃ p ∈ B, p.h = c.idx ∧ p.face = a.1 ∧
      (p.path = a.2 ++ [q] ∨ (p.path = [] ∧ a.2 = []))
  placed : ∀ p ∈ B,
    (p.path = [] → p.face < F ∧ ∀ q, slot T p.face q = some (Child.leaf p.h)) ∧
    (∀ Q q, p.path = Q ++ [q] →
      ∃ n, addr[n]? = some (p.face, Q) ∧ slot T n q = some (Child.leaf p.h))

/-- A depth-1 patch in quadrant 0 of face 0, followed by a depth-2 patch of the same
face whose cell lies inside that quadrant. -/
def nestedPatchTable : PatchTables :=
  singleArrayTable [⟨0, 1, false, 0, 0⟩, ⟨0, 2, false, 0, 1⟩]

/-- The node store is tree-shaped: every branch slot holds the index of an existing
node that is not one of the first `F` and comes after the node of the slot, and no
two branch slots hold the same node index. -/
def TreeShaped (F : Nat) (T : QuadTree) : Prop :=
  (∀ n q c, slot T n q = some c → c.isSet = true → c.isLeaf = false →
      F ≤ c.idx ∧ c.idx < T.length ∧ n < c.idx) ∧
  (∀ n q c n' q' c', slot T n q = some c → c.isSet = true → c.isLeaf = false →
      slot T n' q' = some c' → c'.isSet = true → c'.isLeaf = false →
      c.idx = c'.idx → n = n' ∧ q = q')

/-- The tree after the placement loop has placed `params` on `F` fresh roots (the
empty tree stands in when the loop stops short). -/
def treeAfter (rq : Resolver) (cap : Nat → Nat) (F : Nat) (params : List PatchParam) :
    QuadTree :=
  match placeAll rq cap params (List.replicate F QuadNode.empty) 0 with
  | .ok T => T
  | .error _ => []

/-- The largest number of nodes the placement of a patch can append: none for a
whole-face patch, `max(pdepth, 0)` otherwise. -/
def PatchParam.maxNewNodes (param : PatchParam) : Nat :=
  if param.wholeFace then 0 else param.pdepth.toNat

/-- The number of roots of the index of a table whose patches have the parameters
`params`: `nfaces` after `++nfaces`, or none when the table has no patch (the early
return of `initialize`). -/
def numRoots (patchTables : PatchTables) (params : List PatchParam) : Nat :=
  if patchTables.numPatches = 0 then 0 else foldFaces 0 params + 1

/-- Two faces: a whole-face patch of face 0 (`nonQuadRoot`, depth 1), then a patch
with `nonQuadRoot` and depth 0 on face 1, then a depth-3 patch of face 1. -/
def unplacedPatchTable : PatchTables :=
  singleArrayTable [⟨0, 1, true, 0, 0⟩, ⟨1, 0, true, 0, 0⟩, ⟨1, 3, false, 5, 2⟩]

/-- A depth-1 patch in quadrant 3 and one in quadrant 0 of face 0, followed by a
depth-2 patch of the same face whose cell lies inside quadrant 0. -/
def nestedSecondTable : PatchTables :=
  singleArrayTable [⟨0, 1, false, 1, 1⟩, ⟨0, 1, false, 0, 0⟩, ⟨0, 2, false, 0, 1⟩]

/-- Two faces: a depth-1 patch in quadrant 0 of face 1, followed by a depth-2 patch of
face 1 whose cell lies inside that quadrant. -/
def crossFaceTable : PatchTables :=
  singleArrayTable [⟨1, 1, false, 0, 0⟩, ⟨1, 2, false, 0, 1⟩]

/-- The branch prefixes of placements: for each placement, its face with the first
`i` quadrants of its path, for every `i` with `1 ≤ i` that is less than the length of
the path (for a patch of the general case, `1 ≤ i ≤ pdepth`). -/
def branchPrefixes (pls : List Placed) : List (Nat × List (Fin 4)) :=
  pls.flatMap fun p =>
    (List.range (p.path.length - 1)).map fun i => (p.face, p.path.take (i + 1))

/-- Three depth-2 patches of face 0, the first two in the same quadrant of the
face. -/
def sharedPrefixTable : PatchTables :=
  singleArrayTable [⟨0, 2, false, 0, 0⟩, ⟨0, 2, false, 1, 0⟩, ⟨0, 2, false, 2, 0⟩]

/-- A capacity that is never exhausted: a node vector that always has room for one
more node, so that no `push_back` reallocates it. -/
def unlimited : Nat → Nat := fun size => size + 1

/-- Two depth-4 patches of face 0 at addresses (0,0) and (1,0), whose quadrant paths
share their first three quadrants. -/
def deepSharedTable : PatchTables :=
  singleArrayTable [⟨0, 4, false, 0, 0⟩, ⟨0, 4, false, 1, 0⟩]

end Far

namespace Far

/-! ## Slots under the updates of the build -/

theorem slot_eq_some {T : QuadTree} {n : Nat} {q : Fin 4} {c : Child} :
    slot T n q = some c ↔ ∃ nd, T[n]? = some nd ∧ nd.children q = c := by
  simp [slot]

theorem slot_lt_length {T : QuadTree} {n : Nat} {q : Fin 4} {c : Child}
    (h : slot T n q = some c) : n < T.length := by
  obtain ⟨nd, hnd, _⟩ := slot_eq_some.1 h
  exact (List.getElem?_eq_some.1 hnd).1

theorem slot_of_getElem? {T : QuadTree} {n : Nat} {nd : QuadNode} (h : T[n]? = some nd)
    (q : Fin 4) : slot T n q = some (nd.children q) := by
  simp [slot, h]

theorem slot_set (T : QuadTree) (n : Nat) (nd : QuadNode) (hn : n < T.length)
    (n' : Nat) (q' : Fin 4) :
    slot (T.set n nd) n' q' = if n' = n then some (nd.children q') else slot T n' q' := by
  unfold slot
  by_cases h : n' = n
  · subst h; simp [List.getElem?_set_self hn]
  · rw [List.getElem?_set_ne (Ne.symm h)]; simp [h]

theorem slot_set_SetChild {T : QuadTree} {n : Nat} {nd : QuadNode} (hnd : T[n]? = some nd)
    (q : Fin 4) (i : Nat) (l : Bool) (n' : Nat) (q' : Fin 4) :
    slot (T.set n (nd.SetChild q i l)) n' q'
      = if n' = n ∧ q' = q then some ⟨true, l, i⟩ else slot T n' q' := by
  have hn : n < T.length := (List.getElem?_eq_some.1 hnd).1
  rw [slot_set T n _ hn]
  by_cases h : n' = n
  · subst h
    by_cases hq : q' = q
    · simp [hq, QuadNode.SetChild]
    · simp [hq, QuadNode.SetChild, slot, hnd]
  · simp [h]

theorem lt_unlimited (size : Nat) : size < unlimited size := Nat.lt_succ_self size

theorem addChild_snd (c : Nat) (T : QuadTree) (parent : Nat) (q : Fin 4) :
    (addChild c T parent q).2 = T.length := by
  unfold addChild
  split <;> simp

theorem addChild_length (c : Nat) (T : QuadTree) (parent : Nat) (q : Fin 4) :
    (addChild c T parent q).1.length = T.length + 1 := by
  unfold addChild
  split <;> simp

/-- On a vector with spare capacity `addChild` appends the node and writes the
branch. -/
theorem addChild_of_lt {c : Nat} {T : QuadTree} (hc : T.length < c) (parent : Nat)
    (q : Fin 4) :
    addChild c T parent q
      = ((T ++ [QuadNode.empty]).modify (fun p => p.SetChild q T.length false) parent,
          T.length) := by
  simp [addChild, hc]

/-- On a full vector `addChild` appends the node and the branch is not written. -/
theorem addChild_of_full {c : Nat} {T : QuadTree} (hc : ¬ T.length < c) (parent : Nat)
    (q : Fin 4) : addChild c T parent q = (T ++ [QuadNode.empty], T.length) := by
  simp [addChild, hc]

theorem slot_addChild_full {c : Nat} {T : QuadTree} (hc : ¬ T.length < c) (parent : Nat)
    (q : Fin 4) (n' : Nat) (q' : Fin 4) :
    slot (addChild c T parent q).1 n' q'
      = if n' = T.length then some ⟨false, false, 0⟩ else slot T n' q' := by
  rw [addChild_of_full hc]
  unfold slot
  simp only [List.getElem?_append]
  by_cases hl : n' < T.length
  · have hne : n' ≠ T.length := Nat.ne_of_lt hl
    simp [hl, hne]
  · by_cases he : n' = T.length
    · subst he; simp [QuadNode.empty]
    · simp only [hl, he, if_false]
      rw [List.getElem?_eq_none (by simp; omega), List.getElem?_eq_none (by omega)]

theorem slot_addChild {c : Nat} {T : QuadTree} {parent : Nat} (hc : T.length < c)
    (hp : parent < T.length) (q : Fin 4) (n' : Nat) (q' : Fin 4) :
    slot (addChild c T parent q).1 n' q'
      = if n' = parent ∧ q' = q then some ⟨true, false, T.length⟩
        else if n' = T.length then some ⟨false, false, 0⟩ else slot T n' q' := by
  rw [addChild_of_lt hc]
  unfold slot
  simp only [List.getElem?_modify, List.getElem?_append]
  by_cases h : n' = parent
  · subst h
    have hne : n' ≠ T.length := Nat.ne_of_lt hp
    by_cases hq : q' = q
    · subst hq
      simp [hp, QuadNode.SetChild, List.getElem?_eq_getElem hp]
    · simp [hp, hq, hne, QuadNode.SetChild, List.getElem?_eq_getElem hp]
  · by_cases hl : n' < T.length
    · have hne : n' ≠ T.length := Nat.ne_of_lt hl
      simp [hl, h, hne, Ne.symm h, List.getElem?_eq_getElem hl]
    · by_cases he : n' = T.length
      · subst he; simp [h, Ne.symm h, QuadNode.empty]
      · have : T.length < n' := by omega
        have h1 : ¬ n' - T.length = 0 := by omega
        simp [hl, h, he, Ne.symm h]
        rw [List.getElem?_eq_none (by simp; omega), List.getElem?_eq_none (by omega)]

/-- A set slot of the tree `addChild` returns is a set slot of the tree before, or the
branch written on a vector with spare capacity. -/
theorem addChild_set_slot {c : Nat} {T : QuadTree} {parent : Nat} (hp : parent < T.length)
    {q : Fin 4} {n' : Nat} {q' : Fin 4} {ch : Child}
    (h : slot (addChild c T parent q).1 n' q' = some ch) (hset : ch.isSet = true) :
    slot T n' q' = some ch ∨
      (n' = parent ∧ q' = q ∧ ch = ⟨true, false, T.length⟩ ∧ T.length < c) := by
  have hold : (if n' = T.length then some ⟨false, false, 0⟩ else slot T n' q') = some ch →
      slot T n' q' = some ch := by
    intro h0
    by_cases hl : n' = T.length
    · simp only [hl, if_true, Option.some.injEq] at h0
      subst h0; cases hset
    · simpa [hl] using h0
  by_cases hroom : T.length < c
  · rw [slot_addChild hroom hp] at h
    by_cases hh : n' = parent ∧ q' = q
    · simp only [hh, and_self, if_true, Option.some.injEq] at h
      exact Or.inr ⟨hh.1, hh.2, h.symm, hroom⟩
    · simp only [hh, if_false] at h
      exact Or.inl (hold h)
  · rw [slot_addChild_full hroom] at h
    exact Or.inl (hold h)

/-! ## Unfolding the loops -/

theorem except_map_eq_ok {ε α β : Type} {f : α → β} {x : Except ε α} {y : β}
    (h : x.map f = .ok y) : ∃ z, x = .ok z ∧ f z = y := by
  cases x with
  | error e => simp [Except.map] at h
  | ok z => exact ⟨z, rfl, by simpa [Except.map] using h⟩

theorem descend_zero (rq : Resolver) (cap : Nat → Nat) (h : Nat) (pd : Int)
    (k node half u v : Nat)
    (T : QuadTree) : descend rq cap h pd 0 k node half u v T = .ok (T, []) := rfl

/-- One iteration of the descent loop at a valid node. -/
theorem descend_succ (rq : Resolver) (cap : Nat → Nat)
    (h : Nat) (pd : Int) (n k node half u v : Nat)
    {T : QuadTree} {nd : QuadNode} (hnd : T[node]? = some nd) :
    descend rq cap h pd (n + 1) k node half u v T =
      if (k : Int) = pd then
        if (nd.children (rq half u v).1).isSet then .error .slotOccupied
        else .ok (T.set node (nd.SetChild (rq half u v).1 h true),
                  [⟨k, node, half, u, v, (rq half u v).1⟩])
      else
        if (nd.children (rq half u v).1).isSet = false then
          (descend rq cap h pd n (k + 1) (addChild (cap T.length) T node (rq half u v).1).2
              (half >>> 1) (rq half u v).2.1 (rq half u v).2.2
              (addChild (cap T.length) T node (rq half u v).1).1).map
            fun res => (res.1, ⟨k, node, half, u, v, (rq half u v).1⟩ :: res.2)
        else
          if (nd.children (rq half u v).1).idx < T.length then
            (descend rq cap h pd n (k + 1) (nd.children (rq half u v).1).idx (half >>> 1)
                (rq half u v).2.1 (rq half u v).2.2 T).map
              fun res => (res.1, ⟨k, node, half, u, v, (rq half u v).1⟩ :: res.2)
          else .error .outOfBounds := by
  rw [descend]
  simp only [hnd]
  by_cases hk : (k : Int) = pd
  · simp [hk]
  · by_cases hs : (nd.children (rq half u v).1).isSet = false
    · simp [hk, hs]
    · simp [hk, hs]

theorem descend_invalid (rq : Resolver) (cap : Nat → Nat)
    (h : Nat) (pd : Int) (n k node half u v : Nat)
    {T : QuadTree} (hnd : T[node]? = none) :
    descend rq cap h pd (n + 1) k node half u v T = .error .outOfBounds := by
  rw [descend]; simp [hnd]

theorem populateQuadtree_eq_placeAll (rq : Resolver) (cap : Nat → Nat)
    (paramTable : List PatchParam) :
    ∀ (refs : List PatchRef) (params : List PatchParam) (T : QuadTree) (h : Nat),
      refParams paramTable refs = some params →
      populateQuadtree rq cap paramTable refs T h = placeAll rq cap params T h := by
  intro refs
  induction refs with
  | nil =>
    intro params T h hp
    simp only [refParams, Option.some.injEq] at hp
    subst hp; rfl
  | cons r rest ih =>
    intro params T h hp
    simp only [refParams] at hp
    cases hr : paramTable[r.paramIdx]? with
    | none => simp [hr] at hp
    | some param =>
      cases hrest : refParams paramTable rest with
      | none => simp [hr, hrest] at hp
      | some ps =>
        simp only [hr, hrest, Option.some.injEq] at hp
        subst hp
        simp only [populateQuadtree, hr, placeAll]
        cases placePatch rq cap param h T with
        | error e => rfl
        | ok res => exact ih ps res.1 (h + 1) hrest

theorem refParams_length {paramTable : List PatchParam} :
    ∀ {refs : List PatchRef} {params : List PatchParam},
      refParams paramTable refs = some params → params.length = refs.length := by
  intro refs
  induction refs with
  | nil => intro params hp; simp only [refParams, Option.some.injEq] at hp; subst hp; rfl
  | cons r rest ih =>
    intro params hp
    simp only [refParams] at hp
    cases hr : paramTable[r.paramIdx]? with
    | none => simp [hr] at hp
    | some param =>
      cases hrest : refParams paramTable rest with
      | none => simp [hr, hrest] at hp
      | some ps =>
        simp only [hr, hrest, Option.some.injEq] at hp
        subst hp
        simp [ih hrest]

theorem refParams_getElem? {paramTable : List PatchParam} :
    ∀ {refs : List PatchRef} {params : List PatchParam},
      refParams paramTable refs = some params →
      ∀ i : Nat, params[i]? = (refs[i]?).bind fun (r : PatchRef) => paramTable[r.paramIdx]? := by
  intro refs
  induction refs with
  | nil => intro params hp i; simp only [refParams, Option.some.injEq] at hp; subst hp; simp
  | cons r rest ih =>
    intro params hp i
    simp only [refParams] at hp
    cases hr : paramTable[r.paramIdx]? with
    | none => simp [hr] at hp
    | some param =>
      cases hrest : refParams paramTable rest with
      | none => simp [hr, hrest] at hp
      | some ps =>
        simp only [hr, hrest, Option.some.injEq] at hp
        subst hp
        cases i with
        | zero => simp [hr]
        | succ i => simpa using ih hrest i

/-- A first pass that completes has found every parameter lookup within the table. -/
theorem populateHandles_refParams {paramTable : List PatchParam} :
    ∀ {refs : List PatchRef} {handles : List Handle} {nfaces current : Nat}
      {res : List Handle × Nat},
      populateHandles paramTable refs handles nfaces current = .ok res →
      ∃ params, refParams paramTable refs = some params := by
  intro refs
  induction refs with
  | nil => intro _ _ _ _ _; exact ⟨[], rfl⟩
  | cons r rest ih =>
    intro handles nfaces current res hres
    simp only [populateHandles] at hres
    cases hr : paramTable[r.paramIdx]? with
    | none => simp [hr] at hres
    | some param =>
      simp only [hr] at hres
      by_cases hc : current < handles.length
      · simp only [hc, if_true] at hres
        obtain ⟨ps, hps⟩ := ih hres
        exact ⟨param :: ps, by simp [refParams, hr, hps]⟩
      · simp [hc] at hres

/-! ## The updates of a descent -/

theorem descend_steps (rq : Resolver) (cap : Nat → Nat) (h : Nat) (pd : Int) :
    ∀ (n k node half u v : Nat) (T : QuadTree) (res : QuadTree × List Visit),
      descend rq cap h pd n k node half u v T = .ok res → Steps T res.1 := by
  intro n
  induction n with
  | zero =>
    intro k node half u v T res hres
    rw [descend_zero] at hres
    cases hres
    exact Relation.ReflTransGen.refl
  | succ n ih =>
    intro k node half u v T res hres
    cases hnd : T[node]? with
    | none => rw [descend_invalid rq _ h pd n k node half u v hnd] at hres; cases hres
    | some nd =>
      rw [descend_succ rq _ h pd n k node half u v hnd] at hres
      by_cases hk : (k : Int) = pd
      · simp only [hk, if_true] at hres
        by_cases hs : (nd.children (rq half u v).1).isSet = true
        · simp [hs] at hres
        · simp only [hs] at hres
          cases hres
          exact Relation.ReflTransGen.single
            (Step.leaf T node nd _ h hnd (by simpa using hs))
      · simp only [hk, if_false] at hres
        by_cases hs : (nd.children (rq half u v).1).isSet = false
        · simp only [hs, if_true] at hres
          obtain ⟨z, hz, hzr⟩ := except_map_eq_ok hres
          have := ih _ _ _ _ _ _ z hz
          subst hzr
          exact Relation.ReflTransGen.head (Step.branch T _ node nd _ hnd hs) this
        · simp only [hs, if_false] at hres
          by_cases hi : (nd.children (rq half u v).1).idx < T.length
          · simp only [hi, if_true] at hres
            obtain ⟨z, hz, hzr⟩ := except_map_eq_ok hres
            have := ih _ _ _ _ _ _ z hz
            subst hzr
            exact this
          · simp [hi] at hres

/-- What a placement that completes does to the tree: the whole-face case rewrites
the root of the face, the general case is a sequence of updates of the descent. -/
theorem placePatch_cases {rq : Resolver} {cap : Nat → Nat}
    {param : PatchParam} {h : Nat} {T : QuadTree}
    {res : QuadTree × List Visit} (hres : placePatch rq cap param h T = .ok res) :
    ∃ root, T[param.faceIndex]? = some root ∧
      ((param.wholeFace = true ∧
          res = (T.set param.faceIndex (root.SetChildAll h), [])) ∨
       (param.wholeFace = false ∧ Steps T res.1)) := by
  unfold placePatch at hres
  cases hroot : T[param.faceIndex]? with
  | none => simp [hroot] at hres
  | some root =>
    refine ⟨root, rfl, ?_⟩
    simp only [hroot] at hres
    by_cases hw : param.wholeFace = true
    · simp only [hw, if_true] at hres
      cases hres
      exact Or.inl ⟨hw, rfl⟩
    · simp only [hw] at hres
      exact Or.inr ⟨by simpa using hw, descend_steps rq _ h _ _ _ _ _ _ _ _ _ hres⟩

theorem extends_refl (T : QuadTree) : Extends T T :=
  ⟨Nat.le_refl _, fun _ _ _ h _ => h⟩

theorem extends_trans {T1 T2 T3 : QuadTree} (h12 : Extends T1 T2) (h23 : Extends T2 T3) :
    Extends T1 T3 :=
  ⟨Nat.le_trans h12.1 h23.1, fun n q c h hs => h23.2 n q c (h12.2 n q c h hs) hs⟩

theorem extends_of_step {T T' : QuadTree} (hstep : Step T T') : Extends T T' := by
  cases hstep with
  | leaf node nd q h hnd hs =>
    refine ⟨by simp, ?_⟩
    intro n' q' c hc hset
    rw [slot_set_SetChild hnd]
    by_cases hh : n' = node ∧ q' = q
    · obtain ⟨rfl, rfl⟩ := hh
      rw [slot_of_getElem? hnd] at hc
      cases hc
      rw [hs] at hset; cases hset
    · simp [hh, hc]
  | branch c0 node nd q hnd hs =>
    have hp : node < T.length := (List.getElem?_eq_some.1 hnd).1
    refine ⟨by rw [addChild_length]; omega, ?_⟩
    intro n' q' c hc hset
    have hn' := slot_lt_length hc
    by_cases hroom : T.length < c0
    · rw [slot_addChild hroom hp]
      by_cases hh : n' = node ∧ q' = q
      · obtain ⟨rfl, rfl⟩ := hh
        rw [slot_of_getElem? hnd] at hc
        cases hc
        rw [hs] at hset; cases hset
      · simp [hh, hc, Nat.ne_of_lt hn']
    · rw [slot_addChild_full hroom]
      simp [hc, Nat.ne_of_lt hn']

theorem extends_of_steps {T T' : QuadTree} (hsteps : Steps T T') : Extends T T' := by
  induction hsteps with
  | refl => exact extends_refl T
  | tail _ hstep ih => exact extends_trans ih (extends_of_step hstep)

theorem branchRange_of_step {F : Nat} {T T' : QuadTree} (hstep : Step T T')
    (hF : F ≤ T.length) (hT : BranchRange F T) : BranchRange F T' := by
  cases hstep with
  | leaf node nd q h hnd hs =>
    intro n' q' c hc hset hleaf
    rw [slot_set_SetChild hnd] at hc
    by_cases hh : n' = node ∧ q' = q
    · simp only [hh, and_self, if_true, Option.some.injEq] at hc
      subst hc; cases hleaf
    · simp only [hh, if_false] at hc
      simpa using hT n' q' c hc hset hleaf
  | branch c0 node nd q hnd hs =>
    have hp : node < T.length := (List.getElem?_eq_some.1 hnd).1
    intro n' q' c hc hset hleaf
    rw [addChild_length]
    have hold : ∀ c, (if n' = T.length then some ⟨false, false, 0⟩ else slot T n' q')
        = some c → c.isSet = true → c.isLeaf = false →
        F ≤ c.idx ∧ c.idx < T.length + 1 := by
      intro c hc hset hleaf
      by_cases hl : n' = T.length
      · simp only [hl, if_true, Option.some.injEq] at hc
        subst hc; cases hset
      · simp only [hl, if_false] at hc
        have := hT n' q' c hc hset hleaf
        exact ⟨this.1, Nat.lt_succ_of_lt this.2⟩
    by_cases hroom : T.length < c0
    · rw [slot_addChild hroom hp] at hc
      by_cases hh : n' = node ∧ q' = q
      · simp only [hh, and_self, if_true, Option.some.injEq] at hc
        subst hc
        exact ⟨hF, Nat.lt_succ_self _⟩
      · simp only [hh, if_false] at hc
        exact hold c hc hset hleaf
    · rw [slot_addChild_full hroom] at hc
      exact hold c hc hset hleaf

theorem branchRange_of_steps {F : Nat} {T T' : QuadTree} (hsteps : Steps T T')
    (hF : F ≤ T.length) (hT : BranchRange F T) : BranchRange F T' := by
  induction hsteps with
  | refl => exact hT
  | tail hst hstep ih =>
    exact branchRange_of_step hstep (Nat.le_trans hF (extends_of_steps hst).1) ih

theorem branchRange_setChildAll {F : Nat} {T : QuadTree} (hT : BranchRange F T)
    (f : Nat) (root : QuadNode) (h : Nat) :
    BranchRange F (T.set f (root.SetChildAll h)) := by
  intro n' q' c hc hset hleaf
  by_cases hf : f < T.length
  · rw [slot_set T f _ hf] at hc
    by_cases hn : n' = f
    · simp only [hn, if_true, QuadNode.SetChildAll, Option.some.injEq] at hc
      subst hc; cases hleaf
    · simp only [hn, if_false] at hc
      simpa using hT n' q' c hc hset hleaf
  · rw [List.set_eq_of_length_le (by omega)] at hc ⊢
    exact hT n' q' c hc hset hleaf

/-- A placement that completes never shrinks the tree and keeps every branch slot
pointing at an existing non-root node. -/
theorem placePatch_branchRange {rq : Resolver} {cap : Nat → Nat} {param : PatchParam} {h F : Nat}
    {T : QuadTree} {res : QuadTree × List Visit}
    (hres : placePatch rq cap param h T = .ok res) (hF : F ≤ T.length)
    (hT : BranchRange F T) : F ≤ res.1.length ∧ BranchRange F res.1 := by
  obtain ⟨root, _, hcase⟩ := placePatch_cases hres
  rcases hcase with ⟨_, hr⟩ | ⟨_, hsteps⟩
  · subst hr
    exact ⟨by simpa using hF, branchRange_setChildAll hT _ _ _⟩
  · exact ⟨Nat.le_trans hF (extends_of_steps hsteps).1, branchRange_of_steps hsteps hF hT⟩

theorem placeAll_branchRange {rq : Resolver} {cap : Nat → Nat} {F : Nat} :
    ∀ {params : List PatchParam} {T T' : QuadTree} {h : Nat},
      placeAll rq cap params T h = .ok T' → F ≤ T.length → BranchRange F T →
      F ≤ T'.length ∧ BranchRange F T' := by
  intro params
  induction params with
  | nil =>
    intro T T' h hres hF hT
    simp only [placeAll, Except.ok.injEq] at hres
    subst hres; exact ⟨hF, hT⟩
  | cons p rest ih =>
    intro T T' h hres hF hT
    simp only [placeAll] at hres
    cases hp : placePatch rq cap p h T with
    | error e => simp [hp] at hres
    | ok res =>
      simp only [hp] at hres
      obtain ⟨h1, h2⟩ := placePatch_branchRange hp hF hT
      exact ih hres h1 h2

theorem branchRange_replicate (F : Nat) : BranchRange F (List.replicate F QuadNode.empty) := by
  intro n q c hc hset _
  obtain ⟨nd, hnd, hcq⟩ := slot_eq_some.1 hc
  rw [List.getElem?_replicate] at hnd
  split at hnd
  · cases hnd
    subst hcq
    simp [QuadNode.empty] at hset
  · cases hnd

/-! ## The first pass: handles and number of faces -/

theorem foldFaces_ge_start (params : List PatchParam) :
    ∀ nfaces, nfaces ≤ foldFaces nfaces params := by
  induction params with
  | nil => intro n; exact Nat.le_refl _
  | cons p rest ih =>
    intro n
    exact Nat.le_trans (Nat.le_max_left _ _) (ih (max n p.faceIndex))

theorem foldFaces_ge (params : List PatchParam) :
    ∀ nfaces, ∀ p ∈ params, p.faceIndex ≤ foldFaces nfaces params := by
  induction params with
  | nil => intro n p hp; cases hp
  | cons p0 rest ih =>
    intro n p hp
    rcases List.mem_cons.1 hp with rfl | hp
    · exact Nat.le_trans (Nat.le_max_right _ _) (foldFaces_ge_start rest _)
    · exact ih _ p hp

theorem foldFaces_mem (params : List PatchParam) :
    ∀ nfaces, foldFaces nfaces params = nfaces ∨
      ∃ p ∈ params, foldFaces nfaces params = p.faceIndex := by
  induction params with
  | nil => intro n; exact Or.inl rfl
  | cons p0 rest ih =>
    intro n
    rcases ih (max n p0.faceIndex) with h | ⟨p, hp, h⟩
    · rcases Nat.le_total n p0.faceIndex with hle | hle
      · right
        refine ⟨p0, List.mem_cons_self _ _, ?_⟩
        show foldFaces (max n p0.faceIndex) rest = _
        rw [h, Nat.max_eq_right hle]
      · left
        show foldFaces (max n p0.faceIndex) rest = _
        rw [h, Nat.max_eq_left hle]
    · exact Or.inr ⟨p, List.mem_cons_of_mem _ hp, h⟩

/-- What a first pass that completes returns: the folded face index, and a handle
table of the same length in which exactly the entries `current ..` of the patches
visited have been written. -/
theorem populateHandles_ok {paramTable : List PatchParam} :
    ∀ {refs : List PatchRef} {handles : List Handle} {nfaces current : Nat}
      {res : List Handle × Nat},
      populateHandles paramTable refs handles nfaces current = .ok res →
      (∃ params, refParams paramTable refs = some params ∧
          res.2 = foldFaces nfaces params) ∧
      res.1.length = handles.length ∧
      (refs ≠ [] → current + refs.length ≤ handles.length) ∧
      ∀ i : Nat, res.1[i]? =
        if current ≤ i ∧ i < current + refs.length then
          (refs[i - current]?).map fun r => handleOf r i
        else handles[i]? := by
  intro refs
  induction refs with
  | nil =>
    intro handles nfaces current res hres
    simp only [populateHandles, Except.ok.injEq] at hres
    subst hres
    refine ⟨⟨[], rfl, rfl⟩, rfl, fun h => absurd rfl h, ?_⟩
    intro i
    have : ¬ (current ≤ i ∧ i < current) := by omega
    simp [this]
  | cons r rest ih =>
    intro handles nfaces current res hres
    simp only [populateHandles] at hres
    cases hr : paramTable[r.paramIdx]? with
    | none => simp [hr] at hres
    | some param =>
      simp only [hr] at hres
      by_cases hc : current < handles.length
      · simp only [hc, if_true] at hres
        obtain ⟨⟨ps, hps, hfold⟩, hlen, hbound, hget⟩ := ih hres
        rw [List.length_set] at hlen hbound
        refine ⟨⟨param :: ps, by simp [refParams, hr, hps], by simpa [foldFaces] using hfold⟩,
          hlen, ?_, ?_⟩
        · intro _
          cases rest with
          | nil => simp; omega
          | cons r2 rest2 =>
            have := hbound (by simp)
            simp only [List.length_cons] at this ⊢
            omega
        · intro i
          rw [hget i]
          simp only [List.length_cons]
          by_cases h1 : current + 1 ≤ i ∧ i < current + 1 + rest.length
          · have h2 : current ≤ i ∧ i < current + (rest.length + 1) := by omega
            have h3 : i - current = (i - (current + 1)) + 1 := by omega
            simp [h1, h2, h3]
          · simp only [h1, if_false]
            by_cases h4 : i = current
            · subst h4
              have h2 : i ≤ i ∧ i < i + (rest.length + 1) := by omega
              simp [h2, List.getElem?_set_self hc, handleOf]
            · have h2 : ¬ (current ≤ i ∧ i < current + (rest.length + 1)) := by omega
              simp [h2, List.getElem?_set_ne (Ne.symm h4)]
      · simp [hc] at hres

theorem arrayRefs_length (a : Nat) (parray : PatchArray) :
    (arrayRefs a parray).length = parray.numPatches := by
  simp [arrayRefs]

theorem patchRefsFrom_length :
    ∀ (patchArrays : List PatchArray) (base : Nat),
      (patchRefsFrom base patchArrays).length
        = (patchArrays.map PatchArray.numPatches).sum := by
  intro patchArrays
  induction patchArrays with
  | nil => intro base; rfl
  | cons pa rest ih =>
    intro base
    simp [patchRefsFrom, arrayRefs_length, ih]

/-- The two passes of a build that completes on a table with patches. -/
theorem initializeMap_ok {rq : Resolver} {grow : Growth} {patchTables : PatchTables}
    {pm : PatchMap} (hne : patchTables.numPatches ≠ 0)
    (hbuild : initializeMap rq grow patchTables = .ok pm) :
    ∃ hn params,
      populateHandles patchTables.paramTable (patchRefs patchTables.patchArrays)
        (List.replicate patchTables.numPatches default) 0 0 = .ok hn ∧
      refParams patchTables.paramTable (patchRefs patchTables.patchArrays) = some params ∧
      hn.2 = foldFaces 0 params ∧ pm.handles = hn.1 ∧
      placeAll rq (capacityAt grow (hn.2 + 1 + patchTables.numPatches)) params
        (List.replicate (hn.2 + 1) QuadNode.empty) 0 = .ok pm.quadtree := by
  unfold initializeMap at hbuild
  simp only [hne, if_false] at hbuild
  cases hh : populateHandles patchTables.paramTable (patchRefs patchTables.patchArrays)
      (List.replicate patchTables.numPatches default) 0 0 with
  | error e => simp [hh] at hbuild
  | ok hn =>
    simp only [hh] at hbuild
    obtain ⟨⟨params, hps, hfold⟩, _⟩ := populateHandles_ok hh
    rw [populateQuadtree_eq_placeAll rq _ _ _ params _ _ hps] at hbuild
    cases hq : placeAll rq (capacityAt grow (hn.2 + 1 + patchTables.numPatches)) params
        (List.replicate (hn.2 + 1) QuadNode.empty) 0 with
    | error e => simp [hq] at hbuild
    | ok T =>
      simp only [hq, Except.ok.injEq] at hbuild
      subst hbuild
      exact ⟨hn, params, rfl, hps, hfold, rfl, hq⟩

/-- C4: on a table with patches whose build completes, the number of roots `F`
computed by the first pass (the folded face index plus one) is one more than the
largest face index of a patch; the node store has at least `F` nodes; the face index
of every patch is a valid index below `F`; and no branch slot of the finished tree
refers to one of the nodes `0..F-1`, which are thus the per-face roots. -/
theorem numFaces_and_roots (rq : Resolver) (grow : Growth)
    (patchTables : PatchTables) (pm : PatchMap)
    (params : List PatchParam) (hne : patchTables.numPatches ≠ 0)
    (hparams : refParams patchTables.paramTable (patchRefs patchTables.patchArrays)
      = some params)
    (hsome : params ≠ [])
    (hbuild : initializeMap rq grow patchTables = .ok pm) :
    ∃ hn, populateHandles patchTables.paramTable (patchRefs patchTables.patchArrays)
        (List.replicate patchTables.numPatches default) 0 0 = .ok hn ∧
      (∃ p ∈ params, hn.2 + 1 = 1 + p.faceIndex) ∧
      (∀ p ∈ params, p.faceIndex < hn.2 + 1) ∧
      hn.2 + 1 ≤ pm.quadtree.length ∧
      BranchRange (hn.2 + 1) pm.quadtree := by
  obtain ⟨hn, params', hh, hps, hfold, _, hplace⟩ := initializeMap_ok hne hbuild
  rw [hparams] at hps
  cases hps
  refine ⟨hn, hh, ?_, ?_, ?_⟩
  · rcases foldFaces_mem params 0 with h0 | ⟨p, hp, hpe⟩
    · obtain ⟨p, hp⟩ := List.exists_mem_of_ne_nil params hsome
      refine ⟨p, hp, ?_⟩
      have := foldFaces_ge params 0 p hp
      omega
    · exact ⟨p, hp, by omega⟩
  · intro p hp
    have := foldFaces_ge params 0 p hp
    omega
  · exact placeAll_branchRange hplace (by simp) (branchRange_replicate _)

/-- Witness of C4 on a table with two patch arrays and three coarse faces. -/
theorem numFaces_and_roots_witness :
    twoArraysTable.numPatches ≠ 0 ∧
    refParams twoArraysTable.paramTable (patchRefs twoArraysTable.patchArrays)
      = some twoArraysTable.paramTable ∧
    twoArraysTable.paramTable ≠ [] ∧
    initializeMap resolveQuadrant doubling twoArraysTable
      = .ok (builtMap resolveQuadrant doubling twoArraysTable) ∧
    ∃ hn, populateHandles twoArraysTable.paramTable (patchRefs twoArraysTable.patchArrays)
        (List.replicate twoArraysTable.numPatches default) 0 0 = .ok hn ∧
      (∃ p ∈ twoArraysTable.paramTable, hn.2 + 1 = 1 + p.faceIndex) ∧
      (∀ p ∈ twoArraysTable.paramTable, p.faceIndex < hn.2 + 1) ∧
      hn.2 + 1 ≤ (builtMap resolveQuadrant doubling twoArraysTable).quadtree.length ∧
      BranchRange (hn.2 + 1) (builtMap resolveQuadrant doubling twoArraysTable).quadtree :=
  ⟨by decide, by decide, by decide, rfl,
    numFaces_and_roots resolveQuadrant doubling twoArraysTable _ _ (by decide) (by decide)
      (by decide) rfl⟩

/-! ## Splitting the placement loop -/

theorem placeAll_append (rq : Resolver) (cap : Nat → Nat) :
    ∀ (xs ys : List PatchParam) (T : QuadTree) (h : Nat),
      placeAll rq cap (xs ++ ys) T h =
        match placeAll rq cap xs T h with
        | .error e => .error e
        | .ok T1 => placeAll rq cap ys T1 (h + xs.length) := by
  intro xs
  induction xs with
  | nil => intro ys T h; simp [placeAll]
  | cons x rest ih =>
    intro ys T h
    have e : (x :: rest) ++ ys = x :: (rest ++ ys) := rfl
    rw [e]
    simp only [placeAll, List.length_cons]
    cases placePatch rq cap x h T with
    | error e => rfl
    | ok res =>
      simp only []
      rw [ih]
      have : h + 1 + rest.length = h + (rest.length + 1) := by omega
      rw [this]

/-- A placement loop that completes and visits the patch of index `i`: the tree
before that patch, the result of placing it with handle index `h + i`, and the
remaining placements. -/
theorem placeAll_split {rq : Resolver} {cap : Nat → Nat}
    {params : List PatchParam} {T T' : QuadTree}
    {h i : Nat} {p : PatchParam} (hres : placeAll rq cap params T h = .ok T')
    (hp : params[i]? = some p) :
    ∃ T1 res, placeAll rq cap (params.take i) T h = .ok T1 ∧
      placePatch rq cap p (h + i) T1 = .ok res ∧
      placeAll rq cap (params.drop (i + 1)) res.1 (h + i + 1) = .ok T' := by
  obtain ⟨hi, hpe⟩ := List.getElem?_eq_some.1 hp
  have hsplit : params = params.take i ++ p :: params.drop (i + 1) := by
    rw [← hpe, List.getElem_cons_drop, List.take_append_drop]
  rw [hsplit, placeAll_append] at hres
  cases h1 : placeAll rq cap (params.take i) T h with
  | error e => simp [h1] at hres
  | ok T1 =>
    simp only [h1, placeAll, List.length_take, Nat.min_eq_left (Nat.le_of_lt hi)] at hres
    cases h2 : placePatch rq cap p (h + i) T1 with
    | error e => simp [h2] at hres
    | ok res =>
      simp only [h2] at hres
      exact ⟨T1, res, rfl, h2, hres⟩

/-! ## Builds within the capacity of the node vector -/

/-- A vector reserved to `reserved` keeps that capacity while it holds no more
elements. -/
theorem capacityAt_of_le (grow : Growth) (reserved : Nat) :
    ∀ size, size ≤ reserved → capacityAt grow reserved size = reserved := by
  intro size
  induction size with
  | zero => intro _; rfl
  | succ size ih =>
    intro h
    have e := ih (by omega)
    simp only [capacityAt, e]
    rw [if_pos (by omega)]

theorem lt_capacityAt (grow : Growth) {reserved size : Nat} (h : size < reserved) :
    size < capacityAt grow reserved size := by
  rw [capacityAt_of_le grow reserved size (Nat.le_of_lt h)]
  exact h

theorem addChild_congr {c1 c2 : Nat} {T : QuadTree} (h : T.length < c1 ↔ T.length < c2)
    (parent : Nat) (q : Fin 4) : addChild c1 T parent q = addChild c2 T parent q := by
  by_cases h1 : T.length < c1
  · rw [addChild_of_lt h1, addChild_of_lt (h.1 h1)]
  · rw [addChild_of_full h1, addChild_of_full (fun h2 => h1 (h.2 h2))]

/-- A descent that completes gives the same result with any other capacity that is
exhausted at the same sizes of the vector, from the size at the start to the size at
the end. -/
theorem descend_congr (rq : Resolver) (cap1 cap2 : Nat → Nat) (h : Nat) (pd : Int) :
    ∀ (n k node half u v : Nat) (T : QuadTree) (res : QuadTree × List Visit),
      descend rq cap1 h pd n k node half u v T = .ok res →
      (∀ s, T.length ≤ s → s < res.1.length → (s < cap1 s ↔ s < cap2 s)) →
      descend rq cap2 h pd n k node half u v T = .ok res := by
  intro n
  induction n with
  | zero =>
    intro k node half u v T res hres _
    rw [descend_zero] at hres ⊢
    exact hres
  | succ n ih =>
    intro k node half u v T res hres hcap
    cases hnd : T[node]? with
    | none => rw [descend_invalid rq _ h pd n k node half u v hnd] at hres; cases hres
    | some nd =>
      rw [descend_succ rq _ h pd n k node half u v hnd] at hres ⊢
      by_cases hk : (k : Int) = pd
      · simp only [hk, if_true] at hres ⊢
        exact hres
      · simp only [hk, if_false] at hres ⊢
        by_cases hs : (nd.children (rq half u v).1).isSet = false
        · simp only [hs, if_true] at hres ⊢
          obtain ⟨z, hz, hzr⟩ := except_map_eq_ok hres
          subst hzr
          have hlen := (extends_of_steps (descend_steps rq _ h pd _ _ _ _ _ _ _ _ hz)).1
          rw [addChild_length] at hlen
          have e := addChild_congr (hcap T.length (Nat.le_refl _) (by
            show T.length < z.1.length
            omega)) node (rq half u v).1
          rw [← e]
          have := ih _ _ _ _ _ _ z hz (fun s hs1 hs2 =>
            hcap s (by rw [addChild_length] at hs1; omega) hs2)
          rw [this]
          rfl
        · simp only [hs, if_false] at hres ⊢
          by_cases hi : (nd.children (rq half u v).1).idx < T.length
          · simp only [hi, if_true] at hres ⊢
            obtain ⟨z, hz, hzr⟩ := except_map_eq_ok hres
            subst hzr
            have := ih _ _ _ _ _ _ z hz hcap
            rw [this]
            rfl
          · simp [hi] at hres

theorem placePatch_congr {rq : Resolver} {cap1 cap2 : Nat → Nat} {param : PatchParam}
    {h : Nat} {T : QuadTree} {res : QuadTree × List Visit}
    (hres : placePatch rq cap1 param h T = .ok res)
    (hcap : ∀ s, T.length ≤ s → s < res.1.length → (s < cap1 s ↔ s < cap2 s)) :
    placePatch rq cap2 param h T = .ok res := by
  unfold placePatch at hres ⊢
  cases hroot : T[param.faceIndex]? with
  | none => simp [hroot] at hres
  | some root =>
    simp only [hroot] at hres ⊢
    by_cases hw : param.wholeFace = true
    · simp only [hw, if_true] at hres ⊢
      exact hres
    · simp only [hw] at hres ⊢
      exact descend_congr rq cap1 cap2 h _ _ _ _ _ _ _ _ _ hres hcap

/-- A placement that completes never removes a node. -/
theorem placePatch_mono {rq : Resolver} {cap : Nat → Nat} {param : PatchParam} {h : Nat}
    {T : QuadTree} {res : QuadTree × List Visit}
    (hres : placePatch rq cap param h T = .ok res) : T.length ≤ res.1.length := by
  obtain ⟨root, _, hcase⟩ := placePatch_cases hres
  rcases hcase with ⟨_, hr⟩ | ⟨_, hsteps⟩
  · subst hr; simp
  · exact (extends_of_steps hsteps).1

theorem placeAll_mono {rq : Resolver} {cap : Nat → Nat} :
    ∀ {params : List PatchParam} {T T' : QuadTree} {h : Nat},
      placeAll rq cap params T h = .ok T' → T.length ≤ T'.length := by
  intro params
  induction params with
  | nil =>
    intro T T' h hres
    simp only [placeAll, Except.ok.injEq] at hres
    subst hres
    exact Nat.le_refl _
  | cons p rest ih =>
    intro T T' h hres
    simp only [placeAll] at hres
    cases hp : placePatch rq cap p h T with
    | error e => simp [hp] at hres
    | ok res =>
      simp only [hp] at hres
      exact Nat.le_trans (placePatch_mono hp) (ih hres)

/-- A placement loop that completes gives the same tree with any other capacity that
is exhausted at the same sizes of the vector, from the size at the start to the size
at the end. -/
theorem placeAll_congr {rq : Resolver} {cap1 cap2 : Nat → Nat} :
    ∀ {params : List PatchParam} {T T' : QuadTree} {h : Nat},
      placeAll rq cap1 params T h = .ok T' →
      (∀ s, T.length ≤ s → s < T'.length → (s < cap1 s ↔ s < cap2 s)) →
      placeAll rq cap2 params T h = .ok T' := by
  intro params
  induction params with
  | nil => intro T T' h hres _; exact hres
  | cons p rest ih =>
    intro T T' h hres hcap
    simp only [placeAll] at hres ⊢
    cases hp : placePatch rq cap1 p h T with
    | error e => simp [hp] at hres
    | ok res =>
      simp only [hp] at hres
      have h1 := placePatch_mono hp
      have h2 := placeAll_mono hres
      rw [placePatch_congr hp (fun s hs1 hs2 => hcap s hs1 (by omega))]
      exact ih hres (fun s hs1 hs2 => hcap s (by omega) hs2)

/-- Below the reserved capacity no `push_back` finds the vector full, as with a
capacity that is never exhausted. -/
theorem within_iff (grow : Growth) {reserved s : Nat} (h : s < reserved) :
    s < unlimited s ↔ s < capacityAt grow reserved s :=
  ⟨fun _ => lt_capacityAt grow h, fun _ => lt_unlimited s⟩

/-- A placement that ends within the reserved capacity is the placement on a vector
that is never full. -/
theorem placePatch_within {rq : Resolver} (grow : Growth) {reserved : Nat}
    {param : PatchParam} {h : Nat} {T : QuadTree} {res : QuadTree × List Visit}
    (hres : placePatch rq unlimited param h T = .ok res) (hcap : res.1.length ≤ reserved) :
    placePatch rq (capacityAt grow reserved) param h T = .ok res :=
  placePatch_congr hres (fun _ _ hs => within_iff grow (by omega))

theorem placeAll_within {rq : Resolver} (grow : Growth) {reserved : Nat}
    {params : List PatchParam} {T T' : QuadTree} {h : Nat}
    (hres : placeAll rq unlimited params T h = .ok T') (hcap : T'.length ≤ reserved) :
    placeAll rq (capacityAt grow reserved) params T h = .ok T' :=
  placeAll_congr hres (fun _ _ hs => within_iff grow (by omega))

theorem placeAll_of_within {rq : Resolver} {grow : Growth} {reserved : Nat}
    {params : List PatchParam} {T T' : QuadTree} {h : Nat}
    (hres : placeAll rq (capacityAt grow reserved) params T h = .ok T')
    (hcap : T'.length ≤ reserved) : placeAll rq unlimited params T h = .ok T' :=
  placeAll_congr hres (fun _ _ hs => (within_iff grow (by omega)).symm)

/-! ## Whole-face patches -/

/-- A placement on another face that completes leaves the set slots of root `f` as
they are. -/
theorem placePatch_keeps_root {rq : Resolver} {cap : Nat → Nat} {param : PatchParam} {h f : Nat}
    {T : QuadTree} {res : QuadTree × List Visit}
    (hres : placePatch rq cap param h T = .ok res) (hf : param.faceIndex ≠ f)
    {q : Fin 4} {c : Child} (hc : slot T f q = some c) (hset : c.isSet = true) :
    slot res.1 f q = some c := by
  obtain ⟨root, hroot, hcase⟩ := placePatch_cases hres
  rcases hcase with ⟨_, hr⟩ | ⟨_, hsteps⟩
  · subst hr
    have hlt : param.faceIndex < T.length := (List.getElem?_eq_some.1 hroot).1
    rw [slot_set T _ _ hlt]
    simp [Ne.symm hf, hc]
  · exact (extends_of_steps hsteps).2 f q c hc hset

theorem placeAll_keeps_root {rq : Resolver} {cap : Nat → Nat} {f : Nat} :
    ∀ {params : List PatchParam} {T T' : QuadTree} {h : Nat},
      placeAll rq cap params T h = .ok T' → (∀ p ∈ params, p.faceIndex ≠ f) →
      ∀ {q : Fin 4} {c : Child}, slot T f q = some c → c.isSet = true →
        slot T' f q = some c := by
  intro params
  induction params with
  | nil =>
    intro T T' h hres _ q c hc _
    simp only [placeAll, Except.ok.injEq] at hres
    subst hres; exact hc
  | cons p rest ih =>
    intro T T' h hres hall q c hc hset
    simp only [placeAll] at hres
    cases hp : placePatch rq cap p h T with
    | error e => simp [hp] at hres
    | ok res =>
      simp only [hp] at hres
      exact ih hres (fun p' hp' => hall p' (List.mem_cons_of_mem _ hp'))
        (placePatch_keeps_root hp (hall p (List.mem_cons_self _ _)) hc hset) hset

/-- A query on a face whose root has four leaf slots of the same handle index returns
that index, whatever the coordinate. -/
theorem findLeaf_of_root_leaves {rq : Resolver} {T : QuadTree} {f i : Nat}
    (hroot : ∀ q, slot T f q = some (Child.leaf i)) (n half u v : Nat) :
    findLeaf rq T (n + 1) f half u v = some i := by
  have h0 := hroot (rq half u v).1
  obtain ⟨nd, hnd, hc⟩ := slot_eq_some.1 h0
  simp [findLeaf, hnd, hc, Child.leaf]

/-- C5: a patch whose depth is 0 (1 when `nonQuadRoot`) is placed by setting the four
slots of the root of its face to leaves of its handle index: the tree keeps its
length (no node is created), the resolver is not called (no descent), and the other
nodes are untouched. Consequently, in a build that completes and in which it is the
only patch of its face, the four slots of that root are leaves of its handle index
and a query on that face returns its handle at every coordinate. -/
theorem wholeFace_placement (rq : Resolver) (grow : Growth) (cap : Nat → Nat)
    (param : PatchParam) (h : Nat) (T : QuadTree)
    (root : QuadNode) (patchTables : PatchTables) (pm : PatchMap)
    (params : List PatchParam) (i : Nat)
    (hd : param.depth = if param.nonQuadRoot then 1 else 0)
    (hroot : T[param.faceIndex]? = some root)
    (hne : patchTables.numPatches ≠ 0)
    (hparams : refParams patchTables.paramTable (patchRefs patchTables.patchArrays)
      = some params)
    (hi : params[i]? = some param)
    (honly : ∀ j p, params[j]? = some p → j ≠ i → p.faceIndex ≠ param.faceIndex)
    (hbuild : initializeMap rq grow patchTables = .ok pm) :
    (∃ T', placePatch rq cap param h T = .ok (T', []) ∧ T'.length = T.length ∧
      (∀ q, slot T' param.faceIndex q = some (Child.leaf h)) ∧
      (∀ n q, n ≠ param.faceIndex → slot T' n q = slot T n q)) ∧
    (∀ q, slot pm.quadtree param.faceIndex q = some (Child.leaf i)) ∧
    (∀ n half u v, findLeaf rq pm.quadtree (n + 1) param.faceIndex half u v = some i) ∧
    (∀ n half u v, findPatch rq pm (n + 1) param.faceIndex half u v = pm.handles[i]?) := by
  have hw : param.wholeFace = true := by simp [PatchParam.wholeFace, hd]
  have place : ∀ (cap : Nat → Nat) (h : Nat) (T : QuadTree) (root : QuadNode),
      T[param.faceIndex]? = some root →
      placePatch rq cap param h T = .ok (T.set param.faceIndex (root.SetChildAll h), []) := by
    intro cap h T root hroot
    simp [placePatch, hroot, hw]
  have leaves : ∀ (h : Nat) (T : QuadTree) (root : QuadNode),
      T[param.faceIndex]? = some root →
      ∀ q, slot (T.set param.faceIndex (root.SetChildAll h)) param.faceIndex q
        = some (Child.leaf h) := by
    intro h T root hroot q
    rw [slot_set T _ _ (List.getElem?_eq_some.1 hroot).1]
    simp [QuadNode.SetChildAll, Child.leaf]
  have hlt : param.faceIndex < T.length := (List.getElem?_eq_some.1 hroot).1
  have hfinal : ∀ q, slot pm.quadtree param.faceIndex q = some (Child.leaf i) := by
    obtain ⟨hn, params', _, hps, _, _, hplace⟩ := initializeMap_ok hne hbuild
    rw [hparams] at hps
    cases hps
    obtain ⟨T1, res, _, h2, h3⟩ := placeAll_split hplace hi
    obtain ⟨root1, hroot1, _⟩ := placePatch_cases h2
    rw [place _ _ _ _ hroot1] at h2
    cases h2
    intro q
    refine placeAll_keeps_root h3 ?_ (by simpa using leaves i T1 root1 hroot1 q) rfl
    intro p hp
    obtain ⟨j, hj, hpj⟩ := List.getElem_of_mem hp
    rw [List.getElem_drop] at hpj
    exact honly (i + 1 + j) p
      (by rw [List.getElem?_eq_some]; exact ⟨by simpa using (by
            simp only [List.length_drop] at hj; omega : i + 1 + j < params.length), hpj⟩)
      (by omega)
  refine ⟨⟨_, place cap h T root hroot, by simp, leaves h T root hroot, ?_⟩, hfinal, ?_, ?_⟩
  · intro n q hn
    rw [slot_set T _ _ hlt]
    simp [hn]
  · intro n half u v
    exact findLeaf_of_root_leaves hfinal n half u v
  · intro n half u v
    simp [findPatch, findLeaf_of_root_leaves hfinal n half u v]

/-- Witness of C5 on the whole-face patch of face 2 of a table with two patch
arrays. -/
theorem wholeFace_placement_witness :
    (⟨2, 0, false, 0, 0⟩ : PatchParam).depth
      = (if (⟨2, 0, false, 0, 0⟩ : PatchParam).nonQuadRoot then 1 else 0) ∧
    (List.replicate 3 QuadNode.empty)[(⟨2, 0, false, 0, 0⟩ : PatchParam).faceIndex]?
      = some QuadNode.empty ∧
    twoArraysTable.numPatches ≠ 0 ∧
    refParams twoArraysTable.paramTable (patchRefs twoArraysTable.patchArrays)
      = some twoArraysTable.paramTable ∧
    twoArraysTable.paramTable[1]? = some ⟨2, 0, false, 0, 0⟩ ∧
    (∀ j p, twoArraysTable.paramTable[j]? = some p → j ≠ 1 → p.faceIndex ≠ 2) ∧
    initializeMap resolveQuadrant doubling twoArraysTable
      = .ok (builtMap resolveQuadrant doubling twoArraysTable) ∧
    (∃ T', placePatch resolveQuadrant (capacityAt doubling 6) ⟨2, 0, false, 0, 0⟩ 1
          (List.replicate 3 QuadNode.empty)
        = .ok (T', []) ∧ T'.length = (List.replicate 3 QuadNode.empty).length ∧
      (∀ q, slot T' 2 q = some (Child.leaf 1)) ∧
      (∀ n q, n ≠ 2 → slot T' n q = slot (List.replicate 3 QuadNode.empty) n q)) ∧
    (∀ q, slot (builtMap resolveQuadrant doubling twoArraysTable).quadtree 2 q
      = some (Child.leaf 1)) ∧
    (∀ n half u v,
      findLeaf resolveQuadrant (builtMap resolveQuadrant doubling twoArraysTable).quadtree
        (n + 1) 2 half u v = some 1) ∧
    (∀ n half u v, findPatch resolveQuadrant (builtMap resolveQuadrant doubling twoArraysTable)
      (n + 1) 2 half u v = (builtMap resolveQuadrant doubling twoArraysTable).handles[1]?) :=
  have honly : ∀ j p, twoArraysTable.paramTable[j]? = some p → j ≠ 1 → p.faceIndex ≠ 2 := by
    intro j p hj hne
    match j, hj, hne with
    | 0, hj, _ => cases hj; decide
    | 1, _, hne => exact absurd rfl hne
    | 2, hj, _ => cases hj; decide
    | j + 3, hj, _ => simp [twoArraysTable] at hj
  ⟨rfl, rfl, by decide, by decide, rfl, honly, rfl,
    wholeFace_placement resolveQuadrant doubling (capacityAt doubling 6) ⟨2, 0, false, 0, 0⟩ 1
      (List.replicate 3 QuadNode.empty)
      QuadNode.empty twoArraysTable _ twoArraysTable.paramTable 1 rfl rfl (by decide)
      (by decide) rfl honly rfl⟩

/-! ## The resolver on integer addresses -/

theorem two_pow_succ_shiftRight (m : Nat) : 2 ^ (m + 1) >>> 1 = 2 ^ m := by
  simp [Nat.shiftRight_eq_div_pow, Nat.pow_succ]

theorem testBit_top {m u : Nat} (h1 : 2 ^ m ≤ u) (h2 : u < 2 ^ (m + 1)) :
    u.testBit m = true := by
  rw [Nat.testBit_to_div_mod]
  have : u / 2 ^ m = 1 := by
    apply Nat.div_eq_of_lt_le <;> simp [Nat.pow_succ] at * <;> omega
  simp [this]

/-- The residual coordinate the resolver leaves is the coordinate modulo `half`. -/
theorem resolve_residual {m x : Nat} (hx : x < 2 ^ (m + 1)) :
    (if x < 2 ^ m then x else x - 2 ^ m) = x % 2 ^ m := by
  by_cases h : x < 2 ^ m
  · simp [h, Nat.mod_eq_of_lt h]
  · have h2 : x - 2 ^ m < 2 ^ m := by
      have : 2 ^ (m + 1) = 2 ^ m + 2 ^ m := by rw [Nat.pow_succ]; omega
      omega
    rw [if_neg h, Nat.mod_eq_sub_mod (by omega), Nat.mod_eq_of_lt h2]

/-- The quadrant the resolver returns at half-extent `2^m`, for an address below
`2^(m+1)`, is given by bit `m` of `u` and of `v`. -/
theorem resolveQuadrant_bits {m u v : Nat} (hu : u < 2 ^ (m + 1)) (hv : v < 2 ^ (m + 1)) :
    ((resolveQuadrant (2 ^ m) u v).1 : Nat)
      = 2 * (v.testBit m).toNat + (u.testBit m).toNat := by
  by_cases h1 : u < 2 ^ m <;> by_cases h2 : v < 2 ^ m
  · simp [resolveQuadrant, h1, h2, Nat.testBit_lt_two_pow h1, Nat.testBit_lt_two_pow h2]
  · simp [resolveQuadrant, h1, h2, Nat.testBit_lt_two_pow h1,
      testBit_top (Nat.le_of_not_lt h2) hv]
  · simp [resolveQuadrant, h1, h2, Nat.testBit_lt_two_pow h2,
      testBit_top (Nat.le_of_not_lt h1) hu]
  · simp [resolveQuadrant, h1, h2, testBit_top (Nat.le_of_not_lt h1) hu,
      testBit_top (Nat.le_of_not_lt h2) hv]
    rfl

/-- The calls of the resolver of a descent of `m + 1` levels that starts at
half-extent `2^m` with an address below `2^(m+1)`: call `i` has half-extent
`2^(m-i)`, the address reduced modulo `2^(m-i+1)`, and returns the quadrant given by
bit `m-i` of the original `u` and `v`. -/
theorem resolveSeq_resolveQuadrant :
    ∀ (m u v : Nat), u < 2 ^ (m + 1) → v < 2 ^ (m + 1) →
      ∀ i, i ≤ m → ∃ q : Fin 4,
        (resolveSeq resolveQuadrant (m + 1) (2 ^ m) u v)[i]?
          = some (2 ^ (m - i), u % 2 ^ (m - i + 1), v % 2 ^ (m - i + 1), q) ∧
        (q : Nat) = 2 * (v.testBit (m - i)).toNat + (u.testBit (m - i)).toNat := by
  intro m
  induction m with
  | zero =>
    intro u v hu hv i hi
    have : i = 0 := by omega
    subst this
    refine ⟨(resolveQuadrant (2 ^ 0) u v).1, ?_, resolveQuadrant_bits hu hv⟩
    have hu' : u % 2 ^ (0 - 0 + 1) = u := Nat.mod_eq_of_lt hu
    have hv' : v % 2 ^ (0 - 0 + 1) = v := Nat.mod_eq_of_lt hv
    rw [hu', hv']
    simp [resolveSeq]
  | succ m ih =>
    intro u v hu hv i hi
    cases i with
    | zero =>
      refine ⟨(resolveQuadrant (2 ^ (m + 1)) u v).1, ?_, resolveQuadrant_bits hu hv⟩
      simp [resolveSeq, Nat.mod_eq_of_lt hu, Nat.mod_eq_of_lt hv]
    | succ i =>
      have hru : (resolveQuadrant (2 ^ (m + 1)) u v).2.1 = u % 2 ^ (m + 1) :=
        resolve_residual hu
      have hrv : (resolveQuadrant (2 ^ (m + 1)) u v).2.2 = v % 2 ^ (m + 1) :=
        resolve_residual hv
      have hi' : i ≤ m := by omega
      obtain ⟨q, hq, hbits⟩ := ih (u % 2 ^ (m + 1)) (v % 2 ^ (m + 1))
        (Nat.mod_lt _ (by positivity)) (Nat.mod_lt _ (by positivity)) i hi'
      refine ⟨q, ?_, ?_⟩
      · have hsub : m + 1 - (i + 1) = m - i := by omega
        have hdvd : 2 ^ (m - i + 1) ∣ 2 ^ (m + 1) := Nat.pow_dvd_pow 2 (by omega)
        rw [resolveSeq, List.getElem?_cons_succ, two_pow_succ_shiftRight, hru, hrv, hq, hsub,
          Nat.mod_mod_of_dvd _ hdvd, Nat.mod_mod_of_dvd _ hdvd]
      · have hsub : m + 1 - (i + 1) = m - i := by omega
        have hlt : m - i < m + 1 := by omega
        rw [hbits, hsub, Nat.testBit_mod_two_pow, Nat.testBit_mod_two_pow]
        simp [hlt]

theorem resolveSeq_length (rq : Resolver) :
    ∀ n half u v, (resolveSeq rq n half u v).length = n := by
  intro n
  induction n with
  | zero => intro _ _ _; rfl
  | succ n ih => intro half u v; simp [resolveSeq, ih]

/-! ## A descent along a free path -/

theorem pathFree_zero {rq : Resolver} {T : QuadTree} {node half u v : Nat} :
    pathFree rq T 0 node half u v = true ↔
      ∃ c, slot T node (rq half u v).1 = some c ∧ c.isSet = false := by
  unfold pathFree
  cases slot T node (rq half u v).1 with
  | none => simp
  | some c => simp

theorem pathFree_succ {rq : Resolver} {T : QuadTree} {m node half u v : Nat} :
    pathFree rq T (m + 1) node half u v = true ↔
      ∃ c, slot T node (rq half u v).1 = some c ∧
        (c.isSet = false ∨
          (c.isLeaf = false ∧ c.idx < T.length ∧
            pathFree rq T m c.idx (half >>> 1) (rq half u v).2.1 (rq half u v).2.2
              = true)) := by
  rw [pathFree]
  cases slot T node (rq half u v).1 with
  | none => simp
  | some c => simp [and_assoc]

/-- From a node whose four slots are unset every path is free. -/
theorem pathFree_of_unset {rq : Resolver} {T : QuadTree} {node : Nat}
    (hn : ∀ q, ∃ c, slot T node q = some c ∧ c.isSet = false) (m half u v : Nat) :
    pathFree rq T m node half u v = true := by
  obtain ⟨c, hc, hs⟩ := hn (rq half u v).1
  cases m with
  | zero => exact pathFree_zero.2 ⟨c, hc, hs⟩
  | succ m => exact pathFree_succ.2 ⟨c, hc, Or.inl hs⟩

theorem child_eq_branch {c : Child} (h1 : c.isSet = true) (h2 : c.isLeaf = false) :
    c = Child.branch c.idx := by
  cases c; simp_all [Child.branch]

theorem child_eq_leaf {c : Child} (h1 : c.isSet = true) (h2 : c.isLeaf = true) :
    c = Child.leaf c.idx := by
  cases c; simp_all [Child.leaf]

/-- A descent from `node` at iteration `k`, with `m = pdepth - k` levels below and at
least `m + 1` iterations left, along a path that is free, in a node vector that is
never full: it completes; its resolver
calls are the `m + 1` calls of `resolveSeq`; iterations are numbered from `k`; it
starts at `node`; every visited slot but the last ends as the branch to the node of
the next visit; the last ends as the leaf of `h`; and no other slot becomes a leaf. -/
theorem descend_free (rq : Resolver) (h : Nat) (pd : Int) :
    ∀ (m n k node half u v : Nat) (T : QuadTree),
      (k : Int) + m = pd → m < n → node < T.length →
      pathFree rq T m node half u v = true →
      ∃ T' tr, descend rq unlimited h pd n k node half u v T = .ok (T', tr) ∧
        tr.map (fun vis => (vis.half, vis.u, vis.v, vis.quadrant))
          = resolveSeq rq (m + 1) half u v ∧
        tr.map Visit.k = List.range' k (m + 1) ∧
        (tr[0]?).map Visit.node = some node ∧
        (∀ i vis vis', tr[i]? = some vis → tr[i + 1]? = some vis' →
          slot T' vis.node vis.quadrant = some (Child.branch vis'.node)) ∧
        (∀ vis, tr[m]? = some vis →
          slot T' vis.node vis.quadrant = some (Child.leaf h)) ∧
        (∀ n' q c, slot T' n' q = some c → c.isSet = true → c.isLeaf = true →
          slot T n' q = some c ∨
          ∃ vis, tr[m]? = some vis ∧ n' = vis.node ∧ q = vis.quadrant ∧
            c = Child.leaf h) := by
  intro m
  induction m with
  | zero =>
    intro n k node half u v T hk hn hnode hfree
    obtain ⟨n, rfl⟩ : ∃ n', n = n' + 1 := ⟨n - 1, by omega⟩
    obtain ⟨c, hc, hs⟩ := pathFree_zero.1 hfree
    obtain ⟨nd, hnd, hcq⟩ := slot_eq_some.1 hc
    have hk' : (k : Int) = pd := by simpa using hk
    have hs' : (nd.children (rq half u v).1).isSet = false := by rw [hcq]; exact hs
    refine ⟨T.set node (nd.SetChild (rq half u v).1 h true),
      [⟨k, node, half, u, v, (rq half u v).1⟩],
      by rw [descend_succ rq _ h pd n k node half u v hnd, if_pos hk']; simp [hs'],
      ?_, ?_, ?_, ?_, ?_, ?_⟩
    · simp [resolveSeq]
    · simp
    · simp
    · intro i vis vis' _ h2
      simp at h2
    · intro vis hv
      simp only [List.getElem?_cons_zero, Option.some.injEq] at hv
      subst hv
      rw [slot_set_SetChild hnd]
      simp [Child.leaf]
    · intro n' q c hc' _ _
      rw [slot_set_SetChild hnd] at hc'
      by_cases hh : n' = node ∧ q = (rq half u v).1
      · right
        simp only [hh, and_self, if_true, Option.some.injEq] at hc'
        exact ⟨_, rfl, hh.1, hh.2, by rw [← hc']; rfl⟩
      · left
        simpa [hh] using hc'
  | succ m ih =>
    intro n k node half u v T hk hn hnode hfree
    obtain ⟨n, rfl⟩ : ∃ n', n = n' + 1 := ⟨n - 1, by omega⟩
    obtain ⟨c, hc, hcase⟩ := pathFree_succ.1 hfree
    obtain ⟨nd, hnd, hcq⟩ := slot_eq_some.1 hc
    have hk' : ¬ (k : Int) = pd := by
      intro e; rw [e] at hk; push_cast at hk; omega
    have hk1 : ((k + 1 : Nat) : Int) + m = pd := by push_cast at hk ⊢; omega
    rw [descend_succ rq _ h pd n k node half u v hnd, if_neg hk']
    by_cases hs : c.isSet = false
    · -- the slot is unset: a new branch is created
      have hs' : (nd.children (rq half u v).1).isSet = false := by rw [hcq]; exact hs
      rw [if_pos hs']
      have hfresh : ∀ q, ∃ c,
          slot (addChild (unlimited T.length) T node (rq half u v).1).1 T.length q = some c ∧
          c.isSet = false := by
        intro q
        refine ⟨⟨false, false, 0⟩, ?_, rfl⟩
        rw [slot_addChild (lt_unlimited _) hnode]
        have : ¬ (T.length = node ∧ q = (rq half u v).1) := by omega
        simp [this]
      obtain ⟨T', tr, hd, hseq, hks, hhead, hchain, hlast, hleaves⟩ :=
        ih n (k + 1) (addChild (unlimited T.length) T node (rq half u v).1).2 (half >>> 1)
          (rq half u v).2.1 (rq half u v).2.2
          (addChild (unlimited T.length) T node (rq half u v).1).1
          hk1 (by omega) (by rw [addChild_snd, addChild_length]; omega)
          (by rw [addChild_snd]; exact pathFree_of_unset hfresh _ _ _ _)
      have hext := extends_of_steps (descend_steps rq _ h pd _ _ _ _ _ _ _ _ hd)
      refine ⟨T', _, by rw [hd]; rfl, ?_, ?_, ?_, ?_, ?_, ?_⟩
      · simp [resolveSeq, hseq]
      · simp [hks, List.range'_succ]
      · simp
      · intro i vis vis' h1 h2
        cases i with
        | zero =>
          simp only [List.getElem?_cons_zero, Option.some.injEq] at h1
          simp only [List.getElem?_cons_succ] at h2
          subst h1
          have hnode' : vis'.node = T.length := by
            rw [h2, addChild_snd] at hhead
            simpa using hhead
          rw [hnode']
          refine hext.2 _ _ _ ?_ rfl
          rw [slot_addChild (lt_unlimited _) hnode]
          simp [Child.branch]
        | succ i =>
          simp only [List.getElem?_cons_succ] at h1 h2
          exact hchain i vis vis' h1 h2
      · intro vis hv
        simp only [List.getElem?_cons_succ] at hv
        exact hlast vis hv
      · intro n' q c' hc' hset hlf
        rcases hleaves n' q c' hc' hset hlf with hold | hnew
        · left
          rw [slot_addChild (lt_unlimited _) hnode] at hold
          by_cases hh : n' = node ∧ q = (rq half u v).1
          · simp only [hh, and_self, if_true, Option.some.injEq] at hold
            subst hold; cases hlf
          · simp only [hh, if_false] at hold
            by_cases hl : n' = T.length
            · simp only [hl, if_true, Option.some.injEq] at hold
              subst hold; cases hset
            · simpa [hl] using hold
        · right
          simpa only [List.getElem?_cons_succ] using hnew
    · -- the slot is set: travel down the existing branch
      have hset : c.isSet = true := by simpa using hs
      obtain ⟨hleaf, hidx, hrest⟩ :
          c.isLeaf = false ∧ c.idx < T.length ∧
            pathFree rq T m c.idx (half >>> 1) (rq half u v).2.1 (rq half u v).2.2
              = true := by
        rcases hcase with h0 | h1
        · exact absurd h0 hs
        · exact h1
      have hs' : ¬ (nd.children (rq half u v).1).isSet = false := by rw [hcq]; exact hs
      have hidx' : (nd.children (rq half u v).1).idx < T.length := by rw [hcq]; exact hidx
      rw [if_neg hs', if_pos hidx']
      obtain ⟨T', tr, hd, hseq, hks, hhead, hchain, hlast, hleaves⟩ :=
        ih n (k + 1) (nd.children (rq half u v).1).idx (half >>> 1)
          (rq half u v).2.1 (rq half u v).2.2 T hk1 (by omega) hidx'
          (by rw [hcq]; exact hrest)
      have hext := extends_of_steps (descend_steps rq _ h pd _ _ _ _ _ _ _ _ hd)
      refine ⟨T', _, by rw [hd]; rfl, ?_, ?_, ?_, ?_, ?_, ?_⟩
      · simp [resolveSeq, hseq]
      · simp [hks, List.range'_succ]
      · simp
      · intro i vis vis' h1 h2
        cases i with
        | zero =>
          simp only [List.getElem?_cons_zero, Option.some.injEq] at h1
          simp only [List.getElem?_cons_succ] at h2
          subst h1
          have hnode' : vis'.node = c.idx := by
            rw [h2, hcq] at hhead
            simpa using hhead
          rw [hnode', ← child_eq_branch hset hleaf]
          exact hext.2 _ _ _ hc hset
        | succ i =>
          simp only [List.getElem?_cons_succ] at h1 h2
          exact hchain i vis vis' h1 h2
      · intro vis hv
        simp only [List.getElem?_cons_succ] at hv
        exact hlast vis hv
      · intro n' q c' hc' hset' hlf
        rcases hleaves n' q c' hc' hset' hlf with hold | hnew
        · exact Or.inl hold
        · right
          simpa only [List.getElem?_cons_succ] using hnew

theorem pdepth_general {param : PatchParam} {d : Nat} (hd : param.pdepth = (d : Int)) :
    param.wholeFace = false ∧ d < param.depth ∧ param.pdepth.toNat = d := by
  have h3 : param.pdepth.toNat = d := by rw [hd]; simp
  unfold PatchParam.pdepth at hd
  unfold PatchParam.wholeFace
  cases hq : param.nonQuadRoot with
  | true =>
    simp only [hq, if_true] at hd ⊢
    refine ⟨?_, by omega, h3⟩
    have : param.depth ≠ 1 := by omega
    simpa using this
  | false =>
    simp only [hq] at hd ⊢
    refine ⟨?_, by omega, h3⟩
    have : param.depth ≠ 0 := by omega
    simpa using this

/-! ## The representation invariant under the updates of the build -/

theorem inv_initial (F : Nat) :
    InvA F (List.replicate F QuadNode.empty) ((List.range F).map fun f => (f, [])) ∅ ∅ := by
  have hunset : ∀ n q c, slot (List.replicate F QuadNode.empty) n q = some c →
      c.isSet = true → False := by
    intro n q c hc hset
    obtain ⟨nd, hnd, hcq⟩ := slot_eq_some.1 hc
    rw [List.getElem?_replicate] at hnd
    split at hnd
    · cases hnd; subst hcq; simp [QuadNode.empty] at hset
    · cases hnd
  refine ⟨by simp, by simp, ?_, ?_, ?_, ?_, ?_⟩
  · intro f hf
    simp [List.getElem?_range hf]
  · intro n a hn ha
    rw [List.getElem?_eq_none (by simpa using hn)] at ha
    cases ha
  · intro n q c a hc hset
    exact (hunset n q c hc hset).elim
  · intro n q c a hc hset
    exact (hunset n q c hc hset).elim
  · intro p hp
    exact hp.elim

theorem inv_mono {F : Nat} {T : QuadTree} {addr : List (Nat × List (Fin 4))}
    {A A' B : Set Placed} (hI : InvA F T addr A B) (hA : A ⊆ A') : InvA F T addr A' B := by
  refine ⟨hI.len, hI.roots_le, hI.root_addr, hI.parent, ?_, hI.leaf, hI.placed⟩
  intro n q c a hc hset hleaf ha
  obtain ⟨h1, p, hp, h2⟩ := hI.branch n q c a hc hset hleaf ha
  exact ⟨h1, p, hA hp, h2⟩

theorem addr_append_of_some {addr : List (Nat × List (Fin 4))} {n : Nat}
    {a x : Nat × List (Fin 4)} (h : addr[n]? = some a) : (addr ++ [x])[n]? = some a := by
  rw [List.getElem?_append_left (List.getElem?_eq_some.1 h).1]; exact h

theorem inv_addChild {F c0 : Nat} {T : QuadTree} {addr : List (Nat × List (Fin 4))}
    {A B : Set Placed} (hc0 : T.length < c0) (hI : InvA F T addr A B) {node : Nat}
    {nd : QuadNode} {q : Fin 4}
    {f : Nat} {Q : List (Fin 4)} (hnd : T[node]? = some nd)
    (hs : (nd.children q).isSet = false) (haddr : addr[node]? = some (f, Q))
    (hown : ∃ p ∈ A, p.face = f ∧ ∃ R, R ≠ [] ∧ p.path = Q ++ [q] ++ R) :
    InvA F (addChild c0 T node q).1 (addr ++ [(f, Q ++ [q])]) A B := by
  have hnode : node < T.length := (List.getElem?_eq_some.1 hnd).1
  have hext : Extends T (addChild c0 T node q).1 :=
    extends_of_step (Step.branch T c0 node nd q hnd hs)
  have hnew : slot (addChild c0 T node q).1 node q = some (Child.branch T.length) := by
    rw [slot_addChild hc0 hnode]; simp [Child.branch]
  have hold : ∀ n' q' c, slot (addChild c0 T node q).1 n' q' = some c → c.isSet = true →
      ¬ (n' = node ∧ q' = q) → slot T n' q' = some c ∧ n' < T.length := by
    intro n' q' c hc hset hne
    rw [slot_addChild hc0 hnode, if_neg hne] at hc
    by_cases hl : n' = T.length
    · simp only [hl, if_true, Option.some.injEq] at hc
      subst hc; cases hset
    · simp only [hl, if_false] at hc
      exact ⟨hc, slot_lt_length hc⟩
  refine ⟨by simp [addChild_length, hI.len], by rw [addChild_length]; have := hI.roots_le; omega,
    ?_, ?_, ?_, ?_, ?_⟩
  · intro f' hf'
    exact addr_append_of_some (hI.root_addr f' hf')
  · intro n a hn ha
    by_cases hlt : n < addr.length
    · rw [List.getElem?_append_left hlt] at ha
      obtain ⟨m, Q', q', h1, h2, h3⟩ := hI.parent n a hn ha
      exact ⟨m, Q', q', h1, addr_append_of_some h2, hext.2 _ _ _ h3 rfl⟩
    · by_cases he : n = addr.length
      · subst he
        rw [List.getElem?_concat_length] at ha
        cases ha
        refine ⟨node, Q, q, rfl, addr_append_of_some haddr, ?_⟩
        rw [hI.len]; exact hnew
      · rw [List.getElem?_eq_none (by simp; omega)] at ha
        cases ha
  · intro n' q' c a hc hset hleaf ha
    by_cases hh : n' = node ∧ q' = q
    · obtain ⟨rfl, rfl⟩ := hh
      rw [hnew] at hc
      cases hc
      rw [addr_append_of_some haddr] at ha
      cases ha
      refine ⟨?_, hown⟩
      show (addr ++ [(f, Q ++ [q'])])[T.length]? = _
      rw [← hI.len, List.getElem?_concat_length]
    · obtain ⟨hc', hlt⟩ := hold n' q' c hc hset hh
      rw [List.getElem?_append_left (by rw [hI.len]; exact hlt)] at ha
      obtain ⟨h1, h2⟩ := hI.branch n' q' c a hc' hset hleaf ha
      exact ⟨addr_append_of_some h1, h2⟩
  · intro n' q' c a hc hset hleaf ha
    by_cases hh : n' = node ∧ q' = q
    · obtain ⟨rfl, rfl⟩ := hh
      rw [hnew] at hc
      cases hc
      cases hleaf
    · obtain ⟨hc', hlt⟩ := hold n' q' c hc hset hh
      rw [List.getElem?_append_left (by rw [hI.len]; exact hlt)] at ha
      exact hI.leaf n' q' c a hc' hset hleaf ha
  · intro p hp
    obtain ⟨h1, h2⟩ := hI.placed p hp
    refine ⟨fun he => ⟨(h1 he).1, fun q' => hext.2 _ _ _ ((h1 he).2 q') rfl⟩, ?_⟩
    intro Q' q' he
    obtain ⟨n, hn1, hn2⟩ := h2 Q' q' he
    exact ⟨n, addr_append_of_some hn1, hext.2 _ _ _ hn2 rfl⟩

theorem inv_leaf {F : Nat} {T : QuadTree} {addr : List (Nat × List (Fin 4))}
    {A B : Set Placed} (hI : InvA F T addr A B) {node : Nat} {nd : QuadNode} {q : Fin 4}
    {f : Nat} {Q : List (Fin 4)} (h : Nat) (hnd : T[node]? = some nd)
    (hs : (nd.children q).isSet = false) (haddr : addr[node]? = some (f, Q)) :
    InvA F (T.set node (nd.SetChild q h true)) addr A (insert ⟨h, f, Q ++ [q]⟩ B) := by
  have hext : Extends T (T.set node (nd.SetChild q h true)) :=
    extends_of_step (Step.leaf T node nd q h hnd hs)
  have hnew : slot (T.set node (nd.SetChild q h true)) node q = some (Child.leaf h) := by
    rw [slot_set_SetChild hnd]; simp [Child.leaf]
  have hold : ∀ n' q' c, slot (T.set node (nd.SetChild q h true)) n' q' = some c →
      ¬ (n' = node ∧ q' = q) → slot T n' q' = some c := by
    intro n' q' c hc hne
    rw [slot_set_SetChild hnd, if_neg hne] at hc
    exact hc
  refine ⟨by simp [hI.len], by simpa using hI.roots_le, hI.root_addr, ?_, ?_, ?_, ?_⟩
  · intro n a hn ha
    obtain ⟨m, Q', q', h1, h2, h3⟩ := hI.parent n a hn ha
    exact ⟨m, Q', q', h1, h2, hext.2 _ _ _ h3 rfl⟩
  · intro n' q' c a hc hset hleaf ha
    by_cases hh : n' = node ∧ q' = q
    · obtain ⟨rfl, rfl⟩ := hh
      rw [hnew] at hc
      cases hc
      cases hleaf
    · exact hI.branch n' q' c a (hold n' q' c hc hh) hset hleaf ha
  · intro n' q' c a hc hset hleaf ha
    by_cases hh : n' = node ∧ q' = q
    · obtain ⟨rfl, rfl⟩ := hh
      rw [hnew] at hc
      cases hc
      rw [haddr] at ha
      cases ha
      exact ⟨⟨h, f, Q ++ [q']⟩, Set.mem_insert _ _, rfl, rfl, Or.inl rfl⟩
    · obtain ⟨p, hp, h1⟩ := hI.leaf n' q' c a (hold n' q' c hc hh) hset hleaf ha
      exact ⟨p, Set.mem_insert_of_mem _ hp, h1⟩
  · intro p hp
    rcases Set.mem_insert_iff.1 hp with rfl | hp
    · refine ⟨fun he => absurd he (by simp), ?_⟩
      intro Q' q' he
      obtain ⟨rfl, hq⟩ := List.append_inj' he rfl
      simp only [List.cons.injEq, and_true] at hq
      subst hq
      exact ⟨node, haddr, hnew⟩
    · obtain ⟨h1, h2⟩ := hI.placed p hp
      refine ⟨fun he => ⟨(h1 he).1, fun q' => hext.2 _ _ _ ((h1 he).2 q') rfl⟩, ?_⟩
      intro Q' q' he
      obtain ⟨n, hn1, hn2⟩ := h2 Q' q' he
      exact ⟨n, hn1, hext.2 _ _ _ hn2 rfl⟩

theorem inv_wholeFace {F : Nat} {T : QuadTree} {addr : List (Nat × List (Fin 4))}
    {A B : Set Placed} (hI : InvA F T addr A B) {f : Nat} {root : QuadNode} (h : Nat)
    (hf : f < F) (hroot : T[f]? = some root)
    (hunset : ∀ q, (root.children q).isSet = false) :
    InvA F (T.set f (root.SetChildAll h)) addr A (insert ⟨h, f, []⟩ B) := by
  have hlt : f < T.length := (List.getElem?_eq_some.1 hroot).1
  have hnew : ∀ q, slot (T.set f (root.SetChildAll h)) f q = some (Child.leaf h) := by
    intro q
    rw [slot_set T f _ hlt]; simp [QuadNode.SetChildAll, Child.leaf]
  have hold : ∀ n' q' c, slot (T.set f (root.SetChildAll h)) n' q' = some c →
      n' ≠ f → slot T n' q' = some c := by
    intro n' q' c hc hne
    rw [slot_set T f _ hlt, if_neg hne] at hc
    exact hc
  have hext : ∀ n' q' c, slot T n' q' = some c → c.isSet = true →
      slot (T.set f (root.SetChildAll h)) n' q' = some c := by
    intro n' q' c hc hset
    by_cases hn : n' = f
    · subst hn
      rw [slot_of_getElem? hroot] at hc
      cases hc
      rw [hunset q'] at hset; cases hset
    · rw [slot_set T f _ hlt, if_neg hn]; exact hc
  refine ⟨by simp [hI.len], by simpa using hI.roots_le, hI.root_addr, ?_, ?_, ?_, ?_⟩
  · intro n a hn ha
    obtain ⟨m, Q', q', h1, h2, h3⟩ := hI.parent n a hn ha
    exact ⟨m, Q', q', h1, h2, hext _ _ _ h3 rfl⟩
  · intro n' q' c a hc hset hleaf ha
    by_cases hn : n' = f
    · subst hn
      rw [hnew] at hc
      cases hc
      cases hleaf
    · exact hI.branch n' q' c a (hold n' q' c hc hn) hset hleaf ha
  · intro n' q' c a hc hset hleaf ha
    by_cases hn : n' = f
    · subst hn
      rw [hnew] at hc
      cases hc
      rw [hI.root_addr n' hf] at ha
      cases ha
      exact ⟨⟨h, n', []⟩, Set.mem_insert _ _, rfl, rfl, Or.inr ⟨rfl, rfl⟩⟩
    · obtain ⟨p, hp, h1⟩ := hI.leaf n' q' c a (hold n' q' c hc hn) hset hleaf ha
      exact ⟨p, Set.mem_insert_of_mem _ hp, h1⟩
  · intro p hp
    rcases Set.mem_insert_iff.1 hp with rfl | hp
    · exact ⟨fun _ => ⟨hf, hnew⟩, fun Q' q' he => absurd he (by simp)⟩
    · obtain ⟨h1, h2⟩ := hI.placed p hp
      refine ⟨fun he => ⟨(h1 he).1, fun q' => hext _ _ _ ((h1 he).2 q') rfl⟩, ?_⟩
      intro Q' q' he
      obtain ⟨n, hn1, hn2⟩ := h2 Q' q' he
      exact ⟨n, hn1, hext _ _ _ hn2 rfl⟩

/-! ## A descent on a tree that represents prefix-free placements -/

theorem qpath_succ (rq : Resolver) (n half u v : Nat) :
    qpath rq (n + 1) half u v
      = (rq half u v).1 :: qpath rq n (half >>> 1) (rq half u v).2.1 (rq half u v).2.2 := by
  simp [qpath, resolveSeq]

theorem qpath_length (rq : Resolver) (n half u v : Nat) :
    (qpath rq n half u v).length = n := by
  simp [qpath, resolveSeq_length]

/-- On a tree that represents the placements `B`, in a node vector that is never
full, the descent of a patch whose path
`P` is apart from those of `B` on its face completes, and the resulting tree
represents `B` with the placement of the patch added. The descent is at iteration `k`,
at a node of address `(f, Q)`, with `m = pdepth - k` levels below. -/
theorem descend_inv (rq : Resolver) (h : Nat) (pd : Int) (F : Nat) (A B : Set Placed)
    (f : Nat) (P : List (Fin 4)) (hA : (⟨h, f, P⟩ : Placed) ∈ A)
    (hB : ∀ b ∈ B, b.face = f → ¬ b.path <+: P)
    (hA2 : ∀ a ∈ A, a.face = f → ∀ R, R ≠ [] → a.path ≠ P ++ R) :
    ∀ (m n k node half u v : Nat) (T : QuadTree) (addr : List (Nat × List (Fin 4)))
      (Q : List (Fin 4)),
      (k : Int) + m = pd → m < n → InvA F T addr A B → addr[node]? = some (f, Q) →
      P = Q ++ qpath rq (m + 1) half u v →
      ∃ T' tr addr', descend rq unlimited h pd n k node half u v T = .ok (T', tr) ∧
        InvA F T' addr' A (insert ⟨h, f, P⟩ B) := by
  intro m
  induction m with
  | zero =>
    intro n k node half u v T addr Q hk hn hI haddr hP
    obtain ⟨n, rfl⟩ : ∃ n', n = n' + 1 := ⟨n - 1, by omega⟩
    have hnode : node < T.length := by
      rw [← hI.len]; exact (List.getElem?_eq_some.1 haddr).1
    have hnd : T[node]? = some T[node] := List.getElem?_eq_getElem hnode
    have hk' : (k : Int) = pd := by simpa using hk
    have hP' : P = Q ++ [(rq half u v).1] := by
      rw [hP, qpath_succ]; simp [qpath, resolveSeq]
    have hs : (T[node].children (rq half u v).1).isSet = false := by
      cases hset : (T[node].children (rq half u v).1).isSet with
      | false => rfl
      | true =>
        exfalso
        have hc := slot_of_getElem? hnd (rq half u v).1
        cases hleaf : (T[node].children (rq half u v).1).isLeaf with
        | true =>
          obtain ⟨p, hp, _, hface, hpath⟩ := hI.leaf _ _ _ _ hc hset hleaf haddr
          refine hB p hp hface ?_
          rcases hpath with e | ⟨e, _⟩
          · rw [e, hP']
          · rw [e]; exact List.nil_prefix
        | false =>
          obtain ⟨_, p, hp, hface, R, hR, hpath⟩ := hI.branch _ _ _ _ hc hset hleaf haddr
          exact hA2 p hp hface R hR (by rw [hpath, hP'])
    refine ⟨_, _, addr, by
      rw [descend_succ rq _ h pd n k node half u v hnd, if_pos hk']; simp only [hs]; rfl, ?_⟩
    rw [hP']
    exact inv_leaf hI h hnd hs haddr
  | succ m ih =>
    intro n k node half u v T addr Q hk hn hI haddr hP
    obtain ⟨n, rfl⟩ : ∃ n', n = n' + 1 := ⟨n - 1, by omega⟩
    have hnode : node < T.length := by
      rw [← hI.len]; exact (List.getElem?_eq_some.1 haddr).1
    have hnd : T[node]? = some T[node] := List.getElem?_eq_getElem hnode
    have hk' : ¬ (k : Int) = pd := by
      intro e; rw [e] at hk; push_cast at hk; omega
    have hk1 : ((k + 1 : Nat) : Int) + m = pd := by push_cast at hk ⊢; omega
    have hP' : P = (Q ++ [(rq half u v).1])
        ++ qpath rq (m + 1) (half >>> 1) (rq half u v).2.1 (rq half u v).2.2 := by
      rw [hP, qpath_succ]; simp
    have hrest : qpath rq (m + 1) (half >>> 1) (rq half u v).2.1 (rq half u v).2.2 ≠ [] := by
      intro e
      have := qpath_length rq (m + 1) (half >>> 1) (rq half u v).2.1 (rq half u v).2.2
      rw [e] at this; simp at this
    have hc := slot_of_getElem? hnd (rq half u v).1
    rw [descend_succ rq _ h pd n k node half u v hnd, if_neg hk']
    cases hset : (T[node].children (rq half u v).1).isSet with
    | false =>
      rw [if_pos rfl]
      have hI1 := inv_addChild (lt_unlimited _) hI hnd hset haddr
        ⟨⟨h, f, P⟩, hA, rfl, _, hrest, hP'⟩
      have haddr1 : (addr ++ [(f, Q ++ [(rq half u v).1])])[
          (addChild (unlimited T.length) T node (rq half u v).1).2]?
            = some (f, Q ++ [(rq half u v).1]) := by
        rw [addChild_snd, ← hI.len, List.getElem?_concat_length]
      obtain ⟨T', tr, addr', hd, hI'⟩ := ih n (k + 1) _ (half >>> 1) (rq half u v).2.1
        (rq half u v).2.2 _ _ _ hk1 (by omega) hI1 haddr1 hP'
      exact ⟨T', _, addr', by rw [hd]; rfl, hI'⟩
    | true =>
      rw [if_neg (by simp)]
      cases hleaf : (T[node].children (rq half u v).1).isLeaf with
      | true =>
        exfalso
        obtain ⟨p, hp, _, hface, hpath⟩ := hI.leaf _ _ _ _ hc hset hleaf haddr
        refine hB p hp hface ?_
        rcases hpath with e | ⟨e, _⟩
        · rw [e, hP']; exact List.prefix_append _ _
        · rw [e]; exact List.nil_prefix
      | false =>
        obtain ⟨haddr1, _⟩ := hI.branch _ _ _ _ hc hset hleaf haddr
        have hidx : (T[node].children (rq half u v).1).idx < T.length := by
          rw [← hI.len]; exact (List.getElem?_eq_some.1 haddr1).1
        rw [if_pos hidx]
        obtain ⟨T', tr, addr', hd, hI'⟩ := ih n (k + 1) _ (half >>> 1) (rq half u v).2.1
          (rq half u v).2.2 T addr _ hk1 (by omega) hI haddr1 hP'
        exact ⟨T', _, addr', by rw [hd]; rfl, hI'⟩

/-! ## The placement loop on prefix-free placements -/

theorem path_none {rq : Resolver} {param : PatchParam} (h : param.path rq = none) :
    param.wholeFace = false ∧ param.depth = 0 := by
  unfold PatchParam.path at h
  by_cases hw : param.wholeFace = true
  · simp [hw] at h
  · have hw' : param.wholeFace = false := by simpa using hw
    simp only [hw'] at h
    by_cases hp : 0 ≤ param.pdepth
    · simp [hp] at h
    · refine ⟨hw', ?_⟩
      unfold PatchParam.pdepth at hp
      unfold PatchParam.wholeFace at hw'
      cases hq : param.nonQuadRoot with
      | true =>
        simp only [hq, if_true] at hp hw'
        have : param.depth ≠ 1 := by simpa using hw'
        omega
      | false =>
        simp only [hq, Bool.false_eq_true, if_false] at hp hw'
        have : param.depth ≠ 0 := by simpa using hw'
        omega

theorem path_wholeFace {rq : Resolver} {param : PatchParam} (hw : param.wholeFace = true) :
    param.path rq = some [] := by
  simp [PatchParam.path, hw]

theorem path_general {rq : Resolver} {param : PatchParam} {P : List (Fin 4)}
    (hw : param.wholeFace = false) (h : param.path rq = some P) :
    ∃ d : Nat, param.pdepth = (d : Int) ∧
      P = qpath rq (d + 1) (1 <<< d) param.u param.v := by
  unfold PatchParam.path at h
  simp only [hw] at h
  by_cases hp : 0 ≤ param.pdepth
  · simp only [hp, if_true, Bool.false_eq_true, if_false, Option.some.injEq] at h
    exact ⟨param.pdepth.toNat, (Int.toNat_of_nonneg hp).symm, h.symm⟩
  · simp [hp] at h

/-- Placing a patch that is not placed (`nonQuadRoot` with depth 0) leaves the tree
as it is. -/
theorem placePatch_unplaced {rq : Resolver} {cap : Nat → Nat}
    {param : PatchParam} {T : QuadTree} (h : Nat)
    (hroot : param.faceIndex < T.length) (hpath : param.path rq = none) :
    placePatch rq cap param h T = .ok (T, []) := by
  obtain ⟨hw, hd⟩ := path_none hpath
  unfold placePatch
  rw [List.getElem?_eq_getElem hroot]
  simp only [hw, hd]
  rfl

/-- On a tree that represents the placements `B`, in a node vector that is never
full, placing a patch whose placement is apart from those of `B` completes, and the
resulting tree represents `B` with that placement added. -/
theorem placePatch_inv {rq : Resolver} {F : Nat} {T : QuadTree}
    {addr : List (Nat × List (Fin 4))} {B : Set Placed} {param : PatchParam}
    {P : List (Fin 4)} (h : Nat) (hI : InvA F T addr B B) (hf : param.faceIndex < F)
    (hpath : param.path rq = some P)
    (hapart : ∀ b ∈ B, b.Apart ⟨h, param.faceIndex, P⟩) :
    ∃ T' tr addr', placePatch rq unlimited param h T = .ok (T', tr) ∧
      InvA F T' addr' (insert ⟨h, param.faceIndex, P⟩ B)
        (insert ⟨h, param.faceIndex, P⟩ B) := by
  have hlt : param.faceIndex < T.length := Nat.lt_of_lt_of_le hf hI.roots_le
  have hroot : T[param.faceIndex]? = some T[param.faceIndex] := List.getElem?_eq_getElem hlt
  have haddr := hI.root_addr _ hf
  cases hw : param.wholeFace with
  | true =>
    rw [path_wholeFace hw] at hpath
    cases hpath
    have hunset : ∀ q, (T[param.faceIndex].children q).isSet = false := by
      intro q
      cases hset : (T[param.faceIndex].children q).isSet with
      | false => rfl
      | true =>
        exfalso
        have hc := slot_of_getElem? hroot q
        cases hleaf : (T[param.faceIndex].children q).isLeaf with
        | true =>
          obtain ⟨p, hp, _, hface, _⟩ := hI.leaf _ _ _ _ hc hset hleaf haddr
          exact (hapart p hp hface).2 List.nil_prefix
        | false =>
          obtain ⟨_, p, hp, hface, _⟩ := hI.branch _ _ _ _ hc hset hleaf haddr
          exact (hapart p hp hface).2 List.nil_prefix
    refine ⟨T.set param.faceIndex (T[param.faceIndex].SetChildAll h), [], addr,
      by simp [placePatch, hroot, hw], ?_⟩
    exact inv_mono (inv_wholeFace hI h hf hroot hunset) (Set.subset_insert _ _)
  | false =>
    obtain ⟨d, hd, hP⟩ := path_general hw hpath
    obtain ⟨_, hdepth, htoNat⟩ := pdepth_general hd
    have hB : ∀ b ∈ B, b.face = param.faceIndex → ¬ b.path <+: P :=
      fun b hb hface => (hapart b hb hface).1
    have hA2 : ∀ a ∈ insert (⟨h, param.faceIndex, P⟩ : Placed) B,
        a.face = param.faceIndex → ∀ R, R ≠ [] → a.path ≠ P ++ R := by
      intro a ha hface R hR he
      rcases Set.mem_insert_iff.1 ha with rfl | ha
      · exact hR (List.self_eq_append_right.1 he)
      · exact (hapart a ha hface).2 (by rw [he]; exact List.prefix_append _ _)
    obtain ⟨T', tr, addr', hdesc, hI'⟩ :=
      descend_inv rq h param.pdepth F (insert ⟨h, param.faceIndex, P⟩ B) B param.faceIndex P
        (Set.mem_insert _ _) hB hA2 d param.depth 0 param.faceIndex (1 <<< d) param.u
        param.v T addr [] (by rw [hd]; simp) hdepth
        (inv_mono hI (Set.subset_insert _ _)) haddr (by simpa using hP)
    refine ⟨T', tr, addr', ?_, hI'⟩
    unfold placePatch
    rw [hroot]
    simp only [hw, htoNat]
    exact hdesc

theorem placeAll_inv (rq : Resolver) (F : Nat) :
    ∀ (params : List PatchParam) (T : QuadTree) (addr : List (Nat × List (Fin 4)))
      (h : Nat) (B : Set Placed),
      InvA F T addr B B → (∀ p ∈ params, p.faceIndex < F) →
      (∀ b ∈ B, ∀ x ∈ placements rq params h, b.Apart x) →
      PrefixFree (placements rq params h) →
      ∃ T' addr', placeAll rq unlimited params T h = .ok T' ∧
        InvA F T' addr' (B ∪ {x | x ∈ placements rq params h})
          (B ∪ {x | x ∈ placements rq params h}) := by
  intro params
  induction params with
  | nil =>
    intro T addr h B hI _ _ _
    refine ⟨T, addr, rfl, ?_⟩
    have e : B ∪ {x | x ∈ placements rq [] h} = B := by
      ext x; simp [placements]
    rw [e]; exact hI
  | cons p rest ih =>
    intro T addr h B hI hF hapart hfree
    have hf : p.faceIndex < F := hF p (List.mem_cons_self _ _)
    have hF' : ∀ p' ∈ rest, p'.faceIndex < F :=
      fun p' hp' => hF p' (List.mem_cons_of_mem _ hp')
    cases hpath : p.path rq with
    | none =>
      have hpl : placements rq (p :: rest) h = placements rq rest (h + 1) := by
        simp [placements, hpath]
      rw [hpl] at hapart hfree ⊢
      obtain ⟨T', addr', hres, hI'⟩ := ih T addr (h + 1) B hI hF' hapart hfree
      refine ⟨T', addr', ?_, hI'⟩
      simp only [placeAll,
        placePatch_unplaced h (Nat.lt_of_lt_of_le hf hI.roots_le) hpath]
      exact hres
    | some P =>
      have hpl : placements rq (p :: rest) h
          = ⟨h, p.faceIndex, P⟩ :: placements rq rest (h + 1) := by
        simp [placements, hpath]
      rw [hpl] at hapart hfree ⊢
      have hfree' := List.pairwise_cons.1 hfree
      obtain ⟨T1, tr, addr1, hp1, hI1⟩ := placePatch_inv h hI hf hpath
        (fun b hb => hapart b hb _ (List.mem_cons_self _ _))
      obtain ⟨T', addr', hres, hI'⟩ := ih T1 addr1 (h + 1) _ hI1 hF'
        (by
          intro b hb x hx
          rcases Set.mem_insert_iff.1 hb with rfl | hb
          · exact hfree'.1 x hx
          · exact hapart b hb x (List.mem_cons_of_mem _ hx))
        hfree'.2
      refine ⟨T', addr', ?_, ?_⟩
      · simp only [placeAll, hp1]
        exact hres
      · have e : B ∪ {x | x ∈ (⟨h, p.faceIndex, P⟩ : Placed) :: placements rq rest (h + 1)}
            = insert ⟨h, p.faceIndex, P⟩ B ∪ {x | x ∈ placements rq rest (h + 1)} := by
          ext x
          simp only [Set.mem_union, Set.mem_setOf_eq, List.mem_cons, Set.mem_insert_iff]
          tauto
        rw [e]; exact hI'

theorem mem_placements {rq : Resolver} :
    ∀ {params : List PatchParam} {h i : Nat} {p : PatchParam} {P : List (Fin 4)},
      params[i]? = some p → p.path rq = some P →
      (⟨h + i, p.faceIndex, P⟩ : Placed) ∈ placements rq params h := by
  intro params
  induction params with
  | nil => intro h i p P hi; simp at hi
  | cons p0 rest ih =>
    intro h i p P hi hP
    cases i with
    | zero =>
      simp only [List.getElem?_cons_zero, Option.some.injEq] at hi
      subst hi
      simp [placements, hP]
    | succ i =>
      simp only [List.getElem?_cons_succ] at hi
      have := ih (h := h + 1) hi hP
      have e : h + 1 + i = h + (i + 1) := by omega
      rw [e] at this
      unfold placements
      cases p0.path rq with
      | none => exact this
      | some P0 => exact List.mem_cons_of_mem _ this

/-! ## The Locator on a tree that represents the placements -/

theorem walk_append (T : QuadTree) :
    ∀ (Q1 Q2 : List (Fin 4)) (s : Nat),
      walk T s (Q1 ++ Q2) = (walk T s Q1).bind fun m => walk T m Q2 := by
  intro Q1
  induction Q1 with
  | nil => intro Q2 s; simp [walk]
  | cons q Q ih =>
    intro Q2 s
    simp only [List.cons_append, walk]
    cases slot T s q with
    | none => rfl
    | some c =>
      by_cases hc : (c.isSet && !c.isLeaf) = true
      · simp only [hc, if_true]; exact ih Q2 c.idx
      · simp [hc]

theorem walk_branch {T : QuadTree} {m n : Nat} {q : Fin 4}
    (h : slot T m q = some (Child.branch n)) : walk T m [q] = some n := by
  simp [walk, h, Child.branch]

/-- Every node is reached from the root of its face along its address. -/
theorem walk_of_addr {F : Nat} {T : QuadTree} {addr : List (Nat × List (Fin 4))}
    {A B : Set Placed} (hI : InvA F T addr A B) :
    ∀ (L n : Nat) (a : Nat × List (Fin 4)), a.2.length = L → addr[n]? = some a →
      walk T a.1 a.2 = some n := by
  intro L
  induction L with
  | zero =>
    intro n a hL ha
    have hnil : a.2 = [] := List.length_eq_zero.1 hL
    by_cases hn : n < F
    · rw [hI.root_addr n hn] at ha
      cases ha
      rfl
    · obtain ⟨m, Q, q, h1, _⟩ := hI.parent n a (by omega) ha
      rw [hnil] at h1
      simp at h1
  | succ L ih =>
    intro n a hL ha
    by_cases hn : n < F
    · rw [hI.root_addr n hn] at ha
      cases ha
      simp at hL
    · obtain ⟨m, Q, q, h1, h2, h3⟩ := hI.parent n a (by omega) ha
      have hQ : Q.length = L := by
        rw [h1] at hL; simpa using hL
      have := ih m (a.1, Q) hQ h2
      rw [h1, walk_append, this]
      exact walk_branch h3

/-- The Locator, descending from `s` along a coordinate whose quadrant path starts
with `Q ++ [q]`, returns the handle index of the leaf slot `q` of the node that `Q`
leads to. -/
theorem findLeaf_of_walk {rq : Resolver} {T : QuadTree} {n i : Nat} {q : Fin 4}
    (hleaf : slot T n q = some (Child.leaf i)) :
    ∀ (Q : List (Fin 4)) (s fuel half u v : Nat), walk T s Q = some n →
      (Q ++ [q]) <+: qpath rq fuel half u v →
      findLeaf rq T fuel s half u v = some i := by
  intro Q
  induction Q with
  | nil =>
    intro s fuel half u v hw hpre
    simp only [walk, Option.some.injEq] at hw
    subst hw
    cases fuel with
    | zero => simp [qpath, resolveSeq] at hpre
    | succ fuel =>
      rw [qpath_succ, List.nil_append, List.cons_prefix_cons] at hpre
      obtain ⟨nd, hnd, hc⟩ := slot_eq_some.1 hleaf
      rw [hpre.1] at hc
      simp [findLeaf, hnd, hc, Child.leaf]
  | cons q0 Q ih =>
    intro s fuel half u v hw hpre
    cases fuel with
    | zero => simp [qpath, resolveSeq] at hpre
    | succ fuel =>
      rw [qpath_succ, List.cons_append, List.cons_prefix_cons] at hpre
      obtain ⟨hq0, hpre'⟩ := hpre
      simp only [walk] at hw
      cases hs : slot T s q0 with
      | none => simp [hs] at hw
      | some c =>
        simp only [hs] at hw
        by_cases hc : (c.isSet && !c.isLeaf) = true
        · simp only [hc, if_true] at hw
          obtain ⟨nd, hnd, hcq⟩ := slot_eq_some.1 hs
          rw [hq0] at hcq
          have hset : c.isSet = true := by
            cases h1 : c.isSet <;> simp [h1] at hc ⊢
          have hnl : c.isLeaf = false := by
            cases h1 : c.isLeaf <;> simp [h1] at hc ⊢
          have := ih c.idx fuel (half >>> 1) (rq half u v).2.1 (rq half u v).2.2 hw hpre'
          simp [findLeaf, hnd, hcq, hset, hnl, this]
        · simp [hc] at hw

theorem scaled_lt_iff {d e u a : Nat} (ha : a < 2 ^ e) :
    u * 2 ^ e + a < 2 ^ d * 2 ^ e ↔ u < 2 ^ d := by
  constructor
  · intro h
    by_contra hge
    have := Nat.mul_le_mul_right (2 ^ e) (Nat.le_of_not_lt hge)
    omega
  · intro h
    have h1 : (u + 1) * 2 ^ e ≤ 2 ^ d * 2 ^ e := Nat.mul_le_mul_right _ h
    have h2 : (u + 1) * 2 ^ e = u * 2 ^ e + 2 ^ e := by ring
    omega

theorem scaled_sub {d e u a : Nat} (hu : ¬ u < 2 ^ d) :
    u * 2 ^ e + a - 2 ^ d * 2 ^ e = (u - 2 ^ d) * 2 ^ e + a := by
  have h1 := Nat.mul_le_mul_right (2 ^ e) (Nat.le_of_not_lt hu)
  rw [Nat.sub_mul]
  omega

/-- The resolver on a coordinate refined by `e` more bits: same quadrant, and the
residual address is the refined residual. -/
theorem resolveQuadrant_scaled {d e u v a b : Nat} (ha : a < 2 ^ e) (hb : b < 2 ^ e) :
    resolveQuadrant (2 ^ (d + e)) (u * 2 ^ e + a) (v * 2 ^ e + b)
      = ((resolveQuadrant (2 ^ d) u v).1,
         (resolveQuadrant (2 ^ d) u v).2.1 * 2 ^ e + a,
         (resolveQuadrant (2 ^ d) u v).2.2 * 2 ^ e + b) := by
  have hu := scaled_lt_iff (d := d) (u := u) ha
  have hv := scaled_lt_iff (d := d) (u := v) hb
  unfold resolveQuadrant
  rw [Nat.pow_add]
  by_cases h1 : u < 2 ^ d <;> by_cases h2 : v < 2 ^ d
  · simp only [hu, hv, h1, h2, if_true, if_false]
  · simp only [hu, hv, h1, h2, if_true, if_false, scaled_sub h2]
  · simp only [hu, hv, h1, h2, if_true, if_false, scaled_sub h1]
  · simp only [hu, hv, h1, h2, if_true, if_false, scaled_sub h1, scaled_sub h2]

/-- The quadrant path of a patch address is a prefix of the quadrant path of every
coordinate interior to its cell, at any finer resolution. -/
theorem qpath_interior :
    ∀ (d e u v a b : Nat), a < 2 ^ e → b < 2 ^ e →
      qpath resolveQuadrant (d + 1) (2 ^ d) u v
        <+: qpath resolveQuadrant (d + 1 + e) (2 ^ (d + e)) (u * 2 ^ e + a)
          (v * 2 ^ e + b) := by
  intro d
  induction d with
  | zero =>
    intro e u v a b ha hb
    have e1 : 0 + 1 + e = e + 1 := by omega
    rw [e1, qpath_succ, qpath_succ, resolveQuadrant_scaled ha hb, List.cons_prefix_cons]
    exact ⟨rfl, by simp [qpath, resolveSeq]⟩
  | succ d ih =>
    intro e u v a b ha hb
    have e1 : d + 1 + 1 + e = (d + 1 + e) + 1 := by omega
    have e2 : d + 1 + e = (d + e) + 1 := by omega
    have hL := qpath_succ resolveQuadrant (d + 1) (2 ^ (d + 1)) u v
    have hR := qpath_succ resolveQuadrant (d + 1 + e) (2 ^ (d + 1 + e)) (u * 2 ^ e + a)
      (v * 2 ^ e + b)
    rw [e1, hL, hR, resolveQuadrant_scaled ha hb, List.cons_prefix_cons]
    refine ⟨rfl, ?_⟩
    rw [two_pow_succ_shiftRight]
    have e3 : 2 ^ (d + 1 + e) >>> 1 = 2 ^ (d + e) := by
      rw [e2]; exact two_pow_succ_shiftRight _
    rw [e3]
    exact ih e _ _ a b ha hb

/-- C2 (counterexamples): three tables whose build completes although a placed leaf
is not found again. In the first, the depth-1 patch 0 is placed as `leaf 0` and then
overwritten by the whole-face patch 1: the query at its address returns handle 1. In
the second, the depth-2 patch 1 lies inside the cell of the depth-1 patch 0; its
descent goes through the leaf slot of patch 0 and puts `leaf 1` in slot 2 of the
root, and the query at its address returns handle 0. In the third, a single patch of
depth 3, the second `addChild` finds the node vector full (`nfaces + npatches = 2`),
the branch from node 1 to node 2 is not written, and the query at the address of the
patch finds nothing. -/
theorem roundtrip_fails :
    ((placePatch resolveQuadrant (capacityAt doubling 3) ⟨0, 1, false, 0, 0⟩ 0
          [QuadNode.empty]).toOption.map
        (fun res => treeView res.1)
      = some [[Child.leaf 0, Child.unset, Child.unset, Child.unset]]
    ∧ (initializeMap resolveQuadrant doubling leafThenWholeFaceTable).toOption.map
        (fun pm => (findLeaf resolveQuadrant pm.quadtree 1 0 1 0 0,
          findPatch resolveQuadrant pm 1 0 1 0 0))
      = some (some 1, some ⟨0, 1, 16⟩))
    ∧ ((initializeMap resolveQuadrant doubling nestedPatchTable).toOption.map
        (fun pm => (treeView pm.quadtree, findLeaf resolveQuadrant pm.quadtree 2 0 2 0 1,
          findPatch resolveQuadrant pm 2 0 2 0 1))
      = some ([[Child.leaf 0, Child.unset, Child.leaf 1, Child.unset]], some 0,
          some ⟨0, 0, 0⟩))
    ∧ (PrefixFree (placements resolveQuadrant deepPatchTable.paramTable 0)
      ∧ (initializeMap resolveQuadrant doubling deepPatchTable).toOption.map
          (fun pm => (treeView pm.quadtree, findLeaf resolveQuadrant pm.quadtree 3 0 4 0 0,
            findPatch resolveQuadrant pm 3 0 4 0 0))
        = some ([[Child.branch 1, Child.unset, Child.unset, Child.unset],
                 [Child.unset, Child.unset, Child.unset, Child.unset],
                 [Child.leaf 0, Child.unset, Child.unset, Child.unset]], none, none)) := by
  decide

/-- C2 (amended): for a table with patches whose placements (face, quadrant path) are
pairwise prefix-free and whose build completes within the capacity reserved for the
node vector (the finished quadtree has at most `nfaces + npatches` nodes, so that no
`push_back` has reallocated it), every placed patch is found again: descending the
finished quadtree as the Locator does, from the root of the face of the patch and
along any coordinate whose quadrant path starts with the path of the patch, ends at a
leaf slot that holds the handle index of the patch, and the query returns the handle
recorded for it. -/
theorem roundtrip_prefix_free (rq : Resolver) (grow : Growth) (patchTables : PatchTables)
    (pm : PatchMap)
    (params : List PatchParam) (i : Nat) (p : PatchParam) (P : List (Fin 4))
    (maxDepth half u v : Nat)
    (hne : patchTables.numPatches ≠ 0)
    (hparams : refParams patchTables.paramTable (patchRefs patchTables.patchArrays)
      = some params)
    (hfree : PrefixFree (placements rq params 0))
    (hbuild : initializeMap rq grow patchTables = .ok pm)
    (hcap : pm.quadtree.length
      ≤ numRoots patchTables params + patchTables.numPatches)
    (hi : params[i]? = some p) (hP : p.path rq = some P)
    (hpos : 0 < maxDepth) (hq : P <+: qpath rq maxDepth half u v) :
    findLeaf rq pm.quadtree maxDepth p.faceIndex half u v = some i ∧
    ∃ hd, findPatch rq pm maxDepth p.faceIndex half u v = some hd ∧ hd.patchIdx = i := by
  obtain ⟨hn, params', hh, hps, hfold, hhandles, hplace⟩ := initializeMap_ok hne hbuild
  rw [hparams] at hps
  cases hps
  have hF : ∀ p' ∈ params, p'.faceIndex < hn.2 + 1 := by
    intro p' hp'
    have := foldFaces_ge params 0 p' hp'
    omega
  obtain ⟨T', addr', hres, hI⟩ := placeAll_inv rq (hn.2 + 1) params _ _ 0 ∅
    (inv_initial _) hF (fun b hb => hb.elim) hfree
  have hcap' : pm.quadtree.length ≤ hn.2 + 1 + patchTables.numPatches := by
    simpa [numRoots, hne, hfold] using hcap
  rw [placeAll_of_within hplace hcap'] at hres
  cases hres
  have hmem : (⟨i, p.faceIndex, P⟩ : Placed)
      ∈ (∅ : Set Placed) ∪ {x | x ∈ placements rq params 0} := by
    right
    have := @mem_placements rq params 0 i p P hi hP
    simpa using this
  obtain ⟨h1, h2⟩ := hI.placed _ hmem
  have hleaf : findLeaf rq pm.quadtree maxDepth p.faceIndex half u v = some i := by
    rcases List.eq_nil_or_concat P with hnil | ⟨Q, q, hQ⟩
    · obtain ⟨n, rfl⟩ : ∃ n, maxDepth = n + 1 := ⟨maxDepth - 1, by omega⟩
      exact findLeaf_of_root_leaves (h1 hnil).2 n half u v
    · have hQ' : P = Q ++ [q] := by simpa using hQ
      obtain ⟨n, hn1, hn2⟩ := h2 Q q hQ'
      have hw := walk_of_addr hI _ n _ rfl hn1
      exact findLeaf_of_walk hn2 Q _ _ _ _ _ hw (by rw [← hQ']; exact hq)
  refine ⟨hleaf, ?_⟩
  obtain ⟨_, _, _, hget⟩ := populateHandles_ok hh
  have hilt : i < (patchRefs patchTables.patchArrays).length := by
    rw [← refParams_length hparams]; exact (List.getElem?_eq_some.1 hi).1
  have hrange : 0 ≤ i ∧ i < 0 + (patchRefs patchTables.patchArrays).length := by omega
  refine ⟨handleOf (patchRefs patchTables.patchArrays)[i] i, ?_, rfl⟩
  simp only [findPatch, hleaf, hhandles]
  rw [hget, if_pos hrange]
  simp [List.getElem?_eq_getElem hilt]

/-- Witness of the amended C2 on a table with two patch arrays: the depth-2 patch of
face 0 at address (3,1), queried at a coordinate interior to its cell at a finer
resolution. -/
theorem roundtrip_prefix_free_witness :
    twoArraysTable.numPatches ≠ 0 ∧
    refParams twoArraysTable.paramTable (patchRefs twoArraysTable.patchArrays)
      = some twoArraysTable.paramTable ∧
    PrefixFree (placements resolveQuadrant twoArraysTable.paramTable 0) ∧
    initializeMap resolveQuadrant doubling twoArraysTable
      = .ok (builtMap resolveQuadrant doubling twoArraysTable) ∧
    (builtMap resolveQuadrant doubling twoArraysTable).quadtree.length
      ≤ numRoots twoArraysTable twoArraysTable.paramTable + twoArraysTable.numPatches ∧
    twoArraysTable.paramTable[0]? = some ⟨0, 2, false, 3, 1⟩ ∧
    (⟨0, 2, false, 3, 1⟩ : PatchParam).path resolveQuadrant = some [1, 3] ∧
    0 < 4 ∧
    [1, 3] <+: qpath resolveQuadrant 4 8 13 6 ∧
    findLeaf resolveQuadrant (builtMap resolveQuadrant doubling twoArraysTable).quadtree 4
      (⟨0, 2, false, 3, 1⟩ : PatchParam).faceIndex 8 13 6 = some 0 ∧
    ∃ hd, findPatch resolveQuadrant (builtMap resolveQuadrant doubling twoArraysTable) 4
      (⟨0, 2, false, 3, 1⟩ : PatchParam).faceIndex 8 13 6 = some hd ∧ hd.patchIdx = 0 :=
  ⟨by decide, by decide, by decide, rfl, by decide, rfl, by decide, by decide, by decide,
    roundtrip_prefix_free resolveQuadrant doubling twoArraysTable _
      twoArraysTable.paramTable 0
      ⟨0, 2, false, 3, 1⟩ [1, 3] 4 8 13 6 (by decide) (by decide) (by decide) rfl
      (by decide) rfl (by decide) (by decide) (by decide)⟩

/-! ## Concrete builds -/

/-- C1 (failing input): on a table in which two whole-face patches claim the same
face, depth, flag and address, the build completes for every resolver: no error is
reported, and the four slots of the root of face 0 end up as leaves of the second
patch (handle index 1), the placement of the first being overwritten. The sibling
path does report it: the same duplicate at depth 1 stops the build on the occupied
slot. -/
theorem twoWholeFace_build_completes (rq : Resolver) (grow : Growth) :
    (initializeMap rq grow twoWholeFaceTable).toOption.map
        (fun pm => (pm.handles.length, treeView pm.quadtree))
      = some (2, [[Child.leaf 1, Child.leaf 1, Child.leaf 1, Child.leaf 1]])
    ∧ (initializeMap rq grow
          (singleArrayTable [⟨0, 1, false, 0, 0⟩, ⟨0, 1, false, 0, 0⟩])).map
        (fun _ => ()) = .error .slotOccupied := by
  refine ⟨rfl, ?_⟩
  have h1 : ∀ cap, placePatch rq cap ⟨0, 1, false, 0, 0⟩ 0 [QuadNode.empty]
      = .ok ([QuadNode.empty.SetChild (rq 1 0 0).1 0 true],
          [⟨0, 0, 1, 0, 0, (rq 1 0 0).1⟩]) := fun _ => rfl
  have h2 : ∀ cap, placePatch rq cap ⟨0, 1, false, 0, 0⟩ 1
      [QuadNode.empty.SetChild (rq 1 0 0).1 0 true] = .error .slotOccupied := by
    intro cap
    simp [placePatch, PatchParam.wholeFace, PatchParam.pdepth, descend, QuadNode.SetChild]
  simp only [initializeMap, singleArrayTable, List.length_cons, List.length_nil]
  simp [patchRefs, patchRefsFrom, arrayRefs, List.range, List.range.loop, populateHandles,
    populateQuadtree, h1, h2, Except.map]

/-- C3 (failing input): one face and one patch of depth 3 give a quadtree of 3 nodes,
more than the `nfaces + npatches = 1 + 1` reserved for it. -/
theorem deepPatch_node_count :
    (initializeMap resolveQuadrant doubling deepPatchTable).toOption.map
        (fun pm => pm.quadtree.length) = some 3
      ∧ deepPatchTable.numPatches = 1
      ∧ (populateHandles deepPatchTable.paramTable (patchRefs deepPatchTable.patchArrays)
          (List.replicate 1 default) 0 0).toOption.map (fun hn => hn.2 + 1) = some 1 := by
  decide

/-- C6 (failing input): placing the depth-1 patch sets slot 0 of the root of face 0
to `leaf 0`; the build of the whole table completes without error and that slot holds
`leaf 1` in the finished quadtree. -/
theorem leafThenWholeFace_overwrites :
    (placePatch resolveQuadrant (capacityAt doubling 3) ⟨0, 1, false, 0, 0⟩ 0
          [QuadNode.empty]).toOption.map
        (fun res => treeView res.1)
      = some [[Child.leaf 0, Child.unset, Child.unset, Child.unset]]
    ∧ (initializeMap resolveQuadrant doubling leafThenWholeFaceTable).toOption.map
        (fun pm => treeView pm.quadtree)
      = some [[Child.leaf 1, Child.leaf 1, Child.leaf 1, Child.leaf 1]] := by
  decide

/-! ## The empty table -/

/-- C9: for a patch table with zero patches the build returns an empty index (no
handle, no node, hence no root), and a query for any face and coordinate reports
not-found. -/
theorem empty_table_empty_index (rq : Resolver) (grow : Growth) (patchTables : PatchTables)
    (h : patchTables.numPatches = 0) :
    ∃ pm, initializeMap rq grow patchTables = .ok pm ∧ pm.handles = [] ∧ pm.quadtree = [] ∧
      ∀ maxDepth faceid half u v, findPatch rq pm maxDepth faceid half u v = none := by
  refine ⟨⟨[], []⟩, by simp [initializeMap, h], rfl, rfl, ?_⟩
  intro maxDepth faceid half u v
  cases maxDepth <;> simp [findPatch, findLeaf]

/-- Witness of C9 on the table without arrays. -/
theorem empty_table_empty_index_witness :
    (⟨0, [], []⟩ : PatchTables).numPatches = 0 ∧
    ∃ pm, initializeMap resolveQuadrant doubling ⟨0, [], []⟩ = .ok pm ∧ pm.handles = [] ∧
      pm.quadtree = [] ∧
      ∀ maxDepth faceid half u v,
        findPatch resolveQuadrant pm maxDepth faceid half u v = none :=
  ⟨rfl, empty_table_empty_index resolveQuadrant doubling ⟨0, [], []⟩ rfl⟩

/-! ## Four depth-1 patches on one face -/

theorem treeView_singleton {quadtree : QuadTree} {a b c d : Child}
    (h : treeView quadtree = [[a, b, c, d]]) :
    ∃ nd, quadtree = [nd] ∧ nd.children 0 = a ∧ nd.children 1 = b ∧
      nd.children 2 = c ∧ nd.children 3 = d := by
  match quadtree, h with
  | [nd], h =>
    simp only [treeView, List.map_cons, List.map_nil, QuadNode.toList, List.cons.injEq,
      and_true] at h
    exact ⟨nd, rfl, h.1, h.2.1, h.2.2.1, h.2.2.2⟩

/-- C8: on the table with one coarse quad face and four depth-1 patches at the
addresses of quadrants 0, 1, 2, 3, the build succeeds and yields exactly one node,
whose slot `q` is `leaf q`; the handles are `h0..h3` in order; at every resolution a
query on face 0 returns the handle of the quadrant the resolver gives, so the four
quadrant centres return `h0, h1, h2, h3` and an address with `u` or `v` equal to
`half` resolves to the higher quadrant. -/
theorem fourQuadrants_build_and_queries :
    ∃ pm, initializeMap resolveQuadrant doubling fourQuadrantsTable = .ok pm ∧
      pm.handles = [⟨0, 0, 0⟩, ⟨0, 1, 16⟩, ⟨0, 2, 32⟩, ⟨0, 3, 48⟩] ∧
      treeView pm.quadtree = [[Child.leaf 0, Child.leaf 1, Child.leaf 2, Child.leaf 3]] ∧
      (∀ n half u v, findPatch resolveQuadrant pm (n + 1) 0 half u v =
        some ⟨0, (resolveQuadrant half u v).1, 16 * (resolveQuadrant half u v).1⟩) ∧
      findPatch resolveQuadrant pm 1 0 2 1 1 = some ⟨0, 0, 0⟩ ∧
      findPatch resolveQuadrant pm 1 0 2 3 1 = some ⟨0, 1, 16⟩ ∧
      findPatch resolveQuadrant pm 1 0 2 1 3 = some ⟨0, 2, 32⟩ ∧
      findPatch resolveQuadrant pm 1 0 2 3 3 = some ⟨0, 3, 48⟩ ∧
      findPatch resolveQuadrant pm 1 0 2 2 1 = some ⟨0, 1, 16⟩ ∧
      findPatch resolveQuadrant pm 1 0 2 1 2 = some ⟨0, 2, 32⟩ ∧
      findPatch resolveQuadrant pm 1 0 2 2 2 = some ⟨0, 3, 48⟩ := by
  have key : (initializeMap resolveQuadrant doubling fourQuadrantsTable).toOption.map
      (fun pm => (pm.handles, treeView pm.quadtree))
      = some ([⟨0, 0, 0⟩, ⟨0, 1, 16⟩, ⟨0, 2, 32⟩, ⟨0, 3, 48⟩],
          [[Child.leaf 0, Child.leaf 1, Child.leaf 2, Child.leaf 3]]) := by decide
  cases hres : initializeMap resolveQuadrant doubling fourQuadrantsTable with
  | error e => rw [hres] at key; simp [Except.toOption] at key
  | ok pm =>
    rw [hres] at key
    simp only [Except.toOption, Option.map_some', Option.some.injEq, Prod.mk.injEq] at key
    obtain ⟨hh, ht⟩ := key
    obtain ⟨nd, hq, h0, h1, h2, h3⟩ := treeView_singleton ht
    have gen : ∀ n half u v, findPatch resolveQuadrant pm (n + 1) 0 half u v =
        some ⟨0, (resolveQuadrant half u v).1, 16 * (resolveQuadrant half u v).1⟩ := by
      intro n half u v
      simp only [findPatch, findLeaf, hq, hh]
      by_cases hu : u < half <;> by_cases hv : v < half <;>
        simp [resolveQuadrant, hu, hv, h0, h1, h2, h3, Child.leaf]
      decide
    refine ⟨pm, rfl, hh, ht, gen, ?_, ?_, ?_, ?_, ?_, ?_, ?_⟩ <;>
      rw [gen 0] <;> decide

/-! ## Leaves, lengths and shape under any placement -/

/-- The leaf slots of the tree a descent returns are those of the tree it started
from and slots that hold its handle index `h`; a leaf is only written when
`pdepth ≥ 0`. -/
theorem descend_leaf_idx (rq : Resolver) (cap : Nat → Nat) (h : Nat) (pd : Int) :
    ∀ (n k node half u v : Nat) (T : QuadTree) (res : QuadTree × List Visit),
      descend rq cap h pd n k node half u v T = .ok res →
      ∀ n' q c, slot res.1 n' q = some c → c.isSet = true → c.isLeaf = true →
        slot T n' q = some c ∨ (c.idx = h ∧ 0 ≤ pd) := by
  intro n
  induction n with
  | zero =>
    intro k node half u v T res hres n' q c hc _ _
    rw [descend_zero] at hres
    cases hres
    exact Or.inl hc
  | succ n ih =>
    intro k node half u v T res hres n' q c hc hset hleaf
    cases hnd : T[node]? with
    | none => rw [descend_invalid rq _ h pd n k node half u v hnd] at hres; cases hres
    | some nd =>
      have hnode : node < T.length := (List.getElem?_eq_some.1 hnd).1
      rw [descend_succ rq _ h pd n k node half u v hnd] at hres
      by_cases hk : (k : Int) = pd
      · simp only [hk, if_true] at hres
        by_cases hs : (nd.children (rq half u v).1).isSet = true
        · simp [hs] at hres
        · simp only [hs] at hres
          cases hres
          rw [slot_set_SetChild hnd] at hc
          by_cases hh : n' = node ∧ q = (rq half u v).1
          · simp only [hh, and_self, if_true, Option.some.injEq] at hc
            subst hc
            exact Or.inr ⟨rfl, by rw [← hk]; exact Int.natCast_nonneg k⟩
          · simp only [hh, if_false] at hc
            exact Or.inl hc
      · simp only [hk, if_false] at hres
        by_cases hs : (nd.children (rq half u v).1).isSet = false
        · simp only [hs, if_true] at hres
          obtain ⟨z, hz, hzr⟩ := except_map_eq_ok hres
          subst hzr
          rcases ih _ _ _ _ _ _ z hz n' q c hc hset hleaf with hold | hnew
          · left
            rcases addChild_set_slot hnode hold hset with h0 | ⟨_, _, h1, _⟩
            · exact h0
            · subst h1; cases hleaf
          · exact Or.inr hnew
        · simp only [hs, if_false] at hres
          by_cases hi : (nd.children (rq half u v).1).idx < T.length
          · simp only [hi, if_true] at hres
            obtain ⟨z, hz, hzr⟩ := except_map_eq_ok hres
            subst hzr
            exact ih _ _ _ _ _ _ z hz n' q c hc hset hleaf
          · simp [hi] at hres

/-- A descent that has not passed `pdepth` appends at most `pdepth - k` nodes. -/
theorem descend_length (rq : Resolver) (cap : Nat → Nat) (h : Nat) (pd : Int) :
    ∀ (n k node half u v : Nat) (T : QuadTree) (res : QuadTree × List Visit),
      descend rq cap h pd n k node half u v T = .ok res → (k : Int) ≤ pd →
      res.1.length ≤ T.length + (pd - k).toNat := by
  intro n
  induction n with
  | zero =>
    intro k node half u v T res hres _
    rw [descend_zero] at hres
    cases hres
    exact Nat.le_add_right _ _
  | succ n ih =>
    intro k node half u v T res hres hle
    cases hnd : T[node]? with
    | none => rw [descend_invalid rq _ h pd n k node half u v hnd] at hres; cases hres
    | some nd =>
      rw [descend_succ rq _ h pd n k node half u v hnd] at hres
      by_cases hk : (k : Int) = pd
      · simp only [hk, if_true] at hres
        by_cases hs : (nd.children (rq half u v).1).isSet = true
        · simp [hs] at hres
        · simp only [hs] at hres
          cases hres
          simp
      · simp only [hk, if_false] at hres
        have hlt : ((k + 1 : Nat) : Int) ≤ pd := by push_cast; omega
        have htn : (pd - ((k + 1 : Nat) : Int)).toNat + 1 = (pd - k).toNat := by
          push_cast; omega
        by_cases hs : (nd.children (rq half u v).1).isSet = false
        · simp only [hs, if_true] at hres
          obtain ⟨z, hz, hzr⟩ := except_map_eq_ok hres
          subst hzr
          have := ih _ _ _ _ _ _ z hz hlt
          rw [addChild_length] at this
          show z.1.length ≤ _
          omega
        · simp only [hs, if_false] at hres
          by_cases hi : (nd.children (rq half u v).1).idx < T.length
          · simp only [hi, if_true] at hres
            obtain ⟨z, hz, hzr⟩ := except_map_eq_ok hres
            subst hzr
            have := ih _ _ _ _ _ _ z hz hlt
            show z.1.length ≤ _
            omega
          · simp [hi] at hres

/-- The placement of a patch appends at most `maxNewNodes` nodes and never removes
one. -/
theorem placePatch_length {rq : Resolver} {cap : Nat → Nat}
    {param : PatchParam} {h : Nat} {T : QuadTree}
    {res : QuadTree × List Visit} (hres : placePatch rq cap param h T = .ok res) :
    T.length ≤ res.1.length ∧ res.1.length ≤ T.length + param.maxNewNodes := by
  obtain ⟨root, hroot, hcase⟩ := placePatch_cases hres
  rcases hcase with ⟨hw, hr⟩ | ⟨hw, hsteps⟩
  · subst hr
    simp [PatchParam.maxNewNodes, hw]
  · refine ⟨(extends_of_steps hsteps).1, ?_⟩
    unfold placePatch at hres
    simp only [hroot, hw] at hres
    simp only [PatchParam.maxNewNodes, hw]
    by_cases hp : 0 ≤ param.pdepth
    · have := descend_length rq _ h _ _ _ _ _ _ _ _ _ hres (by simpa using hp)
      simpa using this
    · have hd : param.depth = 0 := by
        unfold PatchParam.pdepth at hp
        unfold PatchParam.wholeFace at hw
        cases hq : param.nonQuadRoot with
        | true =>
          simp only [hq, if_true] at hp hw
          have : param.depth ≠ 1 := by simpa using hw
          omega
        | false =>
          simp only [hq, Bool.false_eq_true, if_false] at hp hw
          have : param.depth ≠ 0 := by simpa using hw
          omega
      rw [hd, descend_zero] at hres
      cases hres
      exact Nat.le_add_right _ _

theorem placeAll_length {rq : Resolver} {cap : Nat → Nat} :
    ∀ {params : List PatchParam} {T T' : QuadTree} {h : Nat},
      placeAll rq cap params T h = .ok T' →
      T.length ≤ T'.length ∧
        T'.length ≤ T.length + (params.map PatchParam.maxNewNodes).sum := by
  intro params
  induction params with
  | nil =>
    intro T T' h hres
    simp only [placeAll, Except.ok.injEq] at hres
    subst hres; simp
  | cons p rest ih =>
    intro T T' h hres
    simp only [placeAll] at hres
    cases hp : placePatch rq cap p h T with
    | error e => simp [hp] at hres
    | ok res =>
      simp only [hp] at hres
      have h1 := placePatch_length hp
      have h2 := ih hres
      simp only [List.map_cons, List.sum_cons]
      omega

/-- The leaf slots after a placement: those of the tree before, and slots holding
the handle index of the patch, which is then a whole-face patch or has
`pdepth ≥ 0`. -/
theorem placePatch_leaf_idx {rq : Resolver} {cap : Nat → Nat}
    {param : PatchParam} {h : Nat} {T : QuadTree}
    {res : QuadTree × List Visit} (hres : placePatch rq cap param h T = .ok res)
    {n : Nat} {q : Fin 4} {c : Child} (hc : slot res.1 n q = some c)
    (hset : c.isSet = true) (hleaf : c.isLeaf = true) :
    slot T n q = some c ∨ (c.idx = h ∧ (param.wholeFace = true ∨ 0 ≤ param.pdepth)) := by
  obtain ⟨root, hroot, hcase⟩ := placePatch_cases hres
  rcases hcase with ⟨hw, hr⟩ | ⟨hw, _⟩
  · subst hr
    rw [slot_set T _ _ (List.getElem?_eq_some.1 hroot).1] at hc
    by_cases hn : n = param.faceIndex
    · simp only [hn, if_true, QuadNode.SetChildAll, Option.some.injEq] at hc
      subst hc
      exact Or.inr ⟨rfl, Or.inl hw⟩
    · simp only [hn, if_false] at hc
      exact Or.inl hc
  · unfold placePatch at hres
    simp only [hroot, hw] at hres
    rcases descend_leaf_idx rq _ h _ _ _ _ _ _ _ _ _ hres n q c hc hset hleaf with h1 | h2
    · exact Or.inl h1
    · exact Or.inr ⟨h2.1, Or.inr h2.2⟩

/-- The leaf slots after the placement loop: those of the tree before, and slots
holding the handle index `h + j` of a patch `params[j]` that is a whole-face patch or
has `pdepth ≥ 0`. -/
theorem placeAll_leaf_idx {rq : Resolver} {cap : Nat → Nat} :
    ∀ {params : List PatchParam} {T T' : QuadTree} {h : Nat},
      placeAll rq cap params T h = .ok T' →
      ∀ {n : Nat} {q : Fin 4} {c : Child}, slot T' n q = some c → c.isSet = true →
        c.isLeaf = true →
        slot T n q = some c ∨
          ∃ j p, params[j]? = some p ∧ c.idx = h + j ∧
            (p.wholeFace = true ∨ 0 ≤ p.pdepth) := by
  intro params
  induction params with
  | nil =>
    intro T T' h hres n q c hc _ _
    simp only [placeAll, Except.ok.injEq] at hres
    subst hres; exact Or.inl hc
  | cons p rest ih =>
    intro T T' h hres n q c hc hset hleaf
    simp only [placeAll] at hres
    cases hp : placePatch rq cap p h T with
    | error e => simp [hp] at hres
    | ok res =>
      simp only [hp] at hres
      rcases ih hres hc hset hleaf with h1 | ⟨j, p', hj, hidx, hkind⟩
      · rcases placePatch_leaf_idx hp h1 hset hleaf with h2 | ⟨h3, h4⟩
        · exact Or.inl h2
        · exact Or.inr ⟨0, p, by simp, by simpa using h3, h4⟩
      · exact Or.inr ⟨j + 1, p', by simpa using hj, by omega, hkind⟩

theorem no_set_slot_replicate {F n : Nat} {q : Fin 4} {c : Child}
    (hc : slot (List.replicate F QuadNode.empty) n q = some c) : c.isSet = false := by
  obtain ⟨nd, hnd, hcq⟩ := slot_eq_some.1 hc
  rw [List.getElem?_replicate] at hnd
  split at hnd
  · cases hnd; subst hcq; rfl
  · cases hnd

theorem refParams_take {paramTable : List PatchParam} :
    ∀ {refs : List PatchRef} {params : List PatchParam} (m : Nat),
      refParams paramTable refs = some params →
      refParams paramTable (refs.take m) = some (params.take m) := by
  intro refs
  induction refs with
  | nil =>
    intro params m hp
    simp only [refParams, Option.some.injEq] at hp
    subst hp; simp [refParams]
  | cons r rest ih =>
    intro params m hp
    simp only [refParams] at hp
    cases hr : paramTable[r.paramIdx]? with
    | none => simp [hr] at hp
    | some param =>
      cases hrest : refParams paramTable rest with
      | none => simp [hr, hrest] at hp
      | some ps =>
        simp only [hr, hrest, Option.some.injEq] at hp
        subst hp
        cases m with
        | zero => simp [refParams]
        | succ m => simp [refParams, hr, ih m hrest]

/-- The tree after the first `m` placements of the second pass is the tree after
placing the first `m` parameter records. -/
theorem populateQuadtree_take {rq : Resolver} {cap : Nat → Nat} {paramTable : List PatchParam}
    {refs : List PatchRef} {params : List PatchParam}
    (hparams : refParams paramTable refs = some params) (m : Nat) (T : QuadTree) (h : Nat) :
    populateQuadtree rq cap paramTable (refs.take m) T h = placeAll rq cap (params.take m) T h :=
  populateQuadtree_eq_placeAll rq cap paramTable _ _ T h (refParams_take m hparams)

/-- C16: the tree of a build that completes has at most `F + Σ max(pdepth, 0)` nodes,
the sum being over the patches of the general case and `F` the number of roots; the
placement of one patch appends at most `max(pdepth, 0)` nodes, and none for a
whole-face patch. -/
theorem node_count_bound (rq : Resolver) (grow : Growth) (cap : Nat → Nat)
    (patchTables : PatchTables) (pm : PatchMap)
    (params : List PatchParam) (param : PatchParam) (h len : Nat) (T : QuadTree)
    (hparams : refParams patchTables.paramTable (patchRefs patchTables.patchArrays)
      = some params)
    (hbuild : initializeMap rq grow patchTables = .ok pm)
    (hplace : (placePatch rq cap param h T).toOption.map (fun res => res.1.length)
      = some len) :
    pm.quadtree.length
        ≤ numRoots patchTables params + (params.map PatchParam.maxNewNodes).sum ∧
    len ≤ T.length + param.maxNewNodes ∧
    (param.wholeFace = true → len = T.length) ∧
    param.maxNewNodes = (if param.wholeFace then 0 else max param.pdepth 0).toNat := by
  refine ⟨?_, ?_, ?_, ?_⟩
  · by_cases hne : patchTables.numPatches = 0
    · have : pm.quadtree = [] := by
        simp only [initializeMap, hne, if_true, Except.ok.injEq] at hbuild
        subst hbuild; rfl
      simp [this]
    · obtain ⟨hn, params', _, hps, hfold, _, hplaceAll⟩ := initializeMap_ok hne hbuild
      rw [hparams] at hps
      cases hps
      have := (placeAll_length hplaceAll).2
      simp only [List.length_replicate] at this
      simp only [numRoots, hne, if_false]
      omega
  · cases hp : placePatch rq cap param h T with
    | error e => simp [hp, Except.toOption] at hplace
    | ok res =>
      simp only [hp, Except.toOption, Option.map_some', Option.some.injEq] at hplace
      subst hplace
      exact (placePatch_length hp).2
  · intro hw
    cases hp : placePatch rq cap param h T with
    | error e => simp [hp, Except.toOption] at hplace
    | ok res =>
      simp only [hp, Except.toOption, Option.map_some', Option.some.injEq] at hplace
      subst hplace
      have := placePatch_length hp
      simp only [PatchParam.maxNewNodes, hw, if_true] at this
      omega
  · unfold PatchParam.maxNewNodes
    cases param.wholeFace with
    | true => rfl
    | false =>
      simp only [Bool.false_eq_true, if_false]
      rcases le_total param.pdepth 0 with h0 | h0
      · rw [max_eq_right h0]; simp [Int.toNat_of_nonpos h0]
      · rw [max_eq_left h0]

/-- Witness of C16 on a table with a whole-face patch, an unplaced patch and a
depth-3 patch, and on the placement of the depth-3 patch on two fresh roots. -/
theorem node_count_bound_witness :
    refParams unplacedPatchTable.paramTable (patchRefs unplacedPatchTable.patchArrays)
      = some unplacedPatchTable.paramTable ∧
    initializeMap resolveQuadrant doubling unplacedPatchTable
      = .ok (builtMap resolveQuadrant doubling unplacedPatchTable) ∧
    (placePatch resolveQuadrant (capacityAt doubling 5) ⟨1, 3, false, 5, 2⟩ 2
        (List.replicate 2 QuadNode.empty)).toOption.map (fun res => res.1.length)
      = some 4 ∧
    (builtMap resolveQuadrant doubling unplacedPatchTable).quadtree.length
        ≤ numRoots unplacedPatchTable unplacedPatchTable.paramTable
          + (unplacedPatchTable.paramTable.map PatchParam.maxNewNodes).sum ∧
    4 ≤ (List.replicate 2 QuadNode.empty).length
          + (⟨1, 3, false, 5, 2⟩ : PatchParam).maxNewNodes ∧
    ((⟨1, 3, false, 5, 2⟩ : PatchParam).wholeFace = true →
      4 = (List.replicate 2 QuadNode.empty).length) ∧
    (⟨1, 3, false, 5, 2⟩ : PatchParam).maxNewNodes
      = (if (⟨1, 3, false, 5, 2⟩ : PatchParam).wholeFace then 0
          else max (⟨1, 3, false, 5, 2⟩ : PatchParam).pdepth 0).toNat :=
  ⟨by decide, rfl, by decide,
    node_count_bound resolveQuadrant doubling (capacityAt doubling 5) unplacedPatchTable _
      unplacedPatchTable.paramTable
      ⟨1, 3, false, 5, 2⟩ 2 4 (List.replicate 2 QuadNode.empty) (by decide) rfl
      (by decide)⟩

theorem getElem?_of_take {α : Type} {l : List α} {m j : Nat} {p : α}
    (h : (l.take m)[j]? = some p) : l[j]? = some p := by
  rw [List.getElem?_take] at h
  split at h
  · exact h
  · cases h

theorem unplaced_kind {param : PatchParam} (hq : param.nonQuadRoot = true)
    (hd : param.depth = 0) :
    param.wholeFace = false ∧ ¬ (param.wholeFace = true ∨ 0 ≤ param.pdepth) := by
  have hw : param.wholeFace = false := by simp [PatchParam.wholeFace, hq, hd]
  refine ⟨hw, ?_⟩
  rintro (h1 | h2)
  · rw [hw] at h1; cases h1
  · simp [PatchParam.pdepth, hq, hd] at h2

/-- C18: a patch with `nonQuadRoot` and depth 0 does not take the whole-face case;
its placement makes no resolver call (the loop runs zero iterations), reports no
error and returns the tree unchanged; and no leaf slot holds its handle index, neither
in the tree after any number of placements of the second pass nor in the finished
quadtree. -/
theorem unplaced_patch (rq : Resolver) (grow : Growth) (cap : Nat → Nat)
    (param : PatchParam) (h : Nat) (T : QuadTree)
    (patchTables : PatchTables) (pm : PatchMap) (params : List PatchParam) (i : Nat)
    (hq : param.nonQuadRoot = true) (hd : param.depth = 0)
    (hroot : param.faceIndex < T.length)
    (hparams : refParams patchTables.paramTable (patchRefs patchTables.patchArrays)
      = some params)
    (hi : params[i]? = some param)
    (hbuild : initializeMap rq grow patchTables = .ok pm) :
    param.wholeFace = false ∧
    placePatch rq cap param h T = .ok (T, []) ∧
    (∀ F m T', populateQuadtree rq cap patchTables.paramTable
        ((patchRefs patchTables.patchArrays).take m) (List.replicate F QuadNode.empty) 0
          = .ok T' →
      ∀ n q c, slot T' n q = some c → c.isSet = true → c.isLeaf = true → c.idx ≠ i) ∧
    (∀ n q c, slot pm.quadtree n q = some c → c.isSet = true → c.isLeaf = true →
      c.idx ≠ i) := by
  obtain ⟨hw, hkind⟩ := unplaced_kind hq hd
  have hplace : placePatch rq cap param h T = .ok (T, []) := by
    unfold placePatch
    rw [List.getElem?_eq_getElem hroot]
    simp only [hw, hd]
    rfl
  have key : ∀ (cap : Nat → Nat) (ps : List PatchParam) (F : Nat) (T' : QuadTree),
      (∀ (j : Nat) (p : PatchParam), ps[j]? = some p → params[j]? = some p) →
      placeAll rq cap ps (List.replicate F QuadNode.empty) 0 = .ok T' →
      ∀ n q c, slot T' n q = some c → c.isSet = true → c.isLeaf = true → c.idx ≠ i := by
    intro cap ps F T' hsub hres n q c hc hset hleaf he
    rcases placeAll_leaf_idx hres hc hset hleaf with h1 | ⟨j, p, hj, hidx, hk⟩
    · rw [no_set_slot_replicate h1] at hset; cases hset
    · have hji : j = i := by omega
      subst hji
      have := hsub j p hj
      rw [hi] at this
      cases this
      exact hkind hk
  refine ⟨hw, hplace, ?_, ?_⟩
  · intro F m T' hres
    rw [populateQuadtree_take hparams] at hres
    exact key _ _ F T' (fun j p hj => getElem?_of_take hj) hres
  · by_cases hne : patchTables.numPatches = 0
    · have : pm.quadtree = [] := by
        simp only [initializeMap, hne, if_true, Except.ok.injEq] at hbuild
        subst hbuild; rfl
      intro n q c hc
      simp [this, slot] at hc
    · obtain ⟨hn, params', _, hps, _, _, hplaceAll⟩ := initializeMap_ok hne hbuild
      rw [hparams] at hps
      cases hps
      exact key _ _ _ _ (fun j p hj => hj) hplaceAll

/-- Witness of C18 on the patch with `nonQuadRoot` and depth 0 of a table with two
faces. -/
theorem unplaced_patch_witness :
    (⟨1, 0, true, 0, 0⟩ : PatchParam).nonQuadRoot = true ∧
    (⟨1, 0, true, 0, 0⟩ : PatchParam).depth = 0 ∧
    (⟨1, 0, true, 0, 0⟩ : PatchParam).faceIndex < (List.replicate 2 QuadNode.empty).length ∧
    refParams unplacedPatchTable.paramTable (patchRefs unplacedPatchTable.patchArrays)
      = some unplacedPatchTable.paramTable ∧
    unplacedPatchTable.paramTable[1]? = some ⟨1, 0, true, 0, 0⟩ ∧
    initializeMap resolveQuadrant doubling unplacedPatchTable
      = .ok (builtMap resolveQuadrant doubling unplacedPatchTable) ∧
    (⟨1, 0, true, 0, 0⟩ : PatchParam).wholeFace = false ∧
    placePatch resolveQuadrant (capacityAt doubling 5) ⟨1, 0, true, 0, 0⟩ 1
        (List.replicate 2 QuadNode.empty)
      = .ok (List.replicate 2 QuadNode.empty, []) ∧
    (∀ F m T', populateQuadtree resolveQuadrant (capacityAt doubling 5)
        unplacedPatchTable.paramTable
        ((patchRefs unplacedPatchTable.patchArrays).take m)
        (List.replicate F QuadNode.empty) 0 = .ok T' →
      ∀ n q c, slot T' n q = some c → c.isSet = true → c.isLeaf = true → c.idx ≠ 1) ∧
    (∀ n q c,
      slot (builtMap resolveQuadrant doubling unplacedPatchTable).quadtree n q = some c →
      c.isSet = true → c.isLeaf = true → c.idx ≠ 1) :=
  ⟨rfl, rfl, by decide, by decide, rfl, rfl,
    unplaced_patch resolveQuadrant doubling (capacityAt doubling 5) ⟨1, 0, true, 0, 0⟩ 1
      (List.replicate 2 QuadNode.empty)
      unplacedPatchTable _ unplacedPatchTable.paramTable 1 rfl rfl (by decide) (by decide)
      rfl rfl⟩

/-- C15: when the patch arrays together hold exactly `GetNumPatches()` patches, every
leaf slot of the quadtree of a build that completes holds an index `idx` below the
number of handles; `idx` is the linear index of a patch of the table, a whole-face
patch or one with `pdepth ≥ 0`; `handles[idx]` is the handle recorded for that patch
and has `patchIdx = idx`; and the slot was set by the placement of that patch: it does
not hold that leaf in the tree after the first `idx` placements and holds it after the
placement of patch `idx`. -/
theorem leaf_slots_hold_handles (rq : Resolver) (grow : Growth) (patchTables : PatchTables)
    (pm : PatchMap)
    (hsum : (patchTables.patchArrays.map PatchArray.numPatches).sum
      = patchTables.numPatches)
    (hbuild : initializeMap rq grow patchTables = .ok pm) :
    ∀ n q c, slot pm.quadtree n q = some c → c.isSet = true → c.isLeaf = true →
      c.idx < pm.handles.length ∧
      ∃ r p hn, (patchRefs patchTables.patchArrays)[c.idx]? = some r ∧
        patchTables.paramTable[r.paramIdx]? = some p ∧
        (p.wholeFace = true ∨ 0 ≤ p.pdepth) ∧
        pm.handles[c.idx]? = some (handleOf r c.idx) ∧
        (handleOf r c.idx).patchIdx = c.idx ∧
        populateHandles patchTables.paramTable (patchRefs patchTables.patchArrays)
          (List.replicate patchTables.numPatches default) 0 0 = .ok hn ∧
        ∃ T0 res, populateQuadtree rq (capacityAt grow (hn.2 + 1 + patchTables.numPatches))
            patchTables.paramTable
            ((patchRefs patchTables.patchArrays).take c.idx)
            (List.replicate (hn.2 + 1) QuadNode.empty) 0 = .ok T0 ∧
          placePatch rq (capacityAt grow (hn.2 + 1 + patchTables.numPatches)) p c.idx T0
            = .ok res ∧
          slot res.1 n q = some c ∧ slot T0 n q ≠ some c := by
  intro n q c hc hset hleaf
  by_cases hne : patchTables.numPatches = 0
  · have : pm.quadtree = [] := by
      simp only [initializeMap, hne, if_true, Except.ok.injEq] at hbuild
      subst hbuild; rfl
    simp [this, slot] at hc
  · obtain ⟨hn, params, hh, hps, _, hhandles, hplaceAll⟩ := initializeMap_ok hne hbuild
    obtain ⟨_, hlen, _, hget⟩ := populateHandles_ok hh
    rcases placeAll_leaf_idx hplaceAll hc hset hleaf with h1 | ⟨j, p, hj, hidx, hk⟩
    · rw [no_set_slot_replicate h1] at hset; cases hset
    · have hcj : c.idx = j := by omega
      have hjlt : j < (patchRefs patchTables.patchArrays).length := by
        rw [← refParams_length hps]; exact (List.getElem?_eq_some.1 hj).1
      have hlen' : pm.handles.length = patchTables.numPatches := by
        rw [hhandles, hlen]; simp
      have hrefs : (patchRefs patchTables.patchArrays).length = patchTables.numPatches := by
        rw [patchRefs, patchRefsFrom_length, hsum]
      have hlook := refParams_getElem? hps j
      rw [hj, List.getElem?_eq_getElem hjlt] at hlook
      obtain ⟨T0, res, hT0, hres, hrest⟩ := placeAll_split hplaceAll hj
      simp only [Nat.zero_add] at hres hrest
      rw [hcj]
      refine ⟨by omega, (patchRefs patchTables.patchArrays)[j], p, hn,
        List.getElem?_eq_getElem hjlt, by simpa using hlook.symm, hk, ?_, rfl, hh,
        T0, res, ?_, hres, ?_, ?_⟩
      · have hrange : 0 ≤ j ∧ j < 0 + (patchRefs patchTables.patchArrays).length := by omega
        rw [hhandles, hget, if_pos hrange]
        simp [List.getElem?_eq_getElem hjlt]
      · rw [populateQuadtree_take hps]; exact hT0
      · rcases placeAll_leaf_idx hrest hc hset hleaf with h2 | ⟨j', _, _, hidx', _⟩
        · exact h2
        · omega
      · intro h0
        rcases placeAll_leaf_idx hT0 h0 hset hleaf with h2 | ⟨j', p', hj', hidx', _⟩
        · rw [no_set_slot_replicate h2] at hset; cases hset
        · have := (List.getElem?_eq_some.1 hj').1
          simp only [List.length_take] at this
          omega

/-- Witness of C15 on a table with two patch arrays. -/
theorem leaf_slots_hold_handles_witness :
    (twoArraysTable.patchArrays.map PatchArray.numPatches).sum = twoArraysTable.numPatches ∧
    initializeMap resolveQuadrant doubling twoArraysTable
      = .ok (builtMap resolveQuadrant doubling twoArraysTable) ∧
    ∀ n q c, slot (builtMap resolveQuadrant doubling twoArraysTable).quadtree n q = some c →
      c.isSet = true → c.isLeaf = true →
      c.idx < (builtMap resolveQuadrant doubling twoArraysTable).handles.length ∧
      ∃ r p hn, (patchRefs twoArraysTable.patchArrays)[c.idx]? = some r ∧
        twoArraysTable.paramTable[r.paramIdx]? = some p ∧
        (p.wholeFace = true ∨ 0 ≤ p.pdepth) ∧
        (builtMap resolveQuadrant doubling twoArraysTable).handles[c.idx]?
          = some (handleOf r c.idx) ∧
        (handleOf r c.idx).patchIdx = c.idx ∧
        populateHandles twoArraysTable.paramTable (patchRefs twoArraysTable.patchArrays)
          (List.replicate twoArraysTable.numPatches default) 0 0 = .ok hn ∧
        ∃ T0 res, populateQuadtree resolveQuadrant
            (capacityAt doubling (hn.2 + 1 + twoArraysTable.numPatches))
            twoArraysTable.paramTable
            ((patchRefs twoArraysTable.patchArrays).take c.idx)
            (List.replicate (hn.2 + 1) QuadNode.empty) 0 = .ok T0 ∧
          placePatch resolveQuadrant
            (capacityAt doubling (hn.2 + 1 + twoArraysTable.numPatches)) p c.idx T0
            = .ok res ∧
          slot res.1 n q = some c ∧ slot T0 n q ≠ some c :=
  ⟨rfl, rfl, leaf_slots_hold_handles resolveQuadrant doubling twoArraysTable _ rfl rfl⟩

/-! ## The shape of the node store -/

theorem treeShaped_of_step {F : Nat} {T T' : QuadTree} (hstep : Step T T')
    (hF : F ≤ T.length) (hT : TreeShaped F T) : TreeShaped F T' := by
  cases hstep with
  | leaf node nd q h hnd hs =>
    have hold : ∀ n' q' c, slot (T.set node (nd.SetChild q h true)) n' q' = some c →
        c.isLeaf = false → slot T n' q' = some c := by
      intro n' q' c hc hleaf
      rw [slot_set_SetChild hnd] at hc
      by_cases hh : n' = node ∧ q' = q
      · simp only [hh, and_self, if_true, Option.some.injEq] at hc
        subst hc; cases hleaf
      · simpa [hh] using hc
    refine ⟨?_, ?_⟩
    · intro n' q' c hc hset hleaf
      simpa using hT.1 n' q' c (hold n' q' c hc hleaf) hset hleaf
    · intro n1 q1 c1 n2 q2 c2 h1 hs1 hl1 h2 hs2 hl2 he
      exact hT.2 n1 q1 c1 n2 q2 c2 (hold _ _ _ h1 hl1) hs1 hl1 (hold _ _ _ h2 hl2) hs2 hl2 he
  | branch c0 node nd q hnd hs =>
    have hp : node < T.length := (List.getElem?_eq_some.1 hnd).1
    have hcases : ∀ n' q' c, slot (addChild c0 T node q).1 n' q' = some c → c.isSet = true →
        (n' = node ∧ q' = q ∧ c.idx = T.length) ∨
        (¬ (n' = node ∧ q' = q) ∧ slot T n' q' = some c) := by
      intro n' q' c hc hset
      by_cases hh : n' = node ∧ q' = q
      · rcases addChild_set_slot hp hc hset with h0 | ⟨_, _, h1, _⟩
        · exfalso
          obtain ⟨rfl, rfl⟩ := hh
          rw [slot_of_getElem? hnd] at h0
          cases h0
          rw [hs] at hset; cases hset
        · subst h1
          exact Or.inl ⟨hh.1, hh.2, rfl⟩
      · rcases addChild_set_slot hp hc hset with h0 | ⟨h1, h2, _, _⟩
        · exact Or.inr ⟨hh, h0⟩
        · exact (hh ⟨h1, h2⟩).elim
    refine ⟨?_, ?_⟩
    · intro n' q' c hc hset hleaf
      rw [addChild_length]
      rcases hcases n' q' c hc hset with ⟨rfl, _, hidx⟩ | ⟨_, hold⟩
      · omega
      · have := hT.1 n' q' c hold hset hleaf
        omega
    · intro n1 q1 c1 n2 q2 c2 h1 hs1 hl1 h2 hs2 hl2 he
      rcases hcases n1 q1 c1 h1 hs1 with ⟨rfl, rfl, hi1⟩ | ⟨_, ho1⟩ <;>
        rcases hcases n2 q2 c2 h2 hs2 with ⟨rfl, rfl, hi2⟩ | ⟨_, ho2⟩
      · exact ⟨rfl, rfl⟩
      · have := hT.1 n2 q2 c2 ho2 hs2 hl2
        omega
      · have := hT.1 n1 q1 c1 ho1 hs1 hl1
        omega
      · exact hT.2 n1 q1 c1 n2 q2 c2 ho1 hs1 hl1 ho2 hs2 hl2 he

theorem treeShaped_of_steps {F : Nat} {T T' : QuadTree} (hsteps : Steps T T')
    (hF : F ≤ T.length) (hT : TreeShaped F T) : TreeShaped F T' := by
  induction hsteps with
  | refl => exact hT
  | tail hst hstep ih =>
    exact treeShaped_of_step hstep (Nat.le_trans hF (extends_of_steps hst).1) ih

theorem treeShaped_setChildAll {F : Nat} {T : QuadTree} (hT : TreeShaped F T)
    {f : Nat} (hf : f < T.length) (root : QuadNode) (h : Nat) :
    TreeShaped F (T.set f (root.SetChildAll h)) := by
  have hold : ∀ n' q' c, slot (T.set f (root.SetChildAll h)) n' q' = some c →
      c.isLeaf = false → slot T n' q' = some c := by
    intro n' q' c hc hleaf
    rw [slot_set T f _ hf] at hc
    by_cases hn : n' = f
    · simp only [hn, if_true, QuadNode.SetChildAll, Option.some.injEq] at hc
      subst hc; cases hleaf
    · simpa [hn] using hc
  refine ⟨?_, ?_⟩
  · intro n' q' c hc hset hleaf
    simpa using hT.1 n' q' c (hold n' q' c hc hleaf) hset hleaf
  · intro n1 q1 c1 n2 q2 c2 h1 hs1 hl1 h2 hs2 hl2 he
    exact hT.2 n1 q1 c1 n2 q2 c2 (hold _ _ _ h1 hl1) hs1 hl1 (hold _ _ _ h2 hl2) hs2 hl2 he

theorem placePatch_treeShaped {rq : Resolver} {cap : Nat → Nat} {param : PatchParam} {h F : Nat}
    {T : QuadTree} {res : QuadTree × List Visit}
    (hres : placePatch rq cap param h T = .ok res) (hF : F ≤ T.length)
    (hT : TreeShaped F T) : TreeShaped F res.1 := by
  obtain ⟨root, hroot, hcase⟩ := placePatch_cases hres
  rcases hcase with ⟨_, hr⟩ | ⟨_, hsteps⟩
  · subst hr
    exact treeShaped_setChildAll hT (List.getElem?_eq_some.1 hroot).1 _ _
  · exact treeShaped_of_steps hsteps hF hT

theorem placeAll_treeShaped {rq : Resolver} {cap : Nat → Nat} {F : Nat} :
    ∀ {params : List PatchParam} {T T' : QuadTree} {h : Nat},
      placeAll rq cap params T h = .ok T' → F ≤ T.length → TreeShaped F T →
      TreeShaped F T' := by
  intro params
  induction params with
  | nil =>
    intro T T' h hres _ hT
    simp only [placeAll, Except.ok.injEq] at hres
    subst hres; exact hT
  | cons p rest ih =>
    intro T T' h hres hF hT
    simp only [placeAll] at hres
    cases hp : placePatch rq cap p h T with
    | error e => simp [hp] at hres
    | ok res =>
      simp only [hp] at hres
      exact ih hres (Nat.le_trans hF (placePatch_length hp).1)
        (placePatch_treeShaped hp hF hT)

theorem treeShaped_replicate (F : Nat) :
    TreeShaped F (List.replicate F QuadNode.empty) := by
  refine ⟨?_, ?_⟩
  · intro n q c hc hset _
    rw [no_set_slot_replicate hc] at hset; cases hset
  · intro n q c _ _ _ hc hset
    rw [no_set_slot_replicate hc] at hset; cases hset

/-- A second pass that completes has found every parameter lookup within the
table, and is the placement loop on the parameters found. -/
theorem populateQuadtree_ok {rq : Resolver} {cap : Nat → Nat} {paramTable : List PatchParam} :
    ∀ {refs : List PatchRef} {T T' : QuadTree} {h : Nat},
      populateQuadtree rq cap paramTable refs T h = .ok T' →
      ∃ params, refParams paramTable refs = some params ∧
        placeAll rq cap params T h = .ok T' := by
  intro refs
  induction refs with
  | nil =>
    intro T T' h hres
    exact ⟨[], rfl, hres⟩
  | cons r rest ih =>
    intro T T' h hres
    simp only [populateQuadtree] at hres
    cases hr : paramTable[r.paramIdx]? with
    | none => simp [hr] at hres
    | some param =>
      simp only [hr] at hres
      cases hp : placePatch rq cap param h T with
      | error e => simp [hp] at hres
      | ok res =>
        simp only [hp] at hres
        obtain ⟨ps, hps, hpl⟩ := ih hres
        exact ⟨param :: ps, by simp [refParams, hr, hps], by simp [placeAll, hp, hpl]⟩

/-- C13: after any number `m` of placements of the second pass on `F` fresh roots
the node store is tree-shaped: every branch slot holds a node index `idx` with
`F ≤ idx < node count` that is greater than the index of the node of the slot, and no
two branch slots hold the same index, so that every non-root node is referenced by at
most one branch slot. The same holds of the finished quadtree, with `F` the number of
roots computed by the first pass. -/
theorem tree_shaped_after_placements (rq : Resolver) (grow : Growth) (cap : Nat → Nat)
    (patchTables : PatchTables) (pm : PatchMap) (F m : Nat) (T : QuadTree)
    (hT : populateQuadtree rq cap patchTables.paramTable
      ((patchRefs patchTables.patchArrays).take m) (List.replicate F QuadNode.empty) 0
        = .ok T)
    (hne : patchTables.numPatches ≠ 0)
    (hbuild : initializeMap rq grow patchTables = .ok pm) :
    TreeShaped F T ∧
    ∃ hn, populateHandles patchTables.paramTable (patchRefs patchTables.patchArrays)
        (List.replicate patchTables.numPatches default) 0 0 = .ok hn ∧
      TreeShaped (hn.2 + 1) pm.quadtree := by
  refine ⟨?_, ?_⟩
  · obtain ⟨ps, _, hpl⟩ := populateQuadtree_ok hT
    exact placeAll_treeShaped hpl (by simp) (treeShaped_replicate F)
  · obtain ⟨hn, params, hh, _, _, _, hplaceAll⟩ := initializeMap_ok hne hbuild
    exact ⟨hn, hh, placeAll_treeShaped hplaceAll (by simp) (treeShaped_replicate _)⟩

/-- Witness of C13 on a table with two patch arrays, after its first two
placements. -/
theorem tree_shaped_after_placements_witness :
    populateQuadtree resolveQuadrant (capacityAt doubling 6) twoArraysTable.paramTable
      ((patchRefs twoArraysTable.patchArrays).take 2) (List.replicate 3 QuadNode.empty) 0
        = .ok (treeAfter resolveQuadrant (capacityAt doubling 6) 3
            (twoArraysTable.paramTable.take 2)) ∧
    twoArraysTable.numPatches ≠ 0 ∧
    initializeMap resolveQuadrant doubling twoArraysTable
      = .ok (builtMap resolveQuadrant doubling twoArraysTable) ∧
    TreeShaped 3 (treeAfter resolveQuadrant (capacityAt doubling 6) 3
      (twoArraysTable.paramTable.take 2)) ∧
    ∃ hn, populateHandles twoArraysTable.paramTable (patchRefs twoArraysTable.patchArrays)
        (List.replicate twoArraysTable.numPatches default) 0 0 = .ok hn ∧
      TreeShaped (hn.2 + 1) (builtMap resolveQuadrant doubling twoArraysTable).quadtree :=
  ⟨rfl, by decide, rfl,
    tree_shaped_after_placements resolveQuadrant doubling (capacityAt doubling 6)
      twoArraysTable _ 3 2 _ rfl (by decide) rfl⟩

/-! ## Stages of a build on prefix-free placements -/

theorem placements_append (rq : Resolver) :
    ∀ (xs ys : List PatchParam) (h : Nat),
      placements rq (xs ++ ys) h = placements rq xs h ++ placements rq ys (h + xs.length) := by
  intro xs
  induction xs with
  | nil => intro ys h; simp [placements]
  | cons x rest ih =>
    intro ys h
    have e : h + 1 + rest.length = h + (rest.length + 1) := by omega
    have e2 : (x :: rest) ++ ys = x :: (rest ++ ys) := rfl
    rw [e2]
    simp only [placements, List.length_cons]
    cases x.path rq with
    | none => rw [ih, e]
    | some P => rw [ih, e]; rfl

theorem mem_placements_face {rq : Resolver} :
    ∀ {params : List PatchParam} {h : Nat} {x : Placed}, x ∈ placements rq params h →
      ∃ j p, params[j]? = some p ∧ x.h = h + j ∧ x.face = p.faceIndex ∧
        p.path rq = some x.path := by
  intro params
  induction params with
  | nil => intro h x hx; simp [placements] at hx
  | cons p0 rest ih =>
    intro h x hx
    have step : x ∈ placements rq rest (h + 1) →
        ∃ j p, (p0 :: rest)[j]? = some p ∧ x.h = h + j ∧ x.face = p.faceIndex ∧
          p.path rq = some x.path := by
      intro hx'
      obtain ⟨j, p, hj, h1, h2, h3⟩ := ih hx'
      exact ⟨j + 1, p, by simpa using hj, by omega, h2, h3⟩
    unfold placements at hx
    cases hp : p0.path rq with
    | none =>
      simp only [hp] at hx
      exact step hx
    | some P =>
      simp only [hp] at hx
      rcases List.mem_cons.1 hx with rfl | hx'
      · exact ⟨0, p0, by simp, rfl, rfl, hp⟩
      · exact step hx'

/-- The prefix-free placements of a table stay prefix-free when only its first `m`
patches are kept. -/
theorem prefixFree_take {rq : Resolver} {params : List PatchParam}
    (hfree : PrefixFree (placements rq params 0)) (m : Nat) :
    PrefixFree (placements rq (params.take m) 0) := by
  have e := placements_append rq (params.take m) (params.drop m) 0
  rw [List.take_append_drop] at e
  unfold PrefixFree at hfree ⊢
  rw [e] at hfree
  exact (List.pairwise_append.1 hfree).1

/-- In a prefix-free table the placement of the patch of index `i` is apart from the
placements of the patches before it. -/
theorem apart_of_prefixFree {rq : Resolver} {params : List PatchParam}
    (hfree : PrefixFree (placements rq params 0)) {i : Nat} {p : PatchParam}
    {P : List (Fin 4)} (hi : params[i]? = some p) (hP : p.path rq = some P) :
    ∀ b ∈ placements rq (params.take i) 0, b.Apart ⟨i, p.faceIndex, P⟩ := by
  obtain ⟨hlt, hpe⟩ := List.getElem?_eq_some.1 hi
  have hsplit : params = params.take i ++ p :: params.drop (i + 1) := by
    rw [← hpe, List.getElem_cons_drop, List.take_append_drop]
  have e := placements_append rq (params.take i) (p :: params.drop (i + 1)) 0
  rw [← hsplit] at e
  have hlen : (params.take i).length = i := by simp; omega
  rw [hlen] at e
  unfold PrefixFree at hfree
  rw [e] at hfree
  intro b hb
  refine (List.pairwise_append.1 hfree).2.2 b hb _ ?_
  simp [placements, hP]

/-- The tree after the placements of a prefix-free list of patches on `F` fresh
roots, in a node vector that is never full: the loop completes and the tree represents
the placements. -/
theorem stage_inv (rq : Resolver) (F : Nat) (ps : List PatchParam)
    (hF : ∀ p ∈ ps, p.faceIndex < F) (hfree : PrefixFree (placements rq ps 0)) :
    ∃ T addr, placeAll rq unlimited ps (List.replicate F QuadNode.empty) 0 = .ok T ∧
      InvA F T addr {x | x ∈ placements rq ps 0} {x | x ∈ placements rq ps 0} := by
  obtain ⟨T, addr, hres, hI⟩ := placeAll_inv rq F ps _ _ 0 ∅ (inv_initial F) hF
    (fun b hb => hb.elim) hfree
  have e : (∅ : Set Placed) ∪ {x | x ∈ placements rq ps 0}
      = {x | x ∈ placements rq ps 0} := by simp
  rw [e] at hI
  exact ⟨T, addr, hres, hI⟩

/-- On a tree that represents the placements `B`, the path of a patch whose
placement is apart from those of `B` on its face is free. -/
theorem pathFree_of_inv (rq : Resolver) (F : Nat) (A B : Set Placed) (f : Nat)
    (P : List (Fin 4))
    (hB : ∀ b ∈ B, b.face = f → ¬ b.path <+: P)
    (hA2 : ∀ a ∈ A, a.face = f → ∀ R, R ≠ [] → a.path ≠ P ++ R)
    {T : QuadTree} {addr : List (Nat × List (Fin 4))} (hI : InvA F T addr A B) :
    ∀ (m node half u v : Nat) (Q : List (Fin 4)), addr[node]? = some (f, Q) →
      P = Q ++ qpath rq (m + 1) half u v → pathFree rq T m node half u v = true := by
  intro m
  induction m with
  | zero =>
    intro node half u v Q haddr hP
    have hnode : node < T.length := by
      rw [← hI.len]; exact (List.getElem?_eq_some.1 haddr).1
    have hnd : T[node]? = some T[node] := List.getElem?_eq_getElem hnode
    have hc := slot_of_getElem? hnd (rq half u v).1
    have hP' : P = Q ++ [(rq half u v).1] := by
      rw [hP, qpath_succ]; simp [qpath, resolveSeq]
    refine pathFree_zero.2 ⟨_, hc, ?_⟩
    cases hset : (T[node].children (rq half u v).1).isSet with
    | false => rfl
    | true =>
      exfalso
      cases hleaf : (T[node].children (rq half u v).1).isLeaf with
      | true =>
        obtain ⟨p, hp, _, hface, hpath⟩ := hI.leaf _ _ _ _ hc hset hleaf haddr
        refine hB p hp hface ?_
        rcases hpath with e | ⟨e, _⟩
        · rw [e, hP']
        · rw [e]; exact List.nil_prefix
      | false =>
        obtain ⟨_, p, hp, hface, R, hR, hpath⟩ := hI.branch _ _ _ _ hc hset hleaf haddr
        exact hA2 p hp hface R hR (by rw [hpath, hP'])
  | succ m ih =>
    intro node half u v Q haddr hP
    have hnode : node < T.length := by
      rw [← hI.len]; exact (List.getElem?_eq_some.1 haddr).1
    have hnd : T[node]? = some T[node] := List.getElem?_eq_getElem hnode
    have hc := slot_of_getElem? hnd (rq half u v).1
    have hP' : P = (Q ++ [(rq half u v).1])
        ++ qpath rq (m + 1) (half >>> 1) (rq half u v).2.1 (rq half u v).2.2 := by
      rw [hP, qpath_succ]; simp
    refine pathFree_succ.2 ⟨_, hc, ?_⟩
    cases hset : (T[node].children (rq half u v).1).isSet with
    | false => exact Or.inl rfl
    | true =>
      right
      cases hleaf : (T[node].children (rq half u v).1).isLeaf with
      | true =>
        exfalso
        obtain ⟨p, hp, _, hface, hpath⟩ := hI.leaf _ _ _ _ hc hset hleaf haddr
        refine hB p hp hface ?_
        rcases hpath with e | ⟨e, _⟩
        · rw [e, hP']; exact List.prefix_append _ _
        · rw [e]; exact List.nil_prefix
      | false =>
        obtain ⟨haddr1, _⟩ := hI.branch _ _ _ _ hc hset hleaf haddr
        have hidx : (T[node].children (rq half u v).1).idx < T.length := by
          rw [← hI.len]; exact (List.getElem?_eq_some.1 haddr1).1
        exact ⟨rfl, hidx, ih _ _ _ _ _ haddr1 hP'⟩

/-- The path of a patch of the general case whose placement is apart from the
placements `B` that the tree represents is free from the root of its face. -/
theorem pathFree_of_apart {rq : Resolver} {F : Nat} {T : QuadTree}
    {addr : List (Nat × List (Fin 4))} {B : Set Placed} {param : PatchParam} {d : Nat}
    (h : Nat) (hI : InvA F T addr B B) (hf : param.faceIndex < F)
    (hapart : ∀ b ∈ B,
      b.Apart ⟨h, param.faceIndex, qpath rq (d + 1) (1 <<< d) param.u param.v⟩) :
    pathFree rq T d param.faceIndex (1 <<< d) param.u param.v = true := by
  refine pathFree_of_inv rq F B B param.faceIndex _ (fun b hb hface => (hapart b hb hface).1)
    ?_ hI d param.faceIndex (1 <<< d) param.u param.v [] (hI.root_addr _ hf) (by simp)
  intro a ha hface R _ he
  exact (hapart a ha hface).2 (by rw [he]; exact List.prefix_append _ _)

theorem path_of_pdepth {rq : Resolver} {param : PatchParam} {d : Nat}
    (hd : param.pdepth = (d : Int)) :
    param.path rq = some (qpath rq (d + 1) (1 <<< d) param.u param.v) := by
  obtain ⟨hw, _, htoNat⟩ := pdepth_general hd
  have h0 : 0 ≤ param.pdepth := by rw [hd]; exact Int.natCast_nonneg d
  simp [PatchParam.path, hw, h0, htoNat]

theorem placePatch_eq_descend {rq : Resolver} {cap : Nat → Nat} {param : PatchParam} {d : Nat}
    (hd : param.pdepth = (d : Int)) (h : Nat) {T : QuadTree}
    (hroot : param.faceIndex < T.length) :
    placePatch rq cap param h T
      = descend rq cap h param.pdepth param.depth 0 param.faceIndex (1 <<< d) param.u param.v
          T := by
  obtain ⟨hw, _, htoNat⟩ := pdepth_general hd
  unfold placePatch
  rw [List.getElem?_eq_getElem hroot]
  simp only [hw, htoNat]
  rfl

/-- The placement of a patch of the general case with `pdepth = d` on a tree that
represents placements from which it is apart, in a node vector that is never full: it
completes, the tree it returns
represents the placements with its own added, and its log is that of a descent along
a free path. -/
theorem placePatch_general_stage {rq : Resolver} {F : Nat} {T : QuadTree}
    {addr : List (Nat × List (Fin 4))} {B : Set Placed} {param : PatchParam} {d : Nat}
    (h : Nat) (hI : InvA F T addr B B) (hf : param.faceIndex < F)
    (hd : param.pdepth = (d : Int))
    (hapart : ∀ b ∈ B,
      b.Apart ⟨h, param.faceIndex, qpath rq (d + 1) (1 <<< d) param.u param.v⟩) :
    ∃ T' tr addr', placePatch rq unlimited param h T = .ok (T', tr) ∧
      InvA F T' addr'
        (insert ⟨h, param.faceIndex, qpath rq (d + 1) (1 <<< d) param.u param.v⟩ B)
        (insert ⟨h, param.faceIndex, qpath rq (d + 1) (1 <<< d) param.u param.v⟩ B) ∧
      Steps T T' ∧
      tr.map (fun vis => (vis.half, vis.u, vis.v, vis.quadrant))
        = resolveSeq rq (d + 1) (1 <<< d) param.u param.v ∧
      tr.map Visit.k = List.range' 0 (d + 1) ∧
      (tr[0]?).map Visit.node = some param.faceIndex ∧
      (∀ i vis vis', tr[i]? = some vis → tr[i + 1]? = some vis' →
        slot T' vis.node vis.quadrant = some (Child.branch vis'.node)) ∧
      (∀ vis, tr[d]? = some vis →
        slot T' vis.node vis.quadrant = some (Child.leaf h)) := by
  have hlt : param.faceIndex < T.length := Nat.lt_of_lt_of_le hf hI.roots_le
  obtain ⟨_, hdepth, _⟩ := pdepth_general hd
  obtain ⟨T1, tr1, addr1, hp1, hI1⟩ := placePatch_inv h hI hf (path_of_pdepth hd) hapart
  obtain ⟨T2, tr2, hd2, hseq, hks, hhead, hchain, hlast, _⟩ :=
    descend_free rq h param.pdepth d param.depth 0 param.faceIndex (1 <<< d) param.u
      param.v T (by rw [hd]; simp) hdepth hlt (pathFree_of_apart h hI hf hapart)
  have hsteps := descend_steps rq _ h _ _ _ _ _ _ _ _ _ hd2
  rw [placePatch_eq_descend hd h hlt, hd2] at hp1
  simp only [Except.ok.injEq, Prod.mk.injEq] at hp1
  obtain ⟨rfl, rfl⟩ := hp1
  exact ⟨T2, tr2, addr1, by rw [placePatch_eq_descend hd h hlt, hd2], hI1, hsteps, hseq, hks,
    hhead, hchain, hlast⟩

/-! ## Nodes and branch prefixes -/

/-- No two nodes have the same address. -/
theorem addr_nodup {F : Nat} {T : QuadTree} {addr : List (Nat × List (Fin 4))}
    {A B : Set Placed} (hI : InvA F T addr A B) : addr.Nodup := by
  rw [List.nodup_iff_getElem?_ne_getElem?]
  intro i j hij hj he
  have hjs : addr[j]? = some addr[j] := List.getElem?_eq_getElem hj
  have his : addr[i]? = some addr[j] := by rw [he, hjs]
  have h1 := walk_of_addr hI _ _ _ rfl his
  have h2 := walk_of_addr hI _ _ _ rfl hjs
  rw [h1] at h2
  have := Option.some.inj h2
  omega

/-- Every prefix of the address of a node is the address of a node. -/
theorem addr_ancestor {F : Nat} {T : QuadTree} {addr : List (Nat × List (Fin 4))}
    {A B : Set Placed} (hI : InvA F T addr A B) (f : Nat) (Q1 : List (Fin 4)) :
    ∀ (Q2 : List (Fin 4)) (n : Nat), addr[n]? = some (f, Q1 ++ Q2) →
      ∃ m : Nat, addr[m]? = some (f, Q1) := by
  intro Q2
  induction Q2 using List.reverseRecOn with
  | nil => intro n hn; exact ⟨n, by simpa using hn⟩
  | append_singleton Q2 q ih =>
    intro n hn
    by_cases hF : n < F
    · rw [hI.root_addr n hF] at hn
      simp at hn
    · obtain ⟨m, Q, q', h1, h2, _⟩ := hI.parent n _ (by omega) hn
      have h1' : Q1 ++ Q2 ++ [q] = Q ++ [q'] := by simpa using h1
      have hQ : Q1 ++ Q2 = Q := (List.append_inj' h1' rfl).1
      rw [← hQ] at h2
      exact ih m h2

/-- The nodes after the roots are, by their addresses, the branch prefixes of the
placements. -/
theorem mem_drop_addr_iff {F : Nat} {T : QuadTree} {addr : List (Nat × List (Fin 4))}
    {pls : List Placed}
    (hI : InvA F T addr {x | x ∈ pls} {x | x ∈ pls}) (x : Nat × List (Fin 4)) :
    x ∈ addr.drop F ↔ x ∈ branchPrefixes pls := by
  constructor
  · intro hx
    obtain ⟨j, hj⟩ := List.mem_iff_getElem?.1 hx
    rw [List.getElem?_drop] at hj
    obtain ⟨m, Q, q, h1, h2, h3⟩ := hI.parent (F + j) x (by omega) hj
    obtain ⟨_, p, hp, hface, R, hR, hpath⟩ := hI.branch _ _ _ _ h3 rfl rfl h2
    simp only at hface hpath
    unfold branchPrefixes
    rw [List.mem_flatMap]
    refine ⟨p, hp, ?_⟩
    rw [List.mem_map]
    have hRlen : 0 < R.length := List.length_pos.2 hR
    refine ⟨Q.length, ?_, ?_⟩
    · rw [List.mem_range, hpath]
      simp only [List.length_append, List.length_singleton]
      omega
    · have ht : p.path.take (Q.length + 1) = Q ++ [q] := by
        rw [hpath]
        exact List.take_left' (by simp)
      rw [ht, hface, ← h1]
  · intro hx
    unfold branchPrefixes at hx
    rw [List.mem_flatMap] at hx
    obtain ⟨p, hp, hx⟩ := hx
    rw [List.mem_map] at hx
    obtain ⟨i, hi, rfl⟩ := hx
    rw [List.mem_range] at hi
    have hne : p.path ≠ [] := by
      intro h0
      rw [h0] at hi
      simp at hi
    rcases List.eq_nil_or_concat p.path with h0 | ⟨Q, q, hQ⟩
    · exact (hne h0).elim
    · have hQ' : p.path = Q ++ [q] := by simpa using hQ
      obtain ⟨n, hn, _⟩ := (hI.placed p hp).2 Q q hQ'
      have hlen : i + 1 ≤ Q.length := by
        rw [hQ'] at hi
        simp only [List.length_append, List.length_singleton] at hi
        omega
      have htake : p.path.take (i + 1) = Q.take (i + 1) := by
        rw [hQ']
        exact List.take_append_of_le_length hlen
      rw [htake]
      have hsplit : Q = Q.take (i + 1) ++ Q.drop (i + 1) := (List.take_append_drop _ _).symm
      rw [hsplit] at hn
      obtain ⟨m, hm⟩ := addr_ancestor hI p.face (Q.take (i + 1)) _ n hn
      have hmF : F ≤ m := by
        by_contra hlt
        rw [hI.root_addr m (by omega)] at hm
        simp only [Option.some.injEq, Prod.mk.injEq] at hm
        have := congrArg List.length hm.2
        simp only [List.length_nil, List.length_take] at this
        omega
      rw [List.mem_iff_getElem?]
      refine ⟨m - F, ?_⟩
      rw [List.getElem?_drop]
      have : F + (m - F) = m := by omega
      rw [this]
      exact hm

/-- A tree that represents the placements `pls` on `F` roots has, after the roots,
as many nodes as the placements have distinct branch prefixes. -/
theorem length_of_inv {F : Nat} {T : QuadTree} {addr : List (Nat × List (Fin 4))}
    {pls : List Placed} (hI : InvA F T addr {x | x ∈ pls} {x | x ∈ pls}) :
    T.length = F + (branchPrefixes pls).toFinset.card := by
  have hnd : (addr.drop F).Nodup := (addr_nodup hI).sublist (List.drop_sublist _ _)
  have hset : (addr.drop F).toFinset = (branchPrefixes pls).toFinset := by
    ext x
    simp only [List.mem_toFinset]
    exact mem_drop_addr_iff hI x
  have hcard := List.toFinset_card_of_nodup hnd
  rw [hset, List.length_drop, hI.len] at hcard
  have := hI.roots_le
  omega

theorem patchRefs_eq_nil {patchArrays : List PatchArray}
    (h : (patchArrays.map PatchArray.numPatches).sum = 0) : patchRefs patchArrays = [] := by
  apply List.eq_nil_of_length_eq_zero
  rw [patchRefs, patchRefsFrom_length, h]

/-! ## Stages of a build within the reserved capacity -/

theorem take_succ_of_getElem? {α : Type} {l : List α} {i : Nat} {p : α}
    (hi : l[i]? = some p) : l.take (i + 1) = l.take i ++ [p] := by
  rw [List.take_succ, hi]
  rfl

/-- The tree of a prefix-free list of patches, placed on `F` fresh roots in a vector
that is never full, has the `F` roots and one node for each distinct branch prefix. -/
theorem stage_length (rq : Resolver) (F : Nat) (ps : List PatchParam)
    (hF : ∀ p ∈ ps, p.faceIndex < F) (hfree : PrefixFree (placements rq ps 0))
    {T : QuadTree}
    (hT : placeAll rq unlimited ps (List.replicate F QuadNode.empty) 0 = .ok T) :
    T.length = F + (branchPrefixes (placements rq ps 0)).toFinset.card := by
  obtain ⟨T', addr, hT', hI⟩ := stage_inv rq F ps hF hfree
  rw [hT] at hT'
  cases hT'
  exact length_of_inv hI

/-- When the roots and the branch prefixes of the first `i + 1` patches of a
prefix-free list fit in the reserved capacity, the placements of the first `i`
patches and of patch `i` are those in a vector that is never full. -/
theorem stage_within (rq : Resolver) (grow : Growth) (R F : Nat) (params : List PatchParam)
    (i : Nat) (p : PatchParam) (hF : ∀ p ∈ params, p.faceIndex < F)
    (hfree : PrefixFree (placements rq params 0)) (hi : params[i]? = some p)
    (hcap : F + (branchPrefixes (placements rq (params.take (i + 1)) 0)).toFinset.card ≤ R)
    {T T' : QuadTree} {tr : List Visit}
    (hT : placeAll rq unlimited (params.take i) (List.replicate F QuadNode.empty) 0 = .ok T)
    (hp : placePatch rq unlimited p i T = .ok (T', tr)) :
    placeAll rq (capacityAt grow R) (params.take i) (List.replicate F QuadNode.empty) 0
        = .ok T ∧
      placePatch rq (capacityAt grow R) p i T = .ok (T', tr) := by
  have hilt : i < params.length := (List.getElem?_eq_some.1 hi).1
  have hall : placeAll rq unlimited (params.take (i + 1))
      (List.replicate F QuadNode.empty) 0 = .ok T' := by
    rw [take_succ_of_getElem? hi, placeAll_append, hT]
    simp [placeAll, hp, Nat.min_eq_left (Nat.le_of_lt hilt)]
  have hlen := stage_length rq F _ (fun q hq => hF q (List.mem_of_mem_take hq))
    (prefixFree_take hfree (i + 1)) hall
  have hmono : T.length ≤ T'.length := placePatch_mono hp
  have hT' : T'.length ≤ R := by omega
  exact ⟨placeAll_within grow hT (by omega), placePatch_within grow hp hT'⟩

/-! ## Distinct addresses -/

/-- A branch slot of the tree after a sequence of updates of the descent is a branch
slot of the tree before, or holds the index of a node appended since. -/
theorem new_branch_of_steps {T T' : QuadTree} (hsteps : Steps T T') :
    ∀ n q c, slot T' n q = some c → c.isSet = true → c.isLeaf = false →
      slot T n q = some c ∨ T.length ≤ c.idx := by
  induction hsteps with
  | refl => intro n q c hc _ _; exact Or.inl hc
  | tail hst hstep ih =>
    intro n q c hc hset hleaf
    have hlen := (extends_of_steps hst).1
    cases hstep with
    | leaf node nd q0 h hnd hs =>
      rw [slot_set_SetChild hnd] at hc
      by_cases hh : n = node ∧ q = q0
      · simp only [hh, and_self, if_true, Option.some.injEq] at hc
        subst hc; cases hleaf
      · simp only [hh, if_false] at hc
        exact ih n q c hc hset hleaf
    | branch c0 node nd q0 hnd hs =>
      have hp := (List.getElem?_eq_some.1 hnd).1
      rcases addChild_set_slot hp hc hset with h0 | ⟨_, _, h1, _⟩
      · exact ih n q c h0 hset hleaf
      · subst h1
        exact Or.inr hlen

/-- C14 (counterexamples): after a depth-1 patch has put `leaf 0` in slot 0 of the
root of face 0, the descent of a depth-2 patch inside that quadrant continues from
slot 0 into node 0, the handle index of the leaf, and completes. With the leaf of
handle index 1 in slot 0 and a single node in the store, the same descent takes node
index 1, which is outside the node store. And on the fresh root of a table with a
single patch of depth 3, whose node vector is reserved to `nfaces + npatches = 2`
nodes, the descent continues from node 1 into the appended node 2 while the slot it
went through in node 1 stays unset: the `push_back` has reallocated the vector and the
branch is not written in it. -/
theorem descent_through_leaf :
    treeView (treeAfter resolveQuadrant (capacityAt doubling 3) 1 [⟨0, 1, false, 0, 0⟩])
      = [[Child.leaf 0, Child.unset, Child.unset, Child.unset]] ∧
    (placePatch resolveQuadrant (capacityAt doubling 3) ⟨0, 2, false, 0, 1⟩ 1
        (treeAfter resolveQuadrant (capacityAt doubling 3) 1
          [⟨0, 1, false, 0, 0⟩])).toOption.map
          (fun res => (treeView res.1, res.2))
      = some ([[Child.leaf 0, Child.unset, Child.leaf 1, Child.unset]],
          [⟨0, 0, 2, 0, 1, 0⟩, ⟨1, 0, 1, 0, 1, 2⟩]) ∧
    treeView (treeAfter resolveQuadrant (capacityAt doubling 4) 1
        [⟨0, 1, false, 1, 1⟩, ⟨0, 1, false, 0, 0⟩])
      = [[Child.leaf 1, Child.unset, Child.unset, Child.leaf 0]] ∧
    (placePatch resolveQuadrant (capacityAt doubling 4) ⟨0, 2, false, 0, 1⟩ 2
        (treeAfter resolveQuadrant (capacityAt doubling 4) 1
          [⟨0, 1, false, 1, 1⟩, ⟨0, 1, false, 0, 0⟩])).map
          (fun _ => ())
      = .error .outOfBounds ∧
    (initializeMap resolveQuadrant doubling nestedSecondTable).map (fun _ => ())
      = .error .outOfBounds ∧
    (placePatch resolveQuadrant (capacityAt doubling 2) ⟨0, 3, false, 0, 0⟩ 0
        [QuadNode.empty]).toOption.map
          (fun res => (treeView res.1,
            res.2.map fun vis => (vis.k, vis.node, vis.quadrant)))
      = some ([[Child.branch 1, Child.unset, Child.unset, Child.unset],
               [Child.unset, Child.unset, Child.unset, Child.unset],
               [Child.leaf 0, Child.unset, Child.unset, Child.unset]],
          [(0, 0, 0), (1, 1, 0), (2, 2, 0)]) := by
  refine ⟨by decide, by decide, by decide, rfl, rfl, by decide⟩

/-- C14 (amended): in a table whose placements are pairwise prefix-free, and in a
node vector whose reserved capacity `R` holds the `F` roots and the distinct branch
prefixes of the patches up to patch `i`, the placement of patch `i`, of the general
case with `pdepth = d ≥ 0`, on the tree of the patches before it completes with
`d + 1` visits, the first at the root of its face, a valid index. At every intermediate
level the slot visited is not a leaf in the tree before the placement; the node the
descent continues into is the target of that slot in the resulting tree, which is a
branch; and it is either the target of that same branch slot in the tree before, a
valid index there, or, the slot not being set before, a node appended during this
placement, a valid index of the resulting tree. -/
theorem descent_follows_branches (rq : Resolver) (grow : Growth) (R F : Nat)
    (params : List PatchParam) (i : Nat) (p : PatchParam) (d : Nat)
    (hF : ∀ p ∈ params, p.faceIndex < F)
    (hfree : PrefixFree (placements rq params 0))
    (hi : params[i]? = some p) (hd : p.pdepth = (d : Int))
    (hcap : F + (branchPrefixes (placements rq (params.take (i + 1)) 0)).toFinset.card
      ≤ R) :
    ∃ T T' tr, placeAll rq (capacityAt grow R) (params.take i)
        (List.replicate F QuadNode.empty) 0 = .ok T ∧
      placePatch rq (capacityAt grow R) p i T = .ok (T', tr) ∧
      tr.length = d + 1 ∧
      (tr[0]?).map Visit.node = some p.faceIndex ∧ p.faceIndex < T.length ∧
      ∀ k vis vis', tr[k]? = some vis → tr[k + 1]? = some vis' →
        (∀ c, slot T vis.node vis.quadrant = some c → c.isSet = true → c.isLeaf = false) ∧
        slot T' vis.node vis.quadrant = some (Child.branch vis'.node) ∧
        ((slot T vis.node vis.quadrant = some (Child.branch vis'.node) ∧
            vis'.node < T.length) ∨
         ((∀ c, slot T vis.node vis.quadrant = some c → c.isSet = false) ∧
            T.length ≤ vis'.node ∧ vis'.node < T'.length)) := by
  have hFt : ∀ p' ∈ params.take i, p'.faceIndex < F :=
    fun p' hp' => hF p' (List.mem_of_mem_take hp')
  obtain ⟨T, addr, hT, hI⟩ := stage_inv rq F (params.take i) hFt (prefixFree_take hfree i)
  have hf : p.faceIndex < F := hF p (by
    obtain ⟨hlt, hpe⟩ := List.getElem?_eq_some.1 hi
    exact hpe ▸ List.getElem_mem hlt)
  obtain ⟨T', tr, addr', hp, hI', hsteps, hseq, _, hhead, hchain, _⟩ :=
    placePatch_general_stage i hI hf hd (apart_of_prefixFree hfree hi (path_of_pdepth hd))
  obtain ⟨hTc, hpc⟩ := stage_within rq grow R F params i p hF hfree hi hcap hT hp
  have hext := extends_of_steps hsteps
  have hlen : tr.length = d + 1 := by
    have := congrArg List.length hseq
    simpa [resolveSeq_length] using this
  refine ⟨T, T', tr, hTc, hpc, hlen, hhead, Nat.lt_of_lt_of_le hf hI.roots_le, ?_⟩
  intro k vis vis' hk hk1
  have hbr := hchain k vis vis' hk hk1
  have hvalid' : vis'.node < T'.length := by
    have hn := slot_lt_length hbr
    have ha : ∃ a, addr'[vis.node]? = some a := by
      have : vis.node < addr'.length := by rw [hI'.len]; exact hn
      exact ⟨_, List.getElem?_eq_getElem this⟩
    obtain ⟨a, ha⟩ := ha
    have := (hI'.branch _ _ _ a hbr rfl rfl ha).1
    rw [← hI'.len]
    exact (List.getElem?_eq_some.1 this).1
  have hold : ∀ c, slot T vis.node vis.quadrant = some c → c.isSet = true →
      c = Child.branch vis'.node := by
    intro c hc hset
    have := hext.2 _ _ _ hc hset
    rw [hbr] at this
    exact (Option.some.inj this).symm
  refine ⟨fun c hc hset => by rw [hold c hc hset]; rfl, hbr, ?_⟩
  cases hs : slot T vis.node vis.quadrant with
  | none =>
    right
    refine ⟨fun c hc => (by cases hc), ?_, hvalid'⟩
    rcases new_branch_of_steps hsteps _ _ _ hbr rfl rfl with h1 | h2
    · rw [hs] at h1; cases h1
    · exact h2
  | some c =>
    cases hset : c.isSet with
    | true =>
      left
      have hc := hold c hs hset
      subst hc
      refine ⟨rfl, ?_⟩
      have hn := slot_lt_length hs
      have : vis.node < addr.length := by rw [hI.len]; exact hn
      have hb := (hI.branch _ _ _ _ hs rfl rfl (List.getElem?_eq_getElem this)).1
      rw [← hI.len]
      exact (List.getElem?_eq_some.1 hb).1
    | false =>
      right
      refine ⟨fun c' hc' => (by cases hc'; exact hset), ?_, hvalid'⟩
      rcases new_branch_of_steps hsteps _ _ _ hbr rfl rfl with h1 | h2
      · rw [hs] at h1
        have := Option.some.inj h1
        rw [this] at hset
        cases hset
      · exact h2

/-- Witness of the amended C14: the second of three depth-2 patches of one face, which
goes through the branch made for the first, in a vector reserved to `1 + 3` nodes. -/
theorem descent_follows_branches_witness :
    (∀ p ∈ sharedPrefixTable.paramTable, p.faceIndex < 1) ∧
    PrefixFree (placements resolveQuadrant sharedPrefixTable.paramTable 0) ∧
    sharedPrefixTable.paramTable[1]? = some ⟨0, 2, false, 1, 0⟩ ∧
    (⟨0, 2, false, 1, 0⟩ : PatchParam).pdepth = ((1 : Nat) : Int) ∧
    1 + (branchPrefixes (placements resolveQuadrant
      (sharedPrefixTable.paramTable.take (1 + 1)) 0)).toFinset.card ≤ 4 ∧
    ∃ T T' tr, placeAll resolveQuadrant (capacityAt doubling 4)
        (sharedPrefixTable.paramTable.take 1) (List.replicate 1 QuadNode.empty) 0 = .ok T ∧
      placePatch resolveQuadrant (capacityAt doubling 4) ⟨0, 2, false, 1, 0⟩ 1 T
        = .ok (T', tr) ∧
      tr.length = 1 + 1 ∧
      (tr[0]?).map Visit.node = some (⟨0, 2, false, 1, 0⟩ : PatchParam).faceIndex ∧
      (⟨0, 2, false, 1, 0⟩ : PatchParam).faceIndex < T.length ∧
      ∀ k vis vis', tr[k]? = some vis → tr[k + 1]? = some vis' →
        (∀ c, slot T vis.node vis.quadrant = some c → c.isSet = true → c.isLeaf = false) ∧
        slot T' vis.node vis.quadrant = some (Child.branch vis'.node) ∧
        ((slot T vis.node vis.quadrant = some (Child.branch vis'.node) ∧
            vis'.node < T.length) ∨
         ((∀ c, slot T vis.node vis.quadrant = some c → c.isSet = false) ∧
            T.length ≤ vis'.node ∧ vis'.node < T'.length)) :=
  ⟨by decide, by decide, rfl, by decide, by decide,
    descent_follows_branches resolveQuadrant doubling 4 1 sharedPrefixTable.paramTable 1
      ⟨0, 2, false, 1, 0⟩ 1 (by decide) (by decide) rfl (by decide) (by decide)⟩

/-! ## The frame of a placement -/

theorem addChild_getElem?_ne (c : Nat) (T : QuadTree) (parent : Nat) (q : Fin 4) {m : Nat}
    (hne : m ≠ parent) (hm : m < T.length) : (addChild c T parent q).1[m]? = T[m]? := by
  by_cases hc : T.length < c
  · rw [addChild_of_lt hc]
    simp only [List.getElem?_modify, List.getElem?_append, hm, if_true]
    simp [Ne.symm hne]
  · rw [addChild_of_full hc]
    simp [List.getElem?_append, hm]

/-- The descent leaves the nodes it does not visit as they are. -/
theorem descend_unvisited (rq : Resolver) (cap : Nat → Nat) (h : Nat) (pd : Int) :
    ∀ (n k node half u v : Nat) (T : QuadTree) (res : QuadTree × List Visit),
      descend rq cap h pd n k node half u v T = .ok res →
      ∀ m, m < T.length → (∀ vis ∈ res.2, vis.node ≠ m) → res.1[m]? = T[m]? := by
  intro n
  induction n with
  | zero =>
    intro k node half u v T res hres m _ _
    rw [descend_zero] at hres
    cases hres
    rfl
  | succ n ih =>
    intro k node half u v T res hres m hm hvis
    cases hnd : T[node]? with
    | none => rw [descend_invalid rq _ h pd n k node half u v hnd] at hres; cases hres
    | some nd =>
      rw [descend_succ rq _ h pd n k node half u v hnd] at hres
      by_cases hk : (k : Int) = pd
      · simp only [hk, if_true] at hres
        by_cases hs : (nd.children (rq half u v).1).isSet = true
        · simp [hs] at hres
        · simp only [hs] at hres
          cases hres
          have hne : node ≠ m := hvis _ (List.mem_singleton.2 rfl)
          exact List.getElem?_set_ne hne
      · simp only [hk, if_false] at hres
        by_cases hs : (nd.children (rq half u v).1).isSet = false
        · simp only [hs, if_true] at hres
          obtain ⟨z, hz, hzr⟩ := except_map_eq_ok hres
          subst hzr
          have hne : node ≠ m := hvis _ (List.mem_cons_self _ _)
          have hm1 : m < (addChild (cap T.length) T node (rq half u v).1).1.length := by
            rw [addChild_length]; omega
          have := ih _ _ _ _ _ _ z hz m hm1
            (fun vis hv => hvis vis (List.mem_cons_of_mem _ hv))
          show z.1[m]? = _
          rw [this]
          exact addChild_getElem?_ne _ T node _ (Ne.symm hne) hm
        · simp only [hs, if_false] at hres
          by_cases hi : (nd.children (rq half u v).1).idx < T.length
          · simp only [hi, if_true] at hres
            obtain ⟨z, hz, hzr⟩ := except_map_eq_ok hres
            subst hzr
            exact ih _ _ _ _ _ _ z hz m hm
              (fun vis hv => hvis vis (List.mem_cons_of_mem _ hv))
          · simp [hi] at hres

theorem walk_extends {T T' : QuadTree} (hext : Extends T T') :
    ∀ (Q : List (Fin 4)) (s n : Nat), walk T s Q = some n → walk T' s Q = some n := by
  intro Q
  induction Q with
  | nil => intro s n h; exact h
  | cons q Q ih =>
    intro s n h
    simp only [walk] at h ⊢
    cases hs : slot T s q with
    | none => rw [hs] at h; cases h
    | some c =>
      rw [hs] at h
      by_cases hc : (c.isSet && !c.isLeaf) = true
      · simp only [hc, if_true] at h
        have hset : c.isSet = true := by
          cases hx : c.isSet with
          | true => rfl
          | false => rw [hx] at hc; cases hc
        rw [hext.2 _ _ _ hs hset]
        simp only [hc, if_true]
        exact ih _ _ h
      · simp [hc] at h

/-- The node reached by a walk has the address of the start extended by the
quadrants walked. -/
theorem addr_of_walk {F : Nat} {T : QuadTree} {addr : List (Nat × List (Fin 4))}
    {A B : Set Placed} (hI : InvA F T addr A B) :
    ∀ (Q : List (Fin 4)) (s n : Nat) (a : Nat × List (Fin 4)), addr[s]? = some a →
      walk T s Q = some n → addr[n]? = some (a.1, a.2 ++ Q) := by
  intro Q
  induction Q with
  | nil =>
    intro s n a ha h
    simp only [walk, Option.some.injEq] at h
    subst h
    simpa using ha
  | cons q Q ih =>
    intro s n a ha h
    simp only [walk] at h
    cases hs : slot T s q with
    | none => rw [hs] at h; cases h
    | some c =>
      rw [hs] at h
      by_cases hc : (c.isSet && !c.isLeaf) = true
      · simp only [hc, if_true] at h
        have hset : c.isSet = true := by
          cases hx : c.isSet with
          | true => rfl
          | false => rw [hx] at hc; cases hc
        have hleaf : c.isLeaf = false := by
          cases hx : c.isLeaf with
          | false => rfl
          | true => rw [hx, hset] at hc; cases hc
        have hb := (hI.branch _ _ _ _ hs hset hleaf ha).1
        have := ih _ _ _ hb h
        simpa using this
      · simp [hc] at h

/-- The face of the address of a node is one of the `F` roots. -/
theorem addr_face_lt {F : Nat} {T : QuadTree} {addr : List (Nat × List (Fin 4))}
    {A B : Set Placed} (hI : InvA F T addr A B) :
    ∀ (L n : Nat) (a : Nat × List (Fin 4)), a.2.length = L → addr[n]? = some a →
      a.1 < F := by
  intro L
  induction L with
  | zero =>
    intro n a hL ha
    have hnil : a.2 = [] := List.length_eq_zero.1 hL
    by_cases hn : n < F
    · rw [hI.root_addr n hn] at ha
      cases ha
      exact hn
    · obtain ⟨m, Q, q, h1, _⟩ := hI.parent n a (by omega) ha
      rw [hnil] at h1
      simp at h1
  | succ L ih =>
    intro n a hL ha
    by_cases hn : n < F
    · rw [hI.root_addr n hn] at ha
      cases ha
      exact hn
    · obtain ⟨m, Q, q, h1, h2, _⟩ := hI.parent n a (by omega) ha
      have hQ : Q.length = L := by
        rw [h1] at hL; simpa using hL
      exact ih m (a.1, Q) hQ h2

/-- Walks from a node of face `g` are the same in two trees that agree on the nodes
of face `g`. -/
theorem frame_walk {F : Nat} {T T' : QuadTree} {addr : List (Nat × List (Fin 4))}
    {A B : Set Placed} (hI : InvA F T addr A B) {g : Nat}
    (hsame : ∀ (n : Nat) (a : Nat × List (Fin 4)), addr[n]? = some a → a.1 = g →
      T'[n]? = T[n]?) :
    ∀ (Q : List (Fin 4)) (s : Nat) (a : Nat × List (Fin 4)), addr[s]? = some a →
      a.1 = g → walk T' s Q = walk T s Q := by
  intro Q
  induction Q with
  | nil => intro s a _ _; rfl
  | cons q Q ih =>
    intro s a ha hg
    have hslot : slot T' s q = slot T s q := by
      unfold slot; rw [hsame s a ha hg]
    simp only [walk, hslot]
    cases hs : slot T s q with
    | none => rfl
    | some c =>
      by_cases hc : (c.isSet && !c.isLeaf) = true
      · simp only [hc, if_true]
        have hset : c.isSet = true := by
          cases hx : c.isSet with
          | true => rfl
          | false => rw [hx] at hc; cases hc
        have hleaf : c.isLeaf = false := by
          cases hx : c.isLeaf with
          | false => rfl
          | true => rw [hx, hset] at hc; cases hc
        exact ih _ _ (hI.branch _ _ _ _ hs hset hleaf ha).1 hg
      · simp [hc]

/-- Queries from a node of face `g` give the same result in two trees that agree on
the nodes of face `g`. -/
theorem frame_findLeaf {rq : Resolver} {F : Nat} {T T' : QuadTree}
    {addr : List (Nat × List (Fin 4))} {A B : Set Placed} (hI : InvA F T addr A B)
    {g : Nat} (hsame : ∀ (n : Nat) (a : Nat × List (Fin 4)), addr[n]? = some a → a.1 = g →
      T'[n]? = T[n]?) :
    ∀ (fuel s : Nat) (a : Nat × List (Fin 4)) (half u v : Nat), addr[s]? = some a →
      a.1 = g → findLeaf rq T' fuel s half u v = findLeaf rq T fuel s half u v := by
  intro fuel
  induction fuel with
  | zero => intro s a half u v _ _; rfl
  | succ fuel ih =>
    intro s a half u v ha hg
    have hTs := hsame s a ha hg
    simp only [findLeaf, hTs]
    cases hnd : T[s]? with
    | none => rfl
    | some nd =>
      simp only
      by_cases hset : (nd.children (rq half u v).1).isSet = true
      · by_cases hleaf : (nd.children (rq half u v).1).isLeaf = true
        · simp [hset, hleaf]
        · have hleaf' : (nd.children (rq half u v).1).isLeaf = false := by
            simpa using hleaf
          simp only [hset, hleaf', Bool.not_true, Bool.false_eq_true, if_false]
          exact ih _ _ _ _ _
            (hI.branch _ _ _ _ (slot_of_getElem? hnd _) hset hleaf' ha).1 hg
      · simp [hset]

/-- On a tree that represents placements from which the placement of a patch is
apart, in a node vector that is never full, the placement of the patch completes, and
every node of the tree before that it changes has an address of the face of the
patch. -/
theorem placePatch_frame_stage {rq : Resolver} {F : Nat} {T : QuadTree}
    {addr : List (Nat × List (Fin 4))} {B : Set Placed} {param : PatchParam}
    (h : Nat) (hI : InvA F T addr B B) (hf : param.faceIndex < F)
    (hapart : ∀ P, param.path rq = some P → ∀ b ∈ B, b.Apart ⟨h, param.faceIndex, P⟩) :
    ∃ T' tr, placePatch rq unlimited param h T = .ok (T', tr) ∧
      ∀ n, n < T.length → T'[n]? ≠ T[n]? → ∃ Q, addr[n]? = some (param.faceIndex, Q) := by
  have hlt : param.faceIndex < T.length := Nat.lt_of_lt_of_le hf hI.roots_le
  cases hpath : param.path rq with
  | none =>
    exact ⟨T, [], placePatch_unplaced h hlt hpath, fun n _ hne => (hne rfl).elim⟩
  | some P =>
    cases hw : param.wholeFace with
    | true =>
      refine ⟨T.set param.faceIndex (T[param.faceIndex].SetChildAll h), [],
        by simp [placePatch, List.getElem?_eq_getElem hlt, hw], ?_⟩
      intro n _ hne
      by_cases hn : param.faceIndex = n
      · subst hn
        exact ⟨[], hI.root_addr _ hf⟩
      · exact (hne (List.getElem?_set_ne hn)).elim
    | false =>
      obtain ⟨d, hd, hP⟩ := path_general hw hpath
      subst hP
      obtain ⟨T', tr, addr', hp, hI', hsteps, _, _, hhead, hchain, _⟩ :=
        placePatch_general_stage h hI hf hd (hapart _ hpath)
      refine ⟨T', tr, hp, ?_⟩
      have hvisited : ∀ (k : Nat) (vis : Visit), tr[k]? = some vis →
          ∃ Q, addr'[vis.node]? = some (param.faceIndex, Q) := by
        intro k
        induction k with
        | zero =>
          intro vis hv
          rw [hv] at hhead
          simp only [Option.map_some', Option.some.injEq] at hhead
          rw [hhead]
          exact ⟨[], hI'.root_addr _ hf⟩
        | succ k ih =>
          intro vis hv
          have hk : k < tr.length := by
            have := (List.getElem?_eq_some.1 hv).1
            omega
          obtain ⟨Q, hQ⟩ := ih _ (List.getElem?_eq_getElem hk)
          have hbr := hchain k _ vis (List.getElem?_eq_getElem hk) hv
          exact ⟨_, (hI'.branch _ _ _ _ hbr rfl rfl hQ).1⟩
      intro n hn hne
      have hin : ∃ vis ∈ tr, vis.node = n := by
        by_contra hno
        have hno' : ∀ vis ∈ tr, vis.node ≠ n := fun vis hv he => hno ⟨vis, hv, he⟩
        rw [placePatch_eq_descend hd h hlt] at hp
        exact hne (descend_unvisited rq _ h _ _ _ _ _ _ _ _ _ hp n hn hno')
      obtain ⟨vis, hv, rfl⟩ := hin
      obtain ⟨k, hk, hke⟩ := List.getElem_of_mem hv
      obtain ⟨Q, hQ⟩ := hvisited k vis (by rw [List.getElem?_eq_getElem hk, hke])
      have hna : vis.node < addr.length := by rw [hI.len]; exact hn
      have ha := List.getElem?_eq_getElem hna
      have hwalk := walk_of_addr hI _ _ _ rfl ha
      have hwalk' := walk_extends (extends_of_steps hsteps) _ _ _ hwalk
      have hroot := hI'.root_addr _ (addr_face_lt hI _ _ _ rfl ha)
      have := addr_of_walk hI' _ _ _ _ hroot hwalk'
      rw [hQ] at this
      simp only [List.nil_append, Option.some.injEq, Prod.mk.injEq] at this
      refine ⟨addr[vis.node].2, ?_⟩
      rw [ha, this.1]

/-- C17 (counterexample): two faces; after a depth-1 patch has put `leaf 0` in slot 0
of the root of face 1, the descent of a depth-2 patch of face 1 inside that quadrant
goes from node 1 to node 0, the root of face 0, and puts `leaf 1` in its slot 2. A
query on face 0 that found nothing before that placement returns handle index 1
after it. -/
theorem placement_changes_other_face :
    treeView (treeAfter resolveQuadrant (capacityAt doubling 4) 2 [⟨1, 1, false, 0, 0⟩])
      = [[Child.unset, Child.unset, Child.unset, Child.unset],
         [Child.leaf 0, Child.unset, Child.unset, Child.unset]] ∧
    (placePatch resolveQuadrant (capacityAt doubling 4) ⟨1, 2, false, 0, 1⟩ 1
        (treeAfter resolveQuadrant (capacityAt doubling 4) 2
          [⟨1, 1, false, 0, 0⟩])).toOption.map
          (fun res => (treeView res.1, res.2.map Visit.node))
      = some ([[Child.unset, Child.unset, Child.leaf 1, Child.unset],
               [Child.leaf 0, Child.unset, Child.unset, Child.unset]], [1, 0]) ∧
    findLeaf resolveQuadrant
      (treeAfter resolveQuadrant (capacityAt doubling 4) 2 [⟨1, 1, false, 0, 0⟩])
      2 0 1 0 1 = none ∧
    findLeaf resolveQuadrant
      (treeAfter resolveQuadrant (capacityAt doubling 4) 2
        [⟨1, 1, false, 0, 0⟩, ⟨1, 2, false, 0, 1⟩])
      2 0 1 0 1 = some 1 ∧
    (initializeMap resolveQuadrant doubling crossFaceTable).toOption.map
        (fun pm => treeView pm.quadtree)
      = some [[Child.unset, Child.unset, Child.leaf 1, Child.unset],
              [Child.leaf 0, Child.unset, Child.unset, Child.unset]] := by
  refine ⟨by decide, by decide, by decide, by decide, by decide⟩

/-- C17 (amended): in a table whose placements are pairwise prefix-free, and in a
node vector whose reserved capacity `R` holds the `F` roots and the distinct branch
prefixes of the patches up to patch `i`, the placement of patch `i`, of coarse face
`f`, on the tree of the patches before it completes, and every node of that tree it
changes is reached from root `f` through branch slots. For every other face `g`, the
root and every node reached from it through branch slots are left as they are, the
same nodes are reached from root `g` afterwards, and every query on face `g` gives
the same result before and after the placement. -/
theorem placement_frame (rq : Resolver) (grow : Growth) (R F : Nat)
    (params : List PatchParam) (i : Nat) (p : PatchParam) (g : Nat)
    (hF : ∀ p ∈ params, p.faceIndex < F)
    (hfree : PrefixFree (placements rq params 0))
    (hi : params[i]? = some p) (hg : g < F) (hne : g ≠ p.faceIndex)
    (hcap : F + (branchPrefixes (placements rq (params.take (i + 1)) 0)).toFinset.card
      ≤ R) :
    ∃ T T' tr, placeAll rq (capacityAt grow R) (params.take i)
        (List.replicate F QuadNode.empty) 0 = .ok T ∧
      placePatch rq (capacityAt grow R) p i T = .ok (T', tr) ∧
      (∀ n, n < T.length → T'[n]? ≠ T[n]? → ∃ Q, walk T p.faceIndex Q = some n) ∧
      (∀ Q n, walk T g Q = some n → T'[n]? = T[n]?) ∧
      (∀ Q, walk T' g Q = walk T g Q) ∧
      ∀ fuel half u v,
        findLeaf rq T' fuel g half u v = findLeaf rq T fuel g half u v := by
  have hFt : ∀ p' ∈ params.take i, p'.faceIndex < F :=
    fun p' hp' => hF p' (List.mem_of_mem_take hp')
  obtain ⟨T, addr, hT, hI⟩ := stage_inv rq F (params.take i) hFt (prefixFree_take hfree i)
  have hf : p.faceIndex < F := hF p (by
    obtain ⟨hlt, hpe⟩ := List.getElem?_eq_some.1 hi
    exact hpe ▸ List.getElem_mem hlt)
  obtain ⟨T', tr, hp, hmod⟩ := placePatch_frame_stage i hI hf
    (fun P hP => apart_of_prefixFree hfree hi hP)
  obtain ⟨hTc, hpc⟩ := stage_within rq grow R F params i p hF hfree hi hcap hT hp
  have hsame : ∀ (n : Nat) (a : Nat × List (Fin 4)), addr[n]? = some a → a.1 = g →
      T'[n]? = T[n]? := by
    intro n a ha hag
    by_contra hch
    have hn : n < T.length := by
      rw [← hI.len]; exact (List.getElem?_eq_some.1 ha).1
    obtain ⟨Q, hQ⟩ := hmod n hn hch
    rw [hQ] at ha
    cases ha
    exact hne hag.symm
  have hroot := hI.root_addr g hg
  refine ⟨T, T', tr, hTc, hpc, ?_, ?_, ?_, ?_⟩
  · intro n hn hch
    obtain ⟨Q, hQ⟩ := hmod n hn hch
    exact ⟨Q, walk_of_addr hI _ _ _ rfl hQ⟩
  · intro Q n hw
    exact hsame _ _ (addr_of_walk hI _ _ _ _ hroot hw) rfl
  · intro Q
    exact frame_walk hI hsame Q g _ hroot rfl
  · intro fuel half u v
    exact frame_findLeaf hI hsame fuel g _ half u v hroot rfl

/-- Witness of the amended C17: two faces with a depth-2 patch each; the placement of
the patch of face 1, which appends a node, leaves the root of face 0 and the node
under it as they are, in a vector reserved to `2 + 2` nodes. -/
theorem placement_frame_witness :
    (∀ p ∈ [(⟨0, 2, false, 3, 1⟩ : PatchParam), ⟨1, 2, false, 0, 0⟩], p.faceIndex < 2) ∧
    PrefixFree (placements resolveQuadrant
      [(⟨0, 2, false, 3, 1⟩ : PatchParam), ⟨1, 2, false, 0, 0⟩] 0) ∧
    [(⟨0, 2, false, 3, 1⟩ : PatchParam), ⟨1, 2, false, 0, 0⟩][1]?
      = some ⟨1, 2, false, 0, 0⟩ ∧
    0 < 2 ∧ 0 ≠ (⟨1, 2, false, 0, 0⟩ : PatchParam).faceIndex ∧
    2 + (branchPrefixes (placements resolveQuadrant
      ([(⟨0, 2, false, 3, 1⟩ : PatchParam), ⟨1, 2, false, 0, 0⟩].take (1 + 1))
        0)).toFinset.card ≤ 4 ∧
    ∃ T T' tr, placeAll resolveQuadrant (capacityAt doubling 4)
        ([(⟨0, 2, false, 3, 1⟩ : PatchParam), ⟨1, 2, false, 0, 0⟩].take 1)
        (List.replicate 2 QuadNode.empty) 0 = .ok T ∧
      placePatch resolveQuadrant (capacityAt doubling 4) ⟨1, 2, false, 0, 0⟩ 1 T
        = .ok (T', tr) ∧
      (∀ n, n < T.length → T'[n]? ≠ T[n]? →
        ∃ Q, walk T (⟨1, 2, false, 0, 0⟩ : PatchParam).faceIndex Q = some n) ∧
      (∀ Q n, walk T 0 Q = some n → T'[n]? = T[n]?) ∧
      (∀ Q, walk T' 0 Q = walk T 0 Q) ∧
      ∀ fuel half u v,
        findLeaf resolveQuadrant T' fuel 0 half u v
          = findLeaf resolveQuadrant T fuel 0 half u v :=
  ⟨by decide, by decide, rfl, by decide, by decide, by decide,
    placement_frame resolveQuadrant doubling 4 2
      [⟨0, 2, false, 3, 1⟩, ⟨1, 2, false, 0, 0⟩] 1 ⟨1, 2, false, 0, 0⟩ 0
      (by decide) (by decide) rfl (by decide) (by decide) (by decide)⟩

/-- Within the reserved capacity nodes are shared: on a table whose placements are
pairwise prefix-free, whose distinct branch prefixes (face, first `i` quadrants of the
path with `1 ≤ i ≤ pdepth`) are no more than its patches, and whose build completes,
the number of nodes of the finished quadtree is the number of roots plus the number of
distinct branch prefixes: a node is made once for each prefix, however many patches
share it. -/
theorem nodes_count_branch_prefixes (rq : Resolver) (grow : Growth)
    (patchTables : PatchTables) (pm : PatchMap) (params : List PatchParam)
    (hsum : (patchTables.patchArrays.map PatchArray.numPatches).sum
      = patchTables.numPatches)
    (hparams : refParams patchTables.paramTable (patchRefs patchTables.patchArrays)
      = some params)
    (hfree : PrefixFree (placements rq params 0))
    (hcap : (branchPrefixes (placements rq params 0)).toFinset.card
      ≤ patchTables.numPatches)
    (hbuild : initializeMap rq grow patchTables = .ok pm) :
    pm.quadtree.length
      = numRoots patchTables params
        + (branchPrefixes (placements rq params 0)).toFinset.card := by
  by_cases hne : patchTables.numPatches = 0
  · have hq : pm.quadtree = [] := by
      simp only [initializeMap, hne, if_true, Except.ok.injEq] at hbuild
      subst hbuild; rfl
    rw [hne] at hsum
    rw [patchRefs_eq_nil hsum] at hparams
    simp only [refParams, Option.some.injEq] at hparams
    subst hparams
    simp [hq, numRoots, hne, placements, branchPrefixes]
  · obtain ⟨hn, params', _, hps, hfold, _, hplace⟩ := initializeMap_ok hne hbuild
    rw [hparams] at hps
    cases hps
    have hF : ∀ p' ∈ params, p'.faceIndex < hn.2 + 1 := by
      intro p' hp'
      have := foldFaces_ge params 0 p' hp'
      omega
    obtain ⟨T, addr, hT, hI⟩ := stage_inv rq (hn.2 + 1) params hF hfree
    have hlen := length_of_inv hI
    rw [placeAll_within grow hT (by omega)] at hplace
    cases hplace
    rw [hlen]
    simp only [numRoots, hne, if_false, hfold]

/-- An instance of the count of nodes within capacity: three depth-2 patches of one
face, two of which share their first quadrant. -/
theorem nodes_count_branch_prefixes_witness :
    (sharedPrefixTable.patchArrays.map PatchArray.numPatches).sum
      = sharedPrefixTable.numPatches ∧
    refParams sharedPrefixTable.paramTable (patchRefs sharedPrefixTable.patchArrays)
      = some sharedPrefixTable.paramTable ∧
    PrefixFree (placements resolveQuadrant sharedPrefixTable.paramTable 0) ∧
    (branchPrefixes (placements resolveQuadrant sharedPrefixTable.paramTable 0)).toFinset.card
      ≤ sharedPrefixTable.numPatches ∧
    initializeMap resolveQuadrant doubling sharedPrefixTable
      = .ok (builtMap resolveQuadrant doubling sharedPrefixTable) ∧
    (builtMap resolveQuadrant doubling sharedPrefixTable).quadtree.length
      = numRoots sharedPrefixTable sharedPrefixTable.paramTable
        + (branchPrefixes
            (placements resolveQuadrant sharedPrefixTable.paramTable 0)).toFinset.card :=
  ⟨by decide, by decide, by decide, by decide, rfl,
    nodes_count_branch_prefixes resolveQuadrant doubling sharedPrefixTable _ _ (by decide)
      (by decide) (by decide) (by decide) rfl⟩

/-- C12 (failing input): one face and two depth-4 patches whose quadrant paths share
their first three quadrants. The placements are prefix-free and have 3 distinct branch
prefixes, so that 1 + 3 nodes are expected. The node vector is reserved to
`nfaces + npatches = 3` nodes: the third `addChild` of the first patch finds it full,
the `push_back` reallocates it and the branch from node 2 to node 3 is not written in
it. The second patch finds that slot unset and appends a second node for the same
prefix: the build completes with 5 nodes, node 3 hanging from no slot. -/
theorem deepShared_node_count :
    PrefixFree (placements resolveQuadrant deepSharedTable.paramTable 0) ∧
    (branchPrefixes (placements resolveQuadrant deepSharedTable.paramTable 0)).toFinset.card
      = 3 ∧
    numRoots deepSharedTable deepSharedTable.paramTable = 1 ∧
    (initializeMap resolveQuadrant doubling deepSharedTable).toOption.map
        (fun pm => (pm.quadtree.length, treeView pm.quadtree))
      = some (5,
          [[Child.branch 1, Child.unset, Child.unset, Child.unset],
           [Child.branch 2, Child.unset, Child.unset, Child.unset],
           [Child.branch 4, Child.unset, Child.unset, Child.unset],
           [Child.leaf 0, Child.unset, Child.unset, Child.unset],
           [Child.unset, Child.leaf 1, Child.unset, Child.unset]]) := by
  refine ⟨by decide, by decide, by decide, by decide⟩

/-! ## The iterations of a descent -/

/-- The descent within the reserved capacity: a patch of the general case with
`pdepth = d ≥ 0` and address below `2^(d+1)`, placed on a tree where its path is free,
in a node vector whose reserved capacity `R` has room for `d` more nodes. The
placement completes; the
descent loop makes exactly `d + 1` resolver calls, one per iteration; iteration `k`
calls the resolver with `half = 2^(d-k)` and the residual address
`(u mod 2^(d-k+1), v mod 2^(d-k+1))`, which lies in `[0, 2*half)`; the quadrant it
gets is given by bit `d-k` of the original `u` and `v`; the first iteration is at the
root of the face; the slot of every iteration `k < d` is, in the resulting tree, the
branch to the node of iteration `k+1`; the slot of iteration `d` is the leaf of the
handle index; and no other slot of the tree has become a leaf. -/
theorem descent_iterations (grow : Growth) (R : Nat) (param : PatchParam) (h d : Nat)
    (T : QuadTree)
    (hd : param.pdepth = (d : Int))
    (hu : param.u < 2 ^ (d + 1)) (hv : param.v < 2 ^ (d + 1))
    (hroot : param.faceIndex < T.length)
    (hfree : pathFree resolveQuadrant T d param.faceIndex (2 ^ d) param.u param.v = true)
    (hcap : T.length + d ≤ R) :
    ∃ T' tr, placePatch resolveQuadrant (capacityAt grow R) param h T = .ok (T', tr) ∧
      tr.length = d + 1 ∧
      (∀ k, k ≤ d → ∃ vis, tr[k]? = some vis ∧ vis.k = k ∧ vis.half = 2 ^ (d - k) ∧
        vis.u = param.u % 2 ^ (d - k + 1) ∧ vis.v = param.v % 2 ^ (d - k + 1) ∧
        vis.u < 2 * vis.half ∧ vis.v < 2 * vis.half ∧
        (vis.quadrant : Nat)
          = 2 * (param.v.testBit (d - k)).toNat + (param.u.testBit (d - k)).toNat ∧
        (k = 0 → vis.node = param.faceIndex) ∧
        (k < d → ∃ vis', tr[k + 1]? = some vis' ∧
          slot T' vis.node vis.quadrant = some (Child.branch vis'.node)) ∧
        (k = d → slot T' vis.node vis.quadrant = some (Child.leaf h))) ∧
      (∀ n q c, slot T' n q = some c → c.isSet = true → c.isLeaf = true →
        slot T n q = some c ∨
        ∃ vis, tr[d]? = some vis ∧ n = vis.node ∧ q = vis.quadrant ∧ c = Child.leaf h) := by
  obtain ⟨hw, hdepth, htoNat⟩ := pdepth_general hd
  obtain ⟨T', tr, hdesc, hseq, hks, hhead, hchain, hlast, hleaves⟩ :=
    descend_free resolveQuadrant h param.pdepth d param.depth 0 param.faceIndex (2 ^ d)
      param.u param.v T (by rw [hd]; simp) hdepth hroot hfree
  have hlen : tr.length = d + 1 := by
    have := congrArg List.length hseq
    simpa [resolveSeq_length] using this
  have hp : placePatch resolveQuadrant unlimited param h T = .ok (T', tr) := by
    unfold placePatch
    rw [List.getElem?_eq_getElem hroot]
    simp only [hw, htoNat, Nat.one_shiftLeft]
    exact hdesc
  have hT' : T'.length ≤ R := by
    have := (placePatch_length hp).2
    simp only [PatchParam.maxNewNodes, hw, htoNat] at this
    have e : T'.length ≤ T.length + d := by simpa using this
    omega
  refine ⟨T', tr, placePatch_within grow hp hT', hlen, ?_, hleaves⟩
  · intro k hk
    have hklt : k < tr.length := by omega
    obtain ⟨q, hq, hbits⟩ := resolveSeq_resolveQuadrant d param.u param.v hu hv k hk
    have h1 := congrArg (fun l => l[k]?) hseq
    simp only [List.getElem?_map, List.getElem?_eq_getElem hklt, Option.map_some', hq,
      Option.some.injEq, Prod.mk.injEq] at h1
    obtain ⟨e1, e2, e3, e4⟩ := h1
    have h2 := congrArg (fun l => l[k]?) hks
    simp only [List.getElem?_map, List.getElem?_eq_getElem hklt, Option.map_some'] at h2
    rw [List.getElem?_range' _ _ (by omega)] at h2
    simp only [Option.some.injEq, Nat.zero_add, Nat.one_mul] at h2
    have hpow : (2 : Nat) ^ (d - k + 1) = 2 * 2 ^ (d - k) := by rw [Nat.pow_succ]; omega
    refine ⟨tr[k], List.getElem?_eq_getElem hklt, h2, e1, e2, e3, ?_, ?_, ?_, ?_, ?_, ?_⟩
    · rw [e2, e1, ← hpow]; exact Nat.mod_lt _ (by positivity)
    · rw [e3, e1, ← hpow]; exact Nat.mod_lt _ (by positivity)
    · rw [e4]; exact hbits
    · intro hk0
      subst hk0
      simpa [List.getElem?_eq_getElem hklt] using hhead
    · intro hkd
      have hk1 : k + 1 < tr.length := by omega
      exact ⟨tr[k + 1], List.getElem?_eq_getElem hk1,
        hchain k _ _ (List.getElem?_eq_getElem hklt) (List.getElem?_eq_getElem hk1)⟩
    · intro hkd
      subst hkd
      exact hlast _ (List.getElem?_eq_getElem hklt)

/-- An instance of the descent within capacity: the patch of depth 3 at address (5,2)
placed on the fresh root of face 0, in a vector reserved to 3 nodes. -/
theorem descent_iterations_witness :
    (⟨0, 3, false, 5, 2⟩ : PatchParam).pdepth = ((2 : Nat) : Int) ∧
    (⟨0, 3, false, 5, 2⟩ : PatchParam).u < 2 ^ (2 + 1) ∧
    (⟨0, 3, false, 5, 2⟩ : PatchParam).v < 2 ^ (2 + 1) ∧
    (⟨0, 3, false, 5, 2⟩ : PatchParam).faceIndex < [QuadNode.empty].length ∧
    pathFree resolveQuadrant [QuadNode.empty] 2 0 (2 ^ 2) 5 2 = true ∧
    [QuadNode.empty].length + 2 ≤ 3 ∧
    ∃ T' tr, placePatch resolveQuadrant (capacityAt doubling 3) ⟨0, 3, false, 5, 2⟩ 7
          [QuadNode.empty]
        = .ok (T', tr) ∧
      tr.length = 2 + 1 ∧
      (∀ k, k ≤ 2 → ∃ vis, tr[k]? = some vis ∧ vis.k = k ∧ vis.half = 2 ^ (2 - k) ∧
        vis.u = 5 % 2 ^ (2 - k + 1) ∧ vis.v = 2 % 2 ^ (2 - k + 1) ∧
        vis.u < 2 * vis.half ∧ vis.v < 2 * vis.half ∧
        (vis.quadrant : Nat)
          = 2 * (Nat.testBit 2 (2 - k)).toNat + (Nat.testBit 5 (2 - k)).toNat ∧
        (k = 0 → vis.node = 0) ∧
        (k < 2 → ∃ vis', tr[k + 1]? = some vis' ∧
          slot T' vis.node vis.quadrant = some (Child.branch vis'.node)) ∧
        (k = 2 → slot T' vis.node vis.quadrant = some (Child.leaf 7))) ∧
      (∀ n q c, slot T' n q = some c → c.isSet = true → c.isLeaf = true →
        slot [QuadNode.empty] n q = some c ∨
        ∃ vis, tr[2]? = some vis ∧ n = vis.node ∧ q = vis.quadrant ∧ c = Child.leaf 7) :=
  ⟨by decide, by decide, by decide, by decide, by decide, by decide,
    descent_iterations doubling 3 ⟨0, 3, false, 5, 2⟩ 7 2 [QuadNode.empty] (by decide)
      (by decide) (by decide) (by decide) (by decide) (by decide)⟩

/-- C10 (failing input): the patch of depth 3 at address (0,0) of the table with that
single patch, placed on the fresh root of face 0, where its path is free, in the node
vector reserved to `nfaces + npatches = 2` nodes. The descent runs its three
iterations at nodes 0, 1 and 2 with `half` = 4, 2, 1 and quadrant 0, and the last sets
the leaf; the slot of iteration 0 is the branch to node 1, but the slot of iteration 1
is left unset: the second `addChild` finds the vector full, the `push_back`
reallocates it and the branch to node 2 is not written in it. -/
theorem deepPatch_branch_not_written :
    (⟨0, 3, false, 0, 0⟩ : PatchParam).pdepth = 2 ∧
    pathFree resolveQuadrant [QuadNode.empty] 2 0 (2 ^ 2) 0 0 = true ∧
    (placePatch resolveQuadrant (capacityAt doubling 2) ⟨0, 3, false, 0, 0⟩ 0
        [QuadNode.empty]).toOption.map
          (fun res => (res.2.map fun vis => (vis.k, vis.node, vis.half, vis.quadrant),
            treeView res.1))
      = some ([(0, 0, 4, 0), (1, 1, 2, 0), (2, 2, 1, 0)],
          [[Child.branch 1, Child.unset, Child.unset, Child.unset],
           [Child.unset, Child.unset, Child.unset, Child.unset],
           [Child.leaf 0, Child.unset, Child.unset, Child.unset]]) ∧
    (initializeMap resolveQuadrant doubling deepPatchTable).toOption.map
        (fun pm => treeView pm.quadtree)
      = some [[Child.branch 1, Child.unset, Child.unset, Child.unset],
              [Child.unset, Child.unset, Child.unset, Child.unset],
              [Child.leaf 0, Child.unset, Child.unset, Child.unset]] := by
  refine ⟨by decide, by decide, by decide, by decide⟩

end Far
